import Mathlib

/-!
# ICPC scoreboard engine (`src/main.cpp`)

A shallow embedding of the contest engine of `src/main.cpp` and a verification
of its specification.

Modelling conventions.

* `int` is `Int`.  Signed overflow is undefined behaviour in C++, so the
  embedding describes the executions in which no counter leaves the `int`
  range.
* `std::string` is `String`; `operator<` on strings is the lexicographic
  order on the character sequences (`strLt`).
* `map<string, ProblemStatus>` is an association list read with `getP`
  (missing key: the default-constructed status that `operator[]` would
  create) and written with `setP`.
* `Team*` identity is the team name: `addTeam` never registers a name twice,
  so the name is a key of the team collection.  `teamList` holds the teams by
  value, in the order of the C++ vector of pointers; the `teams` map is the
  lookup by name in that list.
* `std::sort(first, last, comp)` is `stdSort comp`.
* Text written to `cout` is a list of lines.
-/

namespace ICPC

/-! ## Data model (lines 10-65) -/

/-- A submission record (`struct Submission`, lines 10-17). -/
structure Submission where
  problem : String
  status : String
  time : Int
  isFrozen : Bool
deriving DecidableEq

/-- The per team and problem aggregate (`struct ProblemStatus`, lines 19-29);
the defaults are the values set by its constructor. -/
structure ProblemStatus where
  solved : Bool := false
  wrongAttempts : Int := 0
  solveTime : Int := 0
  frozenSubmissions : Int := 0
  wrongBeforeFreeze : Int := 0
  frozenSubs : List Submission := []
deriving DecidableEq

instance : Inhabited ProblemStatus := ⟨{}⟩

/-- The per team aggregate (`struct Team`, lines 31-39); the defaults are the
values set by `Team(string n)`. -/
structure Team where
  name : String
  problems : List (String × ProblemStatus) := []
  submissions : List Submission := []
  solvedCount : Int := 0
  penaltyTime : Int := 0
  solveTimes : List Int := []
deriving DecidableEq

/-- Reading `problems[k]`: the stored status, or the default-constructed one
when the key is absent. -/
def getP : List (String × ProblemStatus) → String → ProblemStatus
  | [], _ => {}
  | (k', v) :: m, k => if k' = k then v else getP m k

/-- Writing `problems[k] = v`: replaces the entry of key `k`, or adds one. -/
def setP : List (String × ProblemStatus) → String → ProblemStatus →
    List (String × ProblemStatus)
  | [], k, v => [(k, v)]
  | (k', v') :: m, k, v => if k' = k then (k, v) :: m else (k', v') :: setP m k v

/-- The status of problem `p` for team `t` (`t.problems[p]`). -/
def Team.status (t : Team) (p : String) : ProblemStatus := getP t.problems p

/-- The method `Team::addSubmission` (lines 41-64). -/
def Team.addSubmission (t : Team) (problem status : String) (time : Int)
    (frozen : Bool) : Team :=
  let t1 : Team :=
    { t with submissions := t.submissions ++ [⟨problem, status, time, frozen⟩] }
  let ps := getP t1.problems problem
  let t2 : Team :=
    if !ps.solved then
      if status = "Accepted" then
        if !frozen then
          { t1 with
            problems := setP t1.problems problem
              { ps with solved := true, solveTime := time }
            solvedCount := t1.solvedCount + 1
            penaltyTime := t1.penaltyTime + (20 * ps.wrongAttempts + time)
            solveTimes := t1.solveTimes ++ [time] }
        else t1
      else
        if !frozen then
          { t1 with
            problems := setP t1.problems problem
              { ps with wrongAttempts := ps.wrongAttempts + 1 } }
        else t1
    else t1
  let ps2 := getP t2.problems problem
  if frozen && !ps2.solved then
    { t2 with
      problems := setP t2.problems problem
        { ps2 with
          frozenSubmissions := ps2.frozenSubmissions + 1
          frozenSubs := ps2.frozenSubs ++ [⟨problem, status, time, frozen⟩] } }
  else t2

/-! ## Ranking comparator (lines 67-88) -/

/-- The order `operator<` of `std::string`: lexicographic on the characters. -/
def strLt (a b : String) : Bool := decide (a.data < b.data)

/-- The test `is_sorted(v.rbegin(), v.rend())`: the vector is non-increasing. -/
def isSortedDesc : List Int → Bool
  | a :: b :: rest => decide (b ≤ a) && isSortedDesc (b :: rest)
  | _ => true

/-- The result of `sort(v.rbegin(), v.rend())`: the vector in descending order. -/
def sortDesc (l : List Int) : List Int := l.insertionSort (fun a b => b ≤ a)

/-- Lines 75-80: the solve times as the comparator reads them, sorted in
descending order unless they already are. -/
def normalizeTimes (l : List Int) : List Int :=
  if isSortedDesc l then l else sortDesc l

/-- The loop of lines 82-86 over the common positions of the two vectors: the
verdict at the first position where they differ, if there is one. -/
def firstDiff : List Int → List Int → Option Bool
  | x :: xs, y :: ys => if x ≠ y then some (decide (x < y)) else firstDiff xs ys
  | _, _ => none

/-- The comparator `compareTeams` (lines 67-88): `true` when `a` ranks before
`b`.  The C++ function also stores the sorted solve times back into both
teams; the embedding keeps them in push order and sorts at each comparison,
which returns the same verdict. -/
def compareTeams (a b : Team) : Bool :=
  if a.solvedCount ≠ b.solvedCount then decide (a.solvedCount > b.solvedCount)
  else if a.penaltyTime ≠ b.penaltyTime then decide (a.penaltyTime < b.penaltyTime)
  else
    match firstDiff (normalizeTimes a.solveTimes) (normalizeTimes b.solveTimes) with
    | some r => r
    | none => strLt a.name b.name

/-- The result of `std::sort(first, last, comp)` for a strict comparator
`comp`: the arrangement in which no element is preceded by one that `comp`
puts after it. -/
def stdSort {α : Type} (comp : α → α → Bool) (l : List α) : List α :=
  l.insertionSort (fun a b => comp b a = false)

/-! ## Contest engine (lines 90-348) -/

/-- The engine state (`class ICPCSystem`, lines 92-100). -/
structure State where
  teamList : List Team := []
  started : Bool := false
  frozen : Bool := false
  flushed : Bool := false
  durationTime : Int := 0
  problemCount : Int := 0
  freezeTime : Int := -1
  problemNames : List String := []
deriving DecidableEq

/-- The state built by the constructor (line 103). -/
def init : State := {}

/-- The lookup `teams.find(name)`. -/
def findTeam (l : List Team) (name : String) : Option Team :=
  l.find? (fun t => decide (t.name = name))

/-- The method `ICPCSystem::addTeam` (lines 105-116). -/
def addTeam (s : State) (name : String) : State × List String :=
  if s.started then (s, ["[Error]Add failed: competition has started."])
  else if (findTeam s.teamList name).isSome then
    (s, ["[Error]Add failed: duplicated team name."])
  else ({ s with teamList := s.teamList ++ [{ name := name }] }, ["[Info]Add successfully."])

/-- The name `string(1, 'A' + i)` of the problem of index `i` (line 126); a
`char` holds eight bits. -/
def problemName (i : Nat) : String := String.singleton (Char.ofNat ((65 + i) % 256))

/-- The method `ICPCSystem::start` (lines 118-134). -/
def start (s : State) (duration problems : Int) : State × List String :=
  if s.started then (s, ["[Error]Start failed: competition has started."])
  else
    ({ s with
       started := true
       durationTime := duration
       problemCount := problems
       problemNames := s.problemNames ++ (List.range problems.toNat).map problemName
       teamList := stdSort (fun a b => strLt a.name b.name) s.teamList },
     ["[Info]Competition starts."])

/-- Applying `f` to the team object that `teams[name]` points to. -/
def updateTeam (l : List Team) (name : String) (f : Team → Team) : List Team :=
  match l with
  | [] => []
  | t :: rest => if t.name = name then f t :: rest else t :: updateTeam rest name f

/-- The method `ICPCSystem::submit` (lines 136-139).  For an unregistered name
`teams[teamName]` is a null pointer and the call has no defined result. -/
def submit (s : State) (problem teamName status : String) (time : Int) : Option State :=
  match findTeam s.teamList teamName with
  | none => none
  | some _ =>
    some { s with
           teamList := updateTeam s.teamList teamName
             (fun t => t.addSubmission problem status time s.frozen) }

/-- The method `ICPCSystem::flush` (lines 141-145). -/
def flush (s : State) : State × List String :=
  ({ s with flushed := true, teamList := stdSort compareTeams s.teamList },
   ["[Info]Flush scoreboard."])

/-- The body of the inner loop of `freeze` (lines 154-156) on one status. -/
def freezeStatus (ps : ProblemStatus) : ProblemStatus :=
  if !ps.solved then { ps with wrongBeforeFreeze := ps.wrongAttempts } else ps

/-- The inner loop of `freeze` (lines 153-157) over one team's problem map. -/
def freezeProblems (m : List (String × ProblemStatus)) : List (String × ProblemStatus) :=
  m.map (fun e => (e.1, freezeStatus e.2))

/-- The method `ICPCSystem::freeze` (lines 147-161). -/
def freeze (s : State) : State × List String :=
  if s.frozen then (s, ["[Error]Freeze failed: scoreboard has been frozen."])
  else
    ({ s with
       frozen := true
       teamList := s.teamList.map (fun t => { t with problems := freezeProblems t.problems }) },
     ["[Info]Freeze scoreboard."])

/-- One problem cell of a scoreboard row (lines 258-277). -/
def cell (ps : ProblemStatus) : String :=
  if ps.frozenSubmissions > 0 then
    if ps.wrongBeforeFreeze > 0 then
      "-" ++ toString ps.wrongBeforeFreeze ++ "/" ++ toString ps.frozenSubmissions
    else "0/" ++ toString ps.frozenSubmissions
  else if ps.solved then
    if ps.wrongAttempts > 0 then "+" ++ toString ps.wrongAttempts else "+"
  else
    if ps.wrongAttempts > 0 then "-" ++ toString ps.wrongAttempts else "."

/-- One scoreboard row (lines 253-279) for the team at index `i`. -/
def row (names : List String) (i : Nat) (t : Team) : String :=
  t.name ++ " " ++ toString (i + 1) ++ " " ++ toString t.solvedCount ++ " " ++
    toString t.penaltyTime ++ String.join (names.map (fun p => " " ++ cell (t.status p)))

/-- The rows of `printScoreboard` from index `i` on. -/
def rowsFrom (names : List String) : Nat → List Team → List String
  | _, [] => []
  | i, t :: rest => row names i t :: rowsFrom names (i + 1) rest

/-- The method `ICPCSystem::printScoreboard` (lines 251-281). -/
def printScoreboard (s : State) : List String := rowsFrom s.problemNames 0 s.teamList

/-- The inner loop of lines 181-187: the first contest problem of `t`, in
contest order, whose pending count is positive. -/
def firstPending (t : Team) (names : List String) : Option String :=
  names.find? (fun p => decide ((t.status p).frozenSubmissions > 0))

/-- The loop of lines 179-189 run downwards from index `n - 1`: the team of
greatest index below `n` with a pending contest problem, and that problem. -/
def findTargetFrom (l : List Team) (names : List String) : Nat → Option (Nat × String)
  | 0 => none
  | i + 1 =>
    match l[i]? with
    | none => findTargetFrom l names i
    | some t =>
      match firstPending t names with
      | some p => some (i, p)
      | none => findTargetFrom l names i

/-- The target selection of a reveal iteration (lines 176-191). -/
def findTarget (s : State) : Option (Nat × String) :=
  findTargetFrom s.teamList s.problemNames s.teamList.length

/-- The search loops of lines 195-200 and 234-239 from index `i` on: the first
index holding the team, `-1` when there is none. -/
def findRankFrom : List Team → String → Int → Int
  | [], _, _ => -1
  | t :: rest, name, i => if t.name = name then i else findRankFrom rest name (i + 1)

/-- The index of the team called `name` in the ranking, `-1` when absent. -/
def findRank (l : List Team) (name : String) : Int := findRankFrom l name 0

/-- The loop of lines 208-221 over the pending queue, started with the count
`cnt`: the final `frozenWrongCount` and the time of the acceptance that ended
the loop, if one did. -/
def scanFrozen : List Submission → Int → Int × Option Int
  | [], cnt => (cnt, none)
  | sub :: rest, cnt =>
    if sub.status = "Accepted" then (cnt, some sub.time) else scanFrozen rest (cnt + 1)

/-- The resolution of the pending queue of problem `p` of the target team
(lines 202-228). -/
def resolve (t : Team) (p : String) : Team :=
  let ps := getP t.problems p
  let wasSolved := ps.solved
  let r := if !wasSolved then scanFrozen ps.frozenSubs 0 else (0, none)
  let t1 : Team :=
    match r.2 with
    | some time =>
      { t with
        problems := setP t.problems p
          { ps with
            solved := true
            solveTime := time
            wrongAttempts := ps.wrongBeforeFreeze + r.1 }
        solvedCount := t.solvedCount + 1
        penaltyTime := t.penaltyTime + (20 * (ps.wrongBeforeFreeze + r.1) + time)
        solveTimes := t.solveTimes ++ [time] }
    | none =>
      { t with
        problems := setP t.problems p
          { ps with wrongAttempts := ps.wrongBeforeFreeze + r.1 } }
  let ps1 := getP t1.problems p
  { t1 with
    problems := setP t1.problems p { ps1 with frozenSubmissions := 0, frozenSubs := [] } }

/-- The line of a rank-change event (lines 242-243). -/
def rankChangeLine (team below : String) (solved penalty : Int) : String :=
  team ++ " " ++ below ++ " " ++ toString solved ++ " " ++ toString penalty

/-- One iteration of the reveal loop (lines 193-244) for the target at index
`i` with problem `p`: the new state and the lines written.  `none` stands for
an access outside `teamList`. -/
def scrollStep (s : State) (i : Nat) (p : String) : Option (State × List String) :=
  match s.teamList[i]? with
  | none => none
  | some target =>
    let oldRank := findRank s.teamList target.name
    let resolved := resolve target p
    let ranking := stdSort compareTeams (s.teamList.set i resolved)
    let newRank := findRank ranking target.name
    if newRank < oldRank then
      match ranking[(newRank + 1).toNat]? with
      | none => none
      | some below =>
        some ({ s with teamList := ranking },
          [rankChangeLine resolved.name below.name resolved.solvedCount resolved.penaltyTime])
    else some ({ s with teamList := ranking }, [])

/-- The reveal loop `while (true)` (lines 174-245), run for at most `fuel`
evaluations of its exit test; `none` when the fuel does not reach the exit. -/
def scrollLoop : Nat → State → Option (State × List String)
  | 0, _ => none
  | fuel + 1, s =>
    match findTarget s with
    | none => some (s, [])
    | some (i, p) =>
      match scrollStep s i p with
      | none => none
      | some (s1, out1) =>
        match scrollLoop fuel s1 with
        | none => none
        | some (s2, out2) => some (s2, out1 ++ out2)

/-- The method `ICPCSystem::scroll` (lines 163-249) with `fuel` bounding the reveal loop. -/
def scroll (fuel : Nat) (s : State) : Option (State × List String) :=
  if !s.frozen then some (s, ["[Error]Scroll failed: scoreboard has not been frozen."])
  else
    let s0 : State := { s with teamList := stdSort compareTeams s.teamList }
    match scrollLoop fuel s0 with
    | none => none
    | some (s1, out) =>
      some ({ s1 with frozen := false },
        ["[Info]Scroll scoreboard."] ++ printScoreboard s0 ++ out ++ printScoreboard s1)

/-! ## Queries (lines 283-343) -/

/-- The loop of lines 296-302 started with the counter `rank`. -/
def rankUnflushed : List Team → String → Int → Int
  | [], _, rank => rank
  | t :: rest, name, rank => if t.name = name then rank else rankUnflushed rest name (rank + 1)

/-- The loop of lines 305-311 from index `i` on. -/
def rankFlushed : List Team → String → Int → Int
  | [], _, _ => -1
  | t :: rest, name, i => if t.name = name then i + 1 else rankFlushed rest name (i + 1)

/-- The number that `queryRanking` prints for a registered team
(lines 295-313). -/
def queryRank (s : State) (teamName : String) : Int :=
  if !s.flushed then rankUnflushed s.teamList teamName 1
  else rankFlushed s.teamList teamName 0

/-- The method `ICPCSystem::queryRanking` (lines 283-314). -/
def queryRanking (s : State) (teamName : String) : List String :=
  if (findTeam s.teamList teamName).isNone then
    ["[Error]Query ranking failed: cannot find the team."]
  else
    ["[Info]Complete query ranking."] ++
    (if s.frozen then
      ["[Warning]Scoreboard is frozen. The ranking may be inaccurate until it were scrolled."]
     else []) ++
    [teamName ++ " NOW AT RANKING " ++ toString (queryRank s teamName)]

/-- The filter test of lines 329-332. -/
def matchesFilter (problem status : String) (sub : Submission) : Bool :=
  (problem == "ALL" || sub.problem == problem) && (status == "ALL" || sub.status == status)

/-- The loop of lines 327-336 run downwards from index `n - 1`: the index of
the entry `found` points to, if any. -/
def findLastFrom (subs : List Submission) (problem status : String) : Nat → Option Nat
  | 0 => none
  | i + 1 =>
    match subs[i]? with
    | none => findLastFrom subs problem status i
    | some sub =>
      if matchesFilter problem status sub then some i
      else findLastFrom subs problem status i

/-- The submission `found` of `querySubmission` for the team `t`. -/
def foundSubmission (t : Team) (problem status : String) : Option Submission :=
  match findLastFrom t.submissions problem status t.submissions.length with
  | none => none
  | some i => t.submissions[i]?

/-- The method `ICPCSystem::querySubmission` (lines 316-343). -/
def querySubmission (s : State) (teamName problem status : String) : List String :=
  match findTeam s.teamList teamName with
  | none => ["[Error]Query submission failed: cannot find the team."]
  | some t =>
    ["[Info]Complete query submission."] ++
    [match foundSubmission t problem status with
     | some f => teamName ++ " " ++ f.problem ++ " " ++ f.status ++ " " ++ toString f.time
     | none => "Cannot find any submission."]

/-! ## Specification vocabulary -/

/-- The solve-time vector of `t` holds one entry per solved problem counted in
`solvedCount`. -/
def Team.timesConsistent (t : Team) : Prop := (t.solveTimes.length : Int) = t.solvedCount

instance (t : Team) : Decidable t.timesConsistent := by
  unfold Team.timesConsistent; infer_instance

/-- Each team of `l` ranks before its successor in `l`. -/
def RankSorted (l : List Team) : Prop := l.Chain' (fun a b => compareTeams a b = true)

/-! ## Example data -/

/-- A team with no solved problem recorded but one solve time. -/
def cycA : Team := { name := "a", solveTimes := [5] }

/-- A team with no solved problem and no solve time. -/
def cycB : Team := { name := "b" }

/-- A team with no solved problem recorded but one solve time. -/
def cycC : Team := { name := "c", solveTimes := [3] }

/-- One problem solved at minute 30 with penalty 30. -/
def rankP : Team := { name := "p", solvedCount := 1, penaltyTime := 30, solveTimes := [30] }

/-- One problem solved at minute 10 after one rejection, penalty 30. -/
def rankQ : Team := { name := "q", solvedCount := 1, penaltyTime := 30, solveTimes := [10] }

/-- One problem solved at minute 10 after one rejection, penalty 30. -/
def rankR : Team := { name := "r", solvedCount := 1, penaltyTime := 30, solveTimes := [10] }

/-- Two teams registered, contest started with three problems. -/
def exStarted : State := (start (addTeam (addTeam init "alpha").1 "beta").1 300 3).1

/-- Team "alpha" after two rejected submissions to problem "A". -/
def exTeamTwoRejected : Team :=
  { name := "alpha"
    problems := [("A", { wrongAttempts := 2 })]
    submissions := [⟨"A", "Wrong_Answer", 3, false⟩, ⟨"A", "Time_Limit_Exceed", 7, false⟩] }

/-- The state after "alpha" had two submissions to problem "A" rejected. -/
def exTwoRejected : State :=
  ((submit exStarted "A" "alpha" "Wrong_Answer" 3).bind
    (fun s => submit s "A" "alpha" "Time_Limit_Exceed" 7)).getD init

/-- Team "beta" with no submission. -/
def exTeamBeta : Team := { name := "beta" }

/-- The state `exTwoRejected` after a freeze. -/
def exFrozen : State := (freeze exTwoRejected).1

/-- A submit request as it reaches the engine: problem, team, outcome, time. -/
structure SubmitReq where
  problem : String
  teamName : String
  status : String
  time : Int
deriving DecidableEq

/-- A sequence of `submit` calls, in order. -/
def submitAll : State → List SubmitReq → Option State
  | s, [] => some s
  | s, r :: rest =>
    match submit s r.problem r.teamName r.status r.time with
    | none => none
    | some s1 => submitAll s1 rest

/-- Team "alpha" after solving problem "A" at minute 10 with two rejections. -/
def exTeamSolved : Team :=
  { name := "alpha"
    problems := [("A", { solved := true, wrongAttempts := 2, solveTime := 10 })]
    submissions := [⟨"A", "Wrong_Answer", 3, false⟩, ⟨"A", "Time_Limit_Exceed", 7, false⟩,
      ⟨"A", "Accepted", 10, false⟩]
    solvedCount := 1
    penaltyTime := 50
    solveTimes := [10] }

/-- The state `exTwoRejected` after "alpha" had problem "A" accepted at minute 10. -/
def exSolved : State := (submit exTwoRejected "A" "alpha" "Accepted" 10).getD init

/-- A rejection and then an acceptance for problem "B", made while frozen. -/
def exQueue : List Submission :=
  [⟨"B", "Wrong_Answer", 250, true⟩, ⟨"B", "Accepted", 260, true⟩]

/-- Team "beta" after a rejected and an accepted submission to problem "B",
both made while the contest was frozen. -/
def exTeamBetaPending : Team :=
  { name := "beta"
    problems := [("B", { frozenSubmissions := 2, frozenSubs := exQueue })]
    submissions := exQueue }

/-- The frozen state `exFrozen` after "beta" submitted a rejection and then an
acceptance for problem "B". -/
def exPending : State :=
  ((submit exFrozen "B" "beta" "Wrong_Answer" 250).bind
    (fun s => submit s "B" "beta" "Accepted" 260)).getD init

/-- Team "beta" after the reveal of its pending queue on problem "B". -/
def exTeamBetaRevealed : Team :=
  { name := "beta"
    problems := [("B", { solved := true, wrongAttempts := 1, solveTime := 260 })]
    submissions := exQueue
    solvedCount := 1
    penaltyTime := 280
    solveTimes := [260] }

/-- The state `exPending` after a scroll. -/
def exScrolled : State := ((scroll 2 exPending).map Prod.fst).getD init

/-- The lines written by the scroll of `exPending`. -/
def exScrollOut : List String := ((scroll 2 exPending).map Prod.snd).getD []

/-! ## Executions of the engine -/

/-- The state-changing requests the dispatcher passes to the engine. -/
inductive Cmd where
  | addTeam (name : String)
  | start (duration problems : Int)
  | submit (problem teamName status : String) (time : Int)
  | flush
  | freeze
  | scroll
deriving DecidableEq

/-- The relation `Exec s c s1`: the request `c` takes the engine from `s` to `s1`. A submit
is issued only once the contest has started, for a registered team and one of
the contest's problems; a scroll is a run of `scroll` that reaches the end of
its reveal loop. -/
inductive Exec : State → Cmd → State → Prop where
  | addTeam (s : State) (name : String) : Exec s (Cmd.addTeam name) (addTeam s name).1
  | start (s : State) (duration problems : Int) :
      Exec s (Cmd.start duration problems) (start s duration problems).1
  | submit (s s1 : State) (problem teamName status : String) (time : Int) :
      s.started = true → problem ∈ s.problemNames →
      submit s problem teamName status time = some s1 →
      Exec s (Cmd.submit problem teamName status time) s1
  | flush (s : State) : Exec s Cmd.flush (flush s).1
  | freeze (s : State) : Exec s Cmd.freeze (freeze s).1
  | scroll (s s1 : State) (fuel : Nat) (out : List String) :
      scroll fuel s = some (s1, out) → Exec s Cmd.scroll s1

/-- The relation `Run s cs s1`: the requests `cs`, in order, take the engine from `s` to `s1`. -/
inductive Run : State → List Cmd → State → Prop where
  | nil (s : State) : Run s [] s
  | cons {s s1 s2 : State} {c : Cmd} {cs : List Cmd} :
      Exec s c s1 → Run s1 cs s2 → Run s (c :: cs) s2

/-- The states the engine can be in: those reached from the initial state by
`addTeam`, `start`, validated `submit`, `flush`, `freeze` and `scroll`. -/
def Reachable (s : State) : Prop := ∃ cs, Run init cs s

/-- The contribution of a problem to the penalty time: `20 * wrongAttempts +
solveTime` when it is solved, nothing otherwise. -/
def penaltyOf (ps : ProblemStatus) : Int :=
  if ps.solved then 20 * ps.wrongAttempts + ps.solveTime else 0

/-- The sum over the solved problems of a problem map of
`20 * wrongAttempts + solveTime`. -/
def solvedPenalty (m : List (String × ProblemStatus)) : Int :=
  ((m.filter (fun e => e.2.solved)).map
    (fun e => 20 * e.2.wrongAttempts + e.2.solveTime)).sum

/-- The number of contest problems of `t` whose pending count is positive. -/
def pendingProblems (names : List String) (t : Team) : Nat :=
  (names.filter (fun p => decide ((t.status p).frozenSubmissions > 0))).length

/-- The number of (team, contest problem) pairs whose pending count is
positive. -/
def pendingPairs (s : State) : Nat :=
  (s.teamList.map (pendingProblems s.problemNames)).sum

/-- The invariant of a team, for the contest problems `names` and the mode
`frozen` of the engine that owns it. -/
structure TeamInv (names : List String) (frozen : Bool) (t : Team) : Prop where
  keys : (t.problems.map Prod.fst).Nodup
  penalty : t.penaltyTime = solvedPenalty t.problems
  times : (t.solveTimes.length : Int) = t.solvedCount
  count : ∀ p, (t.status p).frozenSubmissions = (t.status p).frozenSubs.length
  unsolved : ∀ p, (t.status p).solved = true → (t.status p).frozenSubs = []
  contest : ∀ p, p ∉ names → (t.status p).frozenSubs = []
  thawed : frozen = false → ∀ p, (t.status p).frozenSubs = []

/-- The invariant of the engine state. -/
structure Inv (s : State) : Prop where
  teams : ∀ t ∈ s.teamList, TeamInv s.problemNames s.frozen t
  names : (s.teamList.map Team.name).Nodup
  fresh : s.started = false → s.problemNames = [] ∧ ∀ t ∈ s.teamList, t.problems = []

/-- The effect of one request on the registration record, made of whether the
contest has started and of the names registered so far in registration order:
an `addTeam` registers its name unless the contest has started or the name is
taken, a `start` marks the contest started. -/
def registerStep (started : Bool) (acc : List String) : Cmd → Bool × List String
  | Cmd.addTeam n => if started || decide (n ∈ acc) then (started, acc) else (started, acc ++ [n])
  | Cmd.start _ _ => (true, acc)
  | _ => (started, acc)

/-- The names registered after the requests `cs`, in registration order. -/
def registered (started : Bool) (acc : List String) : List Cmd → List String
  | [] => acc
  | c :: cs => registered (registerStep started acc c).1 (registerStep started acc c).2 cs

/-- The team order follows the registration order `acc` until `start`, and its
sort by name afterwards, in a state that was never flushed. -/
def Tracks (s : State) (acc : List String) : Prop :=
  s.flushed = false ∧
  (s.started = false → s.teamList.map Team.name = acc) ∧
  (s.started = true → s.teamList.map Team.name = stdSort strLt acc)

/-- The insertion order of the teams after the requests `cs`. -/
def insertionOrder (cs : List Cmd) : List String := registered false [] cs

/-- The 1-based position of `name` in `l`. -/
def positionIn (l : List String) (name : String) : Int := (l.indexOf name : Nat) + 1

/-- Teams "b" and then "a" are registered, and the contest is started. -/
def exCmds : List Cmd := [Cmd.addTeam "b", Cmd.addTeam "a", Cmd.start 300 3]

/-- The state after the requests `exCmds`. -/
def exNameOrder : State := (start (addTeam (addTeam init "b").1 "a").1 300 3).1

/-- A team whose solved problem "A" (three wrong attempts, none recorded at a
freeze) holds one pending submission. -/
def exTeamSolvedPending : Team :=
  { name := "gamma"
    problems := [("A", { solved := true, wrongAttempts := 3, solveTime := 40,
                         frozenSubmissions := 1,
                         frozenSubs := [⟨"A", "Wrong_Answer", 250, true⟩] })]
    submissions := [⟨"A", "Wrong_Answer", 250, true⟩]
    solvedCount := 1
    penaltyTime := 100
    solveTimes := [40] }

/-- A frozen state whose only team is `exTeamSolvedPending`. -/
def exDefensive : State :=
  { teamList := [exTeamSolvedPending]
    started := true
    frozen := true
    durationTime := 300
    problemCount := 3
    problemNames := ["A", "B", "C"] }

/-- The ranking rule in the words of the specification: `a` ranks before `b`
when it has solved more; or as many with less penalty; or, both being equal,
when at the first position where the descending solve-time lists differ
(within the shorter one) `a` has the smaller value; or, no position
differing, when the name of `a` is lexicographically smaller. -/
def RanksBefore (a b : Team) : Prop :=
  a.solvedCount > b.solvedCount ∨
  (a.solvedCount = b.solvedCount ∧ a.penaltyTime < b.penaltyTime) ∨
  (a.solvedCount = b.solvedCount ∧ a.penaltyTime = b.penaltyTime ∧
    ∃ (i : Nat) (x y : Int),
      (sortDesc a.solveTimes)[i]? = some x ∧ (sortDesc b.solveTimes)[i]? = some y ∧ x < y ∧
      ∀ j : Nat, j < i → (sortDesc a.solveTimes)[j]? = (sortDesc b.solveTimes)[j]?) ∨
  (a.solvedCount = b.solvedCount ∧ a.penaltyTime = b.penaltyTime ∧
    (∀ (i : Nat) (x y : Int),
      (sortDesc a.solveTimes)[i]? = some x → (sortDesc b.solveTimes)[i]? = some y → x = y) ∧
    a.name < b.name)

/-- The sum of `f` over the entries of a problem map. -/
def sumP (f : ProblemStatus → Int) (m : List (String × ProblemStatus)) : Int :=
  (m.map (fun e => f e.2)).sum

/-- The total of the pending counts over all teams and problems. -/
def totalPending (s : State) : Int :=
  (s.teamList.map (fun t => sumP (fun ps => ps.frozenSubmissions) t.problems)).sum

/-- The number of problems of `t` whose pending count is positive. -/
def pendingEntriesOf (t : Team) : Int :=
  sumP (fun ps => if ps.frozenSubmissions > 0 then 1 else 0) t.problems

/-- The number of (team, problem) pairs whose pending count is positive. -/
def pendingEntries (s : State) : Int := (s.teamList.map pendingEntriesOf).sum

/-- The total number of stored pending submissions over all teams and
problems. -/
def totalQueued (s : State) : Int :=
  (s.teamList.map (fun t => sumP (fun ps => (ps.frozenSubs.length : Int)) t.problems)).sum

/-- The number of (team, problem) pairs with a stored pending submission. -/
def queuedEntries (s : State) : Int :=
  (s.teamList.map (fun t => sumP (fun ps => if ps.frozenSubs = [] then 0 else 1) t.problems)).sum

/-- The number of iterations the reveal loop makes before its exit test
succeeds, counted with the same fuel as `scrollLoop`. -/
def scrollIterations : Nat → State → Option Nat
  | 0, _ => none
  | fuel + 1, s =>
    match findTarget s with
    | none => some 0
    | some (i, p) =>
      match scrollStep s i p with
      | none => none
      | some (s1, _) =>
        match scrollIterations fuel s1 with
        | none => none
        | some k => some (k + 1)

/-- The entries of a problem map that are solved. -/
def solvedEntries (m : List (String × ProblemStatus)) : List (String × ProblemStatus) :=
  m.filter (fun e => e.2.solved)

/-- The solve times of the solved problems of a problem map. -/
def solvedTimes (m : List (String × ProblemStatus)) : List Int :=
  (solvedEntries m).map (fun e => e.2.solveTime)

/-- The invariant tying the solve-time list and `solvedCount` of a team to its
solved problems. -/
structure TeamSolved (t : Team) : Prop where
  solvedCount_eq : t.solvedCount = ((solvedEntries t.problems).length : Int)
  times_perm : t.solveTimes.Perm (solvedTimes t.problems)

/-- The states at the head of the reveal loop during a scroll of a reachable
frozen state: the state after the initial sort, and the state after each
iteration. -/
inductive LoopState : State → Prop where
  | entry (s : State) : Reachable s → s.frozen = true →
      LoopState { s with teamList := stdSort compareTeams s.teamList }
  | step (s s1 : State) (i : Nat) (p : String) (out : List String) :
      LoopState s → findTarget s = some (i, p) → scrollStep s i p = some (s1, out) →
      LoopState s1

/-! ## Deferred accounting -/

/-- The part of a problem status that the standings show: solved flag, wrong
attempts and solve time. -/
def core (ps : ProblemStatus) : Bool × Int × Int :=
  (ps.solved, ps.wrongAttempts, ps.solveTime)

/-- The acceptance waiting in the pending queue of a status, if any: the
number of rejections queued before it and its time. -/
def pendingAccept (ps : ProblemStatus) : Option (Int × Int) :=
  match (scanFrozen ps.frozenSubs 0).2 with
  | some time => some ((scanFrozen ps.frozenSubs 0).1, time)
  | none => none

/-- What the reveal of the pending queue of a status will add to `solvedCount`. -/
def gainCount (ps : ProblemStatus) : Int :=
  match pendingAccept ps with
  | some _ => 1
  | none => 0

/-- What the reveal of the pending queue of a status will add to `penaltyTime`. -/
def gainPenalty (ps : ProblemStatus) : Int :=
  match pendingAccept ps with
  | some r => 20 * (ps.wrongBeforeFreeze + r.1) + r.2
  | none => 0

/-- What the reveal of the pending queue of a status will push on the
solve-time list. -/
def gainTimesOf (ps : ProblemStatus) : List Int :=
  match pendingAccept ps with
  | some r => [r.2]
  | none => []

/-- The solve times that the reveal of all pending queues of a problem map
will push. -/
def gainTimes : List (String × ProblemStatus) → List Int
  | [] => []
  | e :: m => gainTimesOf e.2 ++ gainTimes m

/-- The visible part of a status once its pending queue is revealed. -/
def settleCore (ps : ProblemStatus) : Bool × Int × Int :=
  match pendingAccept ps with
  | some r => (true, ps.wrongBeforeFreeze + r.1, r.2)
  | none =>
    if ps.frozenSubs = [] then core ps
    else (ps.solved, ps.wrongBeforeFreeze + (scanFrozen ps.frozenSubs 0).1, ps.solveTime)

/-- The team `u`, accounted without freeze, stands where the team `f`,
accounted under freeze, will stand once its pending queues are revealed. -/
structure SimT (u f : Team) : Prop where
  name : u.name = f.name
  solved : u.solvedCount = f.solvedCount + sumP gainCount f.problems
  penalty : u.penaltyTime = f.penaltyTime + sumP gainPenalty f.problems
  times : u.solveTimes.Perm (f.solveTimes ++ gainTimes f.problems)
  status : ∀ p, core (u.status p) = settleCore (f.status p)

/-- Every unsolved problem of `f` has its wrong attempts recorded as
`wrongBeforeFreeze`, as after a freeze. -/
def Snapshot (f : Team) : Prop :=
  ∀ p, (f.status p).solved = false →
    (f.status p).wrongBeforeFreeze = (f.status p).wrongAttempts

/-- Two teams with the same standing: name, `solvedCount`, `penaltyTime`,
solve times up to order, and for every problem the solved flag, wrong
attempts and solve time. -/
structure SameStanding (a b : Team) : Prop where
  name : a.name = b.name
  solved : a.solvedCount = b.solvedCount
  penalty : a.penaltyTime = b.penaltyTime
  times : a.solveTimes.Perm b.solveTimes
  status : ∀ p, (a.status p).solved = (b.status p).solved ∧
    (a.status p).wrongAttempts = (b.status p).wrongAttempts ∧
    (a.status p).solveTime = (b.status p).solveTime

/-- The two-sided matching of the teams of two rankings by `R`. -/
def Matched (R : Team → Team → Prop) (A B : List Team) : Prop :=
  (∀ b ∈ B, ∃ a ∈ A, R a b) ∧ (∀ a ∈ A, ∃ b ∈ B, R a b)

/-! ## The comparator is a strict order -/

theorem strLt_irrefl (a : String) : strLt a a = false := by
  simp [strLt]

theorem strLt_asymm {a b : String} (h : strLt a b = true) : strLt b a = false := by
  simp only [strLt, decide_eq_true_eq, decide_eq_false_iff_not] at *
  exact lt_asymm h

theorem strLt_trans {a b c : String} (h1 : strLt a b = true) (h2 : strLt b c = true) :
    strLt a c = true := by
  simp only [strLt, decide_eq_true_eq] at *
  exact lt_trans h1 h2

theorem strLt_total {a b : String} (h : a ≠ b) : strLt a b = true ∨ strLt b a = true := by
  simp only [strLt, decide_eq_true_eq] at *
  rcases lt_trichotomy a.data b.data with h1 | h1 | h1
  · exact Or.inl h1
  · exact absurd (String.ext h1) h
  · exact Or.inr h1

theorem isSortedDesc_iff (l : List Int) :
    isSortedDesc l = true ↔ l.Sorted (fun a b => b ≤ a) := by
  induction l with
  | nil => simp [isSortedDesc]
  | cons a l ih =>
    cases l with
    | nil => simp [isSortedDesc]
    | cons b rest =>
      simp only [isSortedDesc, Bool.and_eq_true, decide_eq_true_eq, ih]
      constructor
      · rintro ⟨hab, hs⟩
        refine List.sorted_cons.2 ⟨?_, hs⟩
        intro c hc
        rcases List.mem_cons.1 hc with rfl | hc
        · exact hab
        · exact le_trans (List.rel_of_sorted_cons hs c hc) hab
      · intro hs
        exact ⟨List.rel_of_sorted_cons hs b (List.mem_cons_self _ _), hs.of_cons⟩

theorem normalizeTimes_eq (l : List Int) : normalizeTimes l = sortDesc l := by
  unfold normalizeTimes
  split
  · rename_i h
    exact ((isSortedDesc_iff l).1 h).insertionSort_eq.symm
  · rfl

theorem normalizeTimes_length (l : List Int) : (normalizeTimes l).length = l.length := by
  rw [normalizeTimes_eq]; exact List.length_insertionSort _ l

theorem firstDiff_self (x : List Int) : firstDiff x x = none := by
  induction x with
  | nil => rfl
  | cons a x ih => simp [firstDiff, ih]

theorem firstDiff_swap (x y : List Int) :
    firstDiff y x = (firstDiff x y).map (fun r => !r) := by
  induction x generalizing y with
  | nil => cases y <;> simp [firstDiff]
  | cons a x ih =>
    cases y with
    | nil => simp [firstDiff]
    | cons b y =>
      simp only [firstDiff]
      by_cases hab : a = b
      · subst hab; simp [ih]
      · have hba : ¬ b = a := fun h => hab h.symm
        simp only [ne_eq, hab, hba, not_false_eq_true, if_true, Option.map_some', Option.some.injEq]
        rcases lt_or_gt_of_ne hab with h | h
        · simp [h, not_lt.2 (le_of_lt h)]
        · simp [h, not_lt.2 (le_of_lt h)]

theorem firstDiff_none_eq {x y : List Int} (hlen : x.length = y.length)
    (h : firstDiff x y = none) : x = y := by
  induction x generalizing y with
  | nil => cases y with
    | nil => rfl
    | cons b y => simp at hlen
  | cons a x ih =>
    cases y with
    | nil => simp at hlen
    | cons b y =>
      simp only [firstDiff] at h
      by_cases hab : a = b
      · subst hab
        simp only [ne_eq, not_true_eq_false, if_false] at h
        rw [ih (by simpa using hlen) h]
      · simp [hab] at h

theorem firstDiff_trans {x y z : List Int} (h1 : firstDiff x y = some true)
    (h2 : firstDiff y z = some true) : firstDiff x z = some true := by
  induction x generalizing y z with
  | nil => cases y <;> simp [firstDiff] at h1
  | cons a x ih =>
    cases y with
    | nil => simp [firstDiff] at h1
    | cons b y =>
      cases z with
      | nil => simp [firstDiff] at h2
      | cons c z =>
        simp only [firstDiff] at h1 h2 ⊢
        by_cases hab : a = b
        · subst hab
          simp only [ne_eq, not_true_eq_false, if_false] at h1
          by_cases hac : a = c
          · subst hac
            simp only [ne_eq, not_true_eq_false, if_false] at h2 ⊢
            exact ih h1 h2
          · simpa [hac] using h2
        · simp only [ne_eq, hab, not_false_eq_true, if_true, Option.some.injEq,
            decide_eq_true_eq] at h1
          by_cases hbc : b = c
          · subst hbc
            simp [hab, h1]
          · simp only [ne_eq, hbc, not_false_eq_true, if_true, Option.some.injEq,
              decide_eq_true_eq] at h2
            have hac : a < c := lt_trans h1 h2
            simp [ne_of_lt hac, hac]



theorem sortDesc_sorted (l : List Int) : (sortDesc l).Sorted (fun a b => b ≤ a) := by
  haveI : IsTotal Int (fun a b => b ≤ a) := ⟨fun a b => le_total b a⟩
  haveI : IsTrans Int (fun a b => b ≤ a) := ⟨fun _ _ _ hab hbc => le_trans hbc hab⟩
  exact List.sorted_insertionSort (fun a b => b ≤ a) l

theorem normalizeTimes_idem (l : List Int) :
    normalizeTimes (normalizeTimes l) = normalizeTimes l := by
  rw [normalizeTimes_eq (normalizeTimes l), normalizeTimes_eq l]
  exact (sortDesc_sorted l).insertionSort_eq

/-- Storing the sorted solve times back into the teams, as the C++ comparator
does, changes no verdict of the comparator. -/
theorem compareTeams_normalized (a b : Team) :
    compareTeams { a with solveTimes := normalizeTimes a.solveTimes }
      { b with solveTimes := normalizeTimes b.solveTimes } = compareTeams a b := by
  unfold compareTeams
  simp only [normalizeTimes_idem]

theorem compareTeams_normalized_left (a b : Team) :
    compareTeams { a with solveTimes := normalizeTimes a.solveTimes } b = compareTeams a b := by
  unfold compareTeams
  simp only [normalizeTimes_idem]

theorem compareTeams_normalized_right (a b : Team) :
    compareTeams a { b with solveTimes := normalizeTimes b.solveTimes } = compareTeams a b := by
  unfold compareTeams
  simp only [normalizeTimes_idem]

theorem compareTeams_irrefl (a : Team) : compareTeams a a = false := by
  simp [compareTeams, firstDiff_self, strLt_irrefl]

theorem compareTeams_asymm {a b : Team} (h : compareTeams a b = true) :
    compareTeams b a = false := by
  unfold compareTeams at h ⊢
  by_cases hs : a.solvedCount = b.solvedCount
  · by_cases hp : a.penaltyTime = b.penaltyTime
    · simp only [hs, hp, ne_eq, not_true_eq_false, if_false] at h ⊢
      rw [firstDiff_swap (normalizeTimes a.solveTimes) (normalizeTimes b.solveTimes)]
      cases hd : firstDiff (normalizeTimes a.solveTimes) (normalizeTimes b.solveTimes) with
      | none =>
        rw [hd] at h
        simpa using strLt_asymm h
      | some r =>
        rw [hd] at h
        simp only at h
        simp [h]
    · have hp' : ¬ b.penaltyTime = a.penaltyTime := fun e => hp e.symm
      simp only [hs, hp, hp', ne_eq, not_true_eq_false, not_false_eq_true, if_false, if_true,
        decide_eq_true_eq, decide_eq_false_iff_not] at h ⊢
      omega
  · have hs' : ¬ b.solvedCount = a.solvedCount := fun e => hs e.symm
    simp only [hs, hs', ne_eq, not_false_eq_true, if_true, decide_eq_true_eq,
      decide_eq_false_iff_not] at h ⊢
    omega

theorem compareTeams_total {a b : Team} (h : a.name ≠ b.name) :
    compareTeams a b = true ∨ compareTeams b a = true := by
  unfold compareTeams
  by_cases hs : a.solvedCount = b.solvedCount
  · by_cases hp : a.penaltyTime = b.penaltyTime
    · simp only [hs, hp, ne_eq, not_true_eq_false, if_false]
      rw [firstDiff_swap (normalizeTimes a.solveTimes) (normalizeTimes b.solveTimes)]
      cases hd : firstDiff (normalizeTimes a.solveTimes) (normalizeTimes b.solveTimes) with
      | none => simpa using strLt_total h
      | some r => cases r <;> simp
    · have hp' : ¬ b.penaltyTime = a.penaltyTime := fun e => hp e.symm
      simp only [hs, hp, hp', ne_eq, not_true_eq_false, not_false_eq_true, if_false, if_true,
        decide_eq_true_eq]
      omega
  · have hs' : ¬ b.solvedCount = a.solvedCount := fun e => hs e.symm
    simp only [hs, hs', ne_eq, not_false_eq_true, if_true, decide_eq_true_eq]
    omega

theorem compareTeams_trans {a b c : Team}
    (ha : (a.solveTimes.length : Int) = a.solvedCount)
    (hb : (b.solveTimes.length : Int) = b.solvedCount)
    (hc : (c.solveTimes.length : Int) = c.solvedCount)
    (h1 : compareTeams a b = true) (h2 : compareTeams b c = true) :
    compareTeams a c = true := by
  unfold compareTeams at h1 h2 ⊢
  by_cases hs1 : a.solvedCount = b.solvedCount
  · by_cases hs2 : b.solvedCount = c.solvedCount
    · have hs3 : a.solvedCount = c.solvedCount := hs1.trans hs2
      by_cases hp1 : a.penaltyTime = b.penaltyTime
      · by_cases hp2 : b.penaltyTime = c.penaltyTime
        · have hp3 : a.penaltyTime = c.penaltyTime := hp1.trans hp2
          simp only [hs1, hs2, hs3, hp1, hp2, hp3, ne_eq, not_true_eq_false, if_false]
            at h1 h2 ⊢
          have lab : (normalizeTimes a.solveTimes).length = (normalizeTimes b.solveTimes).length := by
            rw [normalizeTimes_length, normalizeTimes_length]; omega
          have lbc : (normalizeTimes b.solveTimes).length = (normalizeTimes c.solveTimes).length := by
            rw [normalizeTimes_length, normalizeTimes_length]; omega
          cases hd1 : firstDiff (normalizeTimes a.solveTimes) (normalizeTimes b.solveTimes) with
          | none =>
            rw [hd1] at h1
            simp only at h1
            rw [firstDiff_none_eq lab hd1]
            cases hd2 : firstDiff (normalizeTimes b.solveTimes) (normalizeTimes c.solveTimes) with
            | none =>
              rw [hd2] at h2
              exact strLt_trans h1 h2
            | some r =>
              rw [hd2] at h2
              exact h2
          | some r =>
            rw [hd1] at h1
            simp only at h1
            subst h1
            cases hd2 : firstDiff (normalizeTimes b.solveTimes) (normalizeTimes c.solveTimes) with
            | none =>
              rw [← firstDiff_none_eq lbc hd2, hd1]
            | some r =>
              rw [hd2] at h2
              simp only at h2
              subst h2
              rw [firstDiff_trans hd1 hd2]
        · have hp3 : ¬ a.penaltyTime = c.penaltyTime := fun e => hp2 (hp1 ▸ e)
          simp only [hs1, hs2, hs3, hp1, hp2, hp3, ne_eq, not_true_eq_false, not_false_eq_true,
            if_false, if_true, decide_eq_true_eq] at h1 h2 ⊢
          omega
      · by_cases hp2 : b.penaltyTime = c.penaltyTime
        · have hp3 : ¬ a.penaltyTime = c.penaltyTime := fun e => hp1 (hp2 ▸ e)
          simp only [hs1, hs2, hs3, hp1, hp2, hp3, ne_eq, not_true_eq_false, not_false_eq_true,
            if_false, if_true, decide_eq_true_eq] at h1 h2 ⊢
          omega
        · simp only [hs1, hs2, hs3, hp1, hp2, ne_eq, not_true_eq_false, not_false_eq_true,
            if_false, if_true, decide_eq_true_eq] at h1 h2
          have hp3 : ¬ a.penaltyTime = c.penaltyTime := by omega
          simp only [hs3, hp3, ne_eq, not_true_eq_false, not_false_eq_true, if_false, if_true,
            decide_eq_true_eq]
          omega
    · have hs3 : ¬ a.solvedCount = c.solvedCount := fun e => hs2 (hs1 ▸ e)
      simp only [hs2, hs3, ne_eq, not_false_eq_true, if_true, decide_eq_true_eq] at h2 ⊢
      omega
  · simp only [hs1, ne_eq, not_false_eq_true, if_true, decide_eq_true_eq] at h1
    by_cases hs2 : b.solvedCount = c.solvedCount
    · have hs3 : ¬ a.solvedCount = c.solvedCount := fun e => hs1 (hs2 ▸ e)
      simp only [hs3, ne_eq, not_false_eq_true, if_true, decide_eq_true_eq]
      omega
    · simp only [hs2, ne_eq, not_false_eq_true, if_true, decide_eq_true_eq] at h2
      have hs3 : ¬ a.solvedCount = c.solvedCount := by omega
      simp only [hs3, ne_eq, not_false_eq_true, if_true, decide_eq_true_eq]
      omega

theorem stdSort_perm {α : Type} (comp : α → α → Bool) (l : List α) :
    (stdSort comp l).Perm l := List.perm_insertionSort _ l

theorem stdSort_of_pairwise {α : Type} (comp : α → α → Bool)
    (hasym : ∀ a b, comp a b = true → comp b a = false) {l : List α}
    (h : l.Pairwise (fun a b => comp a b = true)) : stdSort comp l = l := by
  unfold stdSort
  apply List.Sorted.insertionSort_eq
  exact h.imp (fun hab => hasym _ _ hab)

theorem pairwise_perm_unique {α : Type} (comp : α → α → Bool)
    (hasym : ∀ a b, comp a b = true → comp b a = false) {l l2 : List α}
    (hp : l2.Perm l) (h2 : l2.Pairwise (fun a b => comp a b = true))
    (h : l.Pairwise (fun a b => comp a b = true)) : l2 = l := by
  haveI : IsAntisymm α (fun a b => comp a b = true) :=
    ⟨fun a b hab hba => by rw [hasym a b hab] at hba; exact absurd hba (by simp)⟩
  exact List.eq_of_perm_of_sorted hp h2 h

theorem rankSorted_pairwise {l : List Team} (hc : ∀ t ∈ l, t.timesConsistent)
    (h : RankSorted l) : l.Pairwise (fun a b => compareTeams a b = true) := by
  induction l with
  | nil => exact List.Pairwise.nil
  | cons a l ih =>
    have hl : ∀ t ∈ l, t.timesConsistent := fun t ht => hc t (List.mem_cons_of_mem _ ht)
    have htail : RankSorted l := List.Chain'.tail h
    have ihl := ih hl htail
    refine List.Pairwise.cons ?_ ihl
    intro b hb
    cases l with
    | nil => cases hb
    | cons c rest =>
      have hac : compareTeams a c = true := (List.chain'_cons.1 h).1
      rcases List.mem_cons.1 hb with rfl | hb
      · exact hac
      · have hcb : compareTeams c b = true := List.rel_of_pairwise_cons ihl hb
        exact compareTeams_trans (hc a (List.mem_cons_self _ _))
          (hc c (List.mem_cons_of_mem _ (List.mem_cons_self _ _)))
          (hc b (List.mem_cons_of_mem _ (List.mem_cons_of_mem _ hb))) hac hcb

/-- C1 (counterexample): the teams `cycA`, `cycB`, `cycC` have pairwise distinct
names, `cycA` ranks before `cycB` and `cycB` before `cycC`, yet `cycA` does not
rank before `cycC` (`cycC` ranks before `cycA`): on arbitrary solve-time lists
the comparator is not transitive. -/
theorem compareTeams_cycle :
    cycA.name ≠ cycB.name ∧ cycB.name ≠ cycC.name ∧ cycA.name ≠ cycC.name ∧
    compareTeams cycA cycB = true ∧ compareTeams cycB cycC = true ∧
    compareTeams cycA cycC = false ∧ compareTeams cycC cycA = true := by
  decide

/-- C1 (amended): `compareTeams` is irreflexive and asymmetric on all teams, of
two teams with distinct names one ranks before the other, and it is transitive
on teams whose solve-time list has `solvedCount` entries; a list of such teams
in which each team ranks before its successor is left unchanged by the sort,
and is the only arrangement of its teams with that property. -/
theorem compareTeams_strict_total_order :
    (∀ a : Team, compareTeams a a = false) ∧
    (∀ a b : Team, compareTeams a b = true → compareTeams b a = false) ∧
    (∀ a b : Team, a.name ≠ b.name → (compareTeams a b = true ∨ compareTeams b a = true)) ∧
    (∀ a b c : Team, a.timesConsistent → b.timesConsistent → c.timesConsistent →
      compareTeams a b = true → compareTeams b c = true → compareTeams a c = true) ∧
    (∀ l : List Team, (∀ t ∈ l, t.timesConsistent) → RankSorted l →
      stdSort compareTeams l = l ∧
      ∀ l2 : List Team, l2.Perm l → RankSorted l2 → l2 = l) := by
  refine ⟨compareTeams_irrefl, fun a b h => compareTeams_asymm h,
    fun a b h => compareTeams_total h,
    fun a b c ha hb hc h1 h2 => compareTeams_trans ha hb hc h1 h2, ?_⟩
  intro l hc hs
  have hp := rankSorted_pairwise hc hs
  refine ⟨stdSort_of_pairwise compareTeams (fun a b h => compareTeams_asymm h) hp, ?_⟩
  intro l2 hperm hs2
  have hc2 : ∀ t ∈ l2, t.timesConsistent := fun t ht => hc t (hperm.mem_iff.1 ht)
  exact pairwise_perm_unique compareTeams (fun a b h => compareTeams_asymm h) hperm
    (rankSorted_pairwise hc2 hs2) hp

/-- C1 (witness): the consistent teams `rankQ`, `rankR`, `rankP` are ranked in
this order, transitively, and sorting the list `[rankQ, rankR, rankP]` returns
it. -/
theorem compareTeams_strict_total_order_witness :
    rankQ.timesConsistent ∧ rankR.timesConsistent ∧ rankP.timesConsistent ∧
    compareTeams rankQ rankR = true ∧ compareTeams rankR rankP = true ∧
    compareTeams rankQ rankP = true ∧
    RankSorted [rankQ, rankR, rankP] ∧
    stdSort compareTeams [rankQ, rankR, rankP] = [rankQ, rankR, rankP] :=
  have hq : rankQ.timesConsistent := by decide
  have hr : rankR.timesConsistent := by decide
  have hp : rankP.timesConsistent := by decide
  have hqr : compareTeams rankQ rankR = true := by decide
  have hrp : compareTeams rankR rankP = true := by decide
  have hs : RankSorted [rankQ, rankR, rankP] :=
    List.chain'_cons.2 ⟨hqr, List.chain'_cons.2 ⟨hrp, List.chain'_singleton _⟩⟩
  have hall : ∀ t ∈ [rankQ, rankR, rankP], t.timesConsistent := by
    intro t ht
    simp only [List.mem_cons, List.mem_singleton, List.not_mem_nil, or_false] at ht
    rcases ht with rfl | rfl | rfl
    · exact hq
    · exact hr
    · exact hp
  ⟨hq, hr, hp, hqr, hrp,
    compareTeams_strict_total_order.2.2.2.1 rankQ rankR rankP hq hr hp hqr hrp, hs,
    (compareTeams_strict_total_order.2.2.2.2 [rankQ, rankR, rankP] hall hs).1⟩

/-! ## Submission ingestion -/

theorem getP_setP_same (m : List (String × ProblemStatus)) (k : String) (v : ProblemStatus) :
    getP (setP m k v) k = v := by
  induction m with
  | nil => simp [setP, getP]
  | cons e m ih =>
    obtain ⟨k', v'⟩ := e
    by_cases h : k' = k
    · simp [setP, getP, h]
    · simp [setP, getP, h, ih]

theorem getP_setP_ne (m : List (String × ProblemStatus)) {k q : String} (v : ProblemStatus)
    (h : q ≠ k) : getP (setP m k v) q = getP m q := by
  induction m with
  | nil => simp [setP, getP, h.symm]
  | cons e m ih =>
    obtain ⟨k', v'⟩ := e
    by_cases hk : k' = k
    · subst hk
      simp [setP, getP, h.symm]
    · by_cases hq : k' = q
      · subst hq
        simp [setP, getP, hk]
      · simp [setP, getP, hk, hq, ih]

theorem addSubmission_name (t : Team) (p st : String) (time : Int) (fr : Bool) :
    (t.addSubmission p st time fr).name = t.name := by
  unfold Team.addSubmission
  simp only
  split_ifs <;> rfl

theorem addSubmission_submissions (t : Team) (p st : String) (time : Int) (fr : Bool) :
    (t.addSubmission p st time fr).submissions = t.submissions ++ [⟨p, st, time, fr⟩] := by
  unfold Team.addSubmission
  simp only
  split_ifs <;> rfl

theorem addSubmission_solved (t : Team) (p st : String) (time : Int) (fr : Bool)
    (h : (t.status p).solved = true) :
    t.addSubmission p st time fr =
      { t with submissions := t.submissions ++ [⟨p, st, time, fr⟩] } := by
  unfold Team.status at h
  unfold Team.addSubmission
  simp [h]

theorem addSubmission_accepted (t : Team) (p : String) (time : Int)
    (h : (t.status p).solved = false) :
    t.addSubmission p "Accepted" time false =
      { t with
        submissions := t.submissions ++ [⟨p, "Accepted", time, false⟩]
        problems := setP t.problems p { t.status p with solved := true, solveTime := time }
        solvedCount := t.solvedCount + 1
        penaltyTime := t.penaltyTime + (20 * (t.status p).wrongAttempts + time)
        solveTimes := t.solveTimes ++ [time] } := by
  unfold Team.status at h ⊢
  unfold Team.addSubmission
  simp [h]

theorem addSubmission_rejected (t : Team) (p st : String) (time : Int)
    (h : (t.status p).solved = false) (hst : st ≠ "Accepted") :
    t.addSubmission p st time false =
      { t with
        submissions := t.submissions ++ [⟨p, st, time, false⟩]
        problems := setP t.problems p
          { t.status p with wrongAttempts := (t.status p).wrongAttempts + 1 } } := by
  unfold Team.status at h ⊢
  unfold Team.addSubmission
  simp [h, hst]

theorem addSubmission_frozen (t : Team) (p st : String) (time : Int)
    (h : (t.status p).solved = false) :
    t.addSubmission p st time true =
      { t with
        submissions := t.submissions ++ [⟨p, st, time, true⟩]
        problems := setP t.problems p
          { t.status p with
            frozenSubmissions := (t.status p).frozenSubmissions + 1
            frozenSubs := (t.status p).frozenSubs ++ [⟨p, st, time, true⟩] } } := by
  unfold Team.status at h ⊢
  unfold Team.addSubmission
  by_cases hst : st = "Accepted" <;> simp [h, hst]

theorem findTeam_updateTeam_same (l : List Team) (name : String) (f : Team → Team)
    (hf : ∀ t, (f t).name = t.name) {t : Team} (h : findTeam l name = some t) :
    findTeam (updateTeam l name f) name = some (f t) := by
  induction l with
  | nil => simp [findTeam] at h
  | cons a l ih =>
    unfold findTeam at h ih ⊢
    by_cases ha : a.name = name
    · simp only [List.find?, ha, decide_True] at h
      cases h
      simp [updateTeam, ha, List.find?, hf]
    · simp only [List.find?, ha, decide_False] at h
      simp [updateTeam, ha, List.find?, ih h]

theorem findTeam_updateTeam_ne (l : List Team) {name n : String} (f : Team → Team)
    (hf : ∀ t, (f t).name = t.name) (hn : n ≠ name) :
    findTeam (updateTeam l name f) n = findTeam l n := by
  induction l with
  | nil => rfl
  | cons a l ih =>
    unfold findTeam at ih ⊢
    by_cases ha : a.name = name
    · have : ¬ a.name = n := fun e => hn (e ▸ ha)
      simp [updateTeam, ha, List.find?, hf, this]
      subst ha; simp [this]
    · by_cases han : a.name = n
      · subst han
        simp [updateTeam, ha, List.find?]
      · simp [updateTeam, ha, List.find?, han, ih]

theorem addSubmission_status_ne (t : Team) {p q : String} (st : String) (time : Int)
    (fr : Bool) (h : q ≠ p) : (t.addSubmission p st time fr).status q = t.status q := by
  unfold Team.status Team.addSubmission
  simp only
  split_ifs <;> simp [getP_setP_ne _ _ h]

theorem submit_eq_some (s : State) (problem teamName status : String) (time : Int) {t : Team}
    (ht : findTeam s.teamList teamName = some t) :
    submit s problem teamName status time =
      some { s with
             teamList := updateTeam s.teamList teamName
               (fun t => t.addSubmission problem status time s.frozen) } := by
  unfold submit
  rw [ht]

/-- C3: a submit while the contest is not frozen, by a registered team to a
problem it has not solved and has `w` wrong attempts on. With outcome
"Accepted" the problem becomes solved with `solveTime = time` and
`wrongAttempts = w`, `solvedCount` grows by 1, `penaltyTime` by
`20 * w + time`, and `time` is pushed on the solve-time list. With any other
outcome `wrongAttempts` becomes `w + 1` and nothing else in the problem status
or the team aggregates changes. In both cases the other problems of the team
and the other teams are untouched. -/
theorem submit_not_frozen (s : State) (t : Team) (teamName problem status : String)
    (time w : Int) (hf : s.frozen = false)
    (ht : findTeam s.teamList teamName = some t)
    (hu : (t.status problem).solved = false)
    (hw : (t.status problem).wrongAttempts = w) :
    ∃ s1 t1, submit s problem teamName status time = some s1 ∧
      findTeam s1.teamList teamName = some t1 ∧
      (∀ n, n ≠ teamName → findTeam s1.teamList n = findTeam s.teamList n) ∧
      (∀ q, q ≠ problem → t1.status q = t.status q) ∧
      (status = "Accepted" →
        (t1.status problem).solved = true ∧
        (t1.status problem).solveTime = time ∧
        (t1.status problem).wrongAttempts = w ∧
        t1.solvedCount = t.solvedCount + 1 ∧
        t1.penaltyTime = t.penaltyTime + (20 * w + time) ∧
        t1.solveTimes = t.solveTimes ++ [time]) ∧
      (status ≠ "Accepted" →
        t1.status problem = { t.status problem with wrongAttempts := w + 1 } ∧
        t1.solvedCount = t.solvedCount ∧
        t1.penaltyTime = t.penaltyTime ∧
        t1.solveTimes = t.solveTimes) := by
  refine ⟨_, t.addSubmission problem status time s.frozen,
    submit_eq_some s problem teamName status time ht, ?_, ?_, ?_, ?_, ?_⟩
  · exact findTeam_updateTeam_same _ _ _ (fun t => addSubmission_name t _ _ _ _) ht
  · intro n hn
    exact findTeam_updateTeam_ne _ _ (fun t => addSubmission_name t _ _ _ _) hn
  · intro q hq
    exact addSubmission_status_ne t status time s.frozen hq
  · intro hst
    subst hst
    rw [hf, addSubmission_accepted t problem time hu]
    simp [Team.status, getP_setP_same, ← hw]
  · intro hst
    rw [hf, addSubmission_rejected t problem status time hu hst]
    simp [Team.status, getP_setP_same, ← hw]

/-- C3 (witness): team "alpha" has two rejections on problem "A"; an
"Accepted" at minute 10 while not frozen gives `solvedCount = 1` and
`penaltyTime = 50`. -/
theorem submit_not_frozen_witness :
    exTwoRejected.frozen = false ∧
    findTeam exTwoRejected.teamList "alpha" = some exTeamTwoRejected ∧
    (exTeamTwoRejected.status "A").solved = false ∧
    (exTeamTwoRejected.status "A").wrongAttempts = 2 ∧
    ∃ s1 t1, submit exTwoRejected "A" "alpha" "Accepted" 10 = some s1 ∧
      findTeam s1.teamList "alpha" = some t1 ∧
      (t1.status "A").solved = true ∧ t1.solvedCount = 1 ∧ t1.penaltyTime = 50 := by
  have h1 : exTwoRejected.frozen = false := by decide
  have h2 : findTeam exTwoRejected.teamList "alpha" = some exTeamTwoRejected := by decide
  have h3 : (exTeamTwoRejected.status "A").solved = false := by decide
  have h4 : (exTeamTwoRejected.status "A").wrongAttempts = 2 := by decide
  obtain ⟨s1, t1, e1, e2, -, -, hacc, -⟩ :=
    submit_not_frozen exTwoRejected exTeamTwoRejected "alpha" "A" "Accepted" 10 2 h1 h2 h3 h4
  obtain ⟨a1, -, -, a4, a5, -⟩ := hacc rfl
  refine ⟨h1, h2, h3, h4, s1, t1, e1, e2, a1, ?_, ?_⟩
  · rw [a4]; decide
  · rw [a5]; decide

/-- C4: a submit while the contest is frozen, by a registered team to a problem
it has not solved, whatever the outcome: the submission is appended to the
problem's pending queue and the pending count grows by 1, it is appended to
the team's history with the frozen flag set, and `wrongAttempts`, `solved`,
`solveTime`, `wrongBeforeFreeze`, `solvedCount`, `penaltyTime` and the
solve-time list are unchanged, as are the other problems and teams. -/
theorem submit_frozen_unsolved (s : State) (t : Team) (teamName problem status : String)
    (time : Int) (hf : s.frozen = true)
    (ht : findTeam s.teamList teamName = some t)
    (hu : (t.status problem).solved = false) :
    ∃ s1 t1, submit s problem teamName status time = some s1 ∧
      findTeam s1.teamList teamName = some t1 ∧
      (∀ n, n ≠ teamName → findTeam s1.teamList n = findTeam s.teamList n) ∧
      (∀ q, q ≠ problem → t1.status q = t.status q) ∧
      (t1.status problem).frozenSubs =
        (t.status problem).frozenSubs ++ [⟨problem, status, time, true⟩] ∧
      (t1.status problem).frozenSubmissions = (t.status problem).frozenSubmissions + 1 ∧
      t1.submissions = t.submissions ++ [⟨problem, status, time, true⟩] ∧
      (t1.status problem).wrongAttempts = (t.status problem).wrongAttempts ∧
      (t1.status problem).solved = false ∧
      (t1.status problem).solveTime = (t.status problem).solveTime ∧
      (t1.status problem).wrongBeforeFreeze = (t.status problem).wrongBeforeFreeze ∧
      t1.solvedCount = t.solvedCount ∧
      t1.penaltyTime = t.penaltyTime ∧
      t1.solveTimes = t.solveTimes := by
  refine ⟨_, t.addSubmission problem status time s.frozen,
    submit_eq_some s problem teamName status time ht, ?_, ?_, ?_, ?_⟩
  · exact findTeam_updateTeam_same _ _ _ (fun t => addSubmission_name t _ _ _ _) ht
  · intro n hn
    exact findTeam_updateTeam_ne _ _ (fun t => addSubmission_name t _ _ _ _) hn
  · intro q hq
    exact addSubmission_status_ne t status time s.frozen hq
  · rw [hf, addSubmission_frozen t problem status time hu]
    simp [Team.status, getP_setP_same]
    simpa [Team.status] using hu

/-- C4 (witness): after a freeze, team "beta" submits an "Accepted" to the
unsolved problem "B": it is queued and nothing is accounted. -/
theorem submit_frozen_unsolved_witness :
    exFrozen.frozen = true ∧
    findTeam exFrozen.teamList "beta" = some exTeamBeta ∧
    (exTeamBeta.status "B").solved = false ∧
    ∃ s1 t1, submit exFrozen "B" "beta" "Accepted" 250 = some s1 ∧
      findTeam s1.teamList "beta" = some t1 ∧
      (t1.status "B").frozenSubs = [⟨"B", "Accepted", 250, true⟩] ∧
      (t1.status "B").frozenSubmissions = 1 ∧
      (t1.status "B").solved = false ∧ t1.solvedCount = 0 ∧ t1.penaltyTime = 0 := by
  have h1 : exFrozen.frozen = true := by decide
  have h2 : findTeam exFrozen.teamList "beta" = some exTeamBeta := by decide
  have h3 : (exTeamBeta.status "B").solved = false := by decide
  obtain ⟨s1, t1, e1, e2, -, -, a1, a2, -, -, a5, -, -, a8, a9, -⟩ :=
    submit_frozen_unsolved exFrozen exTeamBeta "beta" "B" "Accepted" 250 h1 h2 h3
  refine ⟨h1, h2, h3, s1, t1, e1, e2, ?_, ?_, a5, ?_, ?_⟩
  · rw [a1]; decide
  · rw [a2]; decide
  · rw [a8]; decide
  · rw [a9]; decide


theorem submit_keeps_solved (s s1 : State) (t : Team) (teamName problem : String)
    (r : SubmitReq) (ht : findTeam s.teamList teamName = some t)
    (hs : (t.status problem).solved = true)
    (h : submit s r.problem r.teamName r.status r.time = some s1) :
    ∃ t1, findTeam s1.teamList teamName = some t1 ∧ t1.status problem = t.status problem := by
  unfold submit at h
  cases hr : findTeam s.teamList r.teamName with
  | none => rw [hr] at h; cases h
  | some tr =>
    rw [hr] at h
    simp only [Option.some.injEq] at h
    subst h
    by_cases hn : teamName = r.teamName
    · subst hn
      refine ⟨_, findTeam_updateTeam_same _ _ _ (fun t => addSubmission_name t _ _ _ _) ht, ?_⟩
      by_cases hp : problem = r.problem
      · subst hp
        rw [addSubmission_solved t _ _ _ _ hs]
        rfl
      · exact addSubmission_status_ne t _ _ _ hp
    · refine ⟨t, ?_, rfl⟩
      rw [findTeam_updateTeam_ne _ _ (fun t => addSubmission_name t _ _ _ _) hn]
      exact ht

theorem submitAll_keeps_solved (reqs : List SubmitReq) (s s2 : State) (t : Team)
    (teamName problem : String) (ht : findTeam s.teamList teamName = some t)
    (hs : (t.status problem).solved = true) (h : submitAll s reqs = some s2) :
    ∃ t2, findTeam s2.teamList teamName = some t2 ∧ t2.status problem = t.status problem := by
  induction reqs generalizing s t with
  | nil =>
    simp only [submitAll, Option.some.injEq] at h
    subst h
    exact ⟨t, ht, rfl⟩
  | cons r rest ih =>
    simp only [submitAll] at h
    cases hr : submit s r.problem r.teamName r.status r.time with
    | none => rw [hr] at h; cases h
    | some s1 =>
      rw [hr] at h
      obtain ⟨t1, ht1, e1⟩ := submit_keeps_solved s s1 t teamName problem r ht hs hr
      obtain ⟨t2, ht2, e2⟩ := ih s1 t1 ht1 (by rw [e1]; exact hs) h
      exact ⟨t2, ht2, e2.trans e1⟩

/-- C5: a submit, frozen or not and with any outcome and timestamp, by a
registered team to a problem it has already solved appends one entry to the
team's history and changes nothing else: the problem map (so the solved flag,
`wrongAttempts`, `solveTime` and the pending queue of every problem),
`solvedCount`, `penaltyTime` and the solve-time list are the same, and so are
the other teams. Moreover after any sequence of submits run from such a state
the status of the solved problem is still the same. -/
theorem submit_solved_frame (s : State) (t : Team) (teamName problem status : String)
    (time : Int) (ht : findTeam s.teamList teamName = some t)
    (hs : (t.status problem).solved = true) :
    (∃ s1 t1, submit s problem teamName status time = some s1 ∧
      findTeam s1.teamList teamName = some t1 ∧
      (∀ n, n ≠ teamName → findTeam s1.teamList n = findTeam s.teamList n) ∧
      t1.submissions = t.submissions ++ [⟨problem, status, time, s.frozen⟩] ∧
      t1.problems = t.problems ∧
      t1.solvedCount = t.solvedCount ∧
      t1.penaltyTime = t.penaltyTime ∧
      t1.solveTimes = t.solveTimes) ∧
    (∀ (reqs : List SubmitReq) (s2 : State), submitAll s reqs = some s2 →
      ∃ t2, findTeam s2.teamList teamName = some t2 ∧
        t2.status problem = t.status problem) := by
  refine ⟨⟨_, t.addSubmission problem status time s.frozen,
    submit_eq_some s problem teamName status time ht, ?_, ?_, ?_⟩, ?_⟩
  · exact findTeam_updateTeam_same _ _ _ (fun t => addSubmission_name t _ _ _ _) ht
  · intro n hn
    exact findTeam_updateTeam_ne _ _ (fun t => addSubmission_name t _ _ _ _) hn
  · rw [addSubmission_solved t _ _ _ _ hs]
    exact ⟨rfl, rfl, rfl, rfl, rfl⟩
  · intro reqs s2 h
    exact submitAll_keeps_solved reqs s s2 t teamName problem ht hs h

/-- C5 (witness): "alpha" solved problem "A" with penalty 50; a later rejected
submission to "A" leaves `solvedCount = 1`, `penaltyTime = 50` and the status
of "A" as they were, and the history has four entries. -/
theorem submit_solved_frame_witness :
    findTeam exSolved.teamList "alpha" = some exTeamSolved ∧
    (exTeamSolved.status "A").solved = true ∧
    ∃ s1 t1, submit exSolved "A" "alpha" "Wrong_Answer" 20 = some s1 ∧
      findTeam s1.teamList "alpha" = some t1 ∧
      t1.submissions.length = 4 ∧
      t1.status "A" = { solved := true, wrongAttempts := 2, solveTime := 10 } ∧
      t1.solvedCount = 1 ∧ t1.penaltyTime = 50 ∧ t1.solveTimes = [10] := by
  have h1 : findTeam exSolved.teamList "alpha" = some exTeamSolved := by decide
  have h2 : (exTeamSolved.status "A").solved = true := by decide
  obtain ⟨s1, t1, e1, e2, -, a1, a2, a3, a4, a5⟩ :=
    (submit_solved_frame exSolved exTeamSolved "alpha" "A" "Wrong_Answer" 20 h1 h2).1
  refine ⟨h1, h2, s1, t1, e1, e2, ?_, ?_, ?_, ?_, ?_⟩
  · rw [a1]; decide
  · unfold Team.status; rw [a2]; decide
  · rw [a3]; decide
  · rw [a4]; decide
  · rw [a5]; decide

/-! ## The reveal step -/

theorem findRankFrom_absent (l : List Team) (name : String) (i : Int)
    (h : ∀ t ∈ l, t.name ≠ name) : findRankFrom l name i = -1 := by
  induction l generalizing i with
  | nil => rfl
  | cons a l ih =>
    have ha : ¬ a.name = name := h a (List.mem_cons_self _ _)
    simp only [findRankFrom, ha, if_false]
    exact ih _ (fun t ht => h t (List.mem_cons_of_mem _ ht))

/-- The search finds the first position holding the name. -/
theorem findRankFrom_found (l : List Team) (name : String) (i : Int) (k : Nat) (t : Team)
    (hk : l[k]? = some t) (hn : t.name = name)
    (hfirst : ∀ j u, j < k → l[j]? = some u → u.name ≠ name) :
    findRankFrom l name i = i + k := by
  induction l generalizing i k with
  | nil => simp at hk
  | cons a l ih =>
    cases k with
    | zero =>
      simp only [List.getElem?_cons_zero, Option.some.injEq] at hk
      subst hk
      simp [findRankFrom, hn]
    | succ k =>
      have ha : ¬ a.name = name := hfirst 0 a (Nat.succ_pos _) (by simp)
      simp only [findRankFrom, ha, if_false]
      rw [ih (i + 1) k (by simpa using hk)
        (fun j u hj hu => hfirst (j + 1) u (Nat.succ_lt_succ hj) (by simpa using hu))]
      push_cast
      ring

/-- When the name occurs in the list, the search returns an index of the list
whose team has that name, and no earlier team has it. -/
theorem findRankFrom_mem (l : List Team) (name : String) (i : Int)
    (h : ∃ t ∈ l, t.name = name) :
    ∃ (k : Nat) (t : Team), l[k]? = some t ∧ t.name = name ∧ findRankFrom l name i = i + k ∧
      ∀ j u, j < k → l[j]? = some u → u.name ≠ name := by
  induction l generalizing i with
  | nil => obtain ⟨t, ht, -⟩ := h; cases ht
  | cons a l ih =>
    by_cases ha : a.name = name
    · exact ⟨0, a, by simp, ha, by simp [findRankFrom, ha], fun j u hj _ => absurd hj (Nat.not_lt_zero _)⟩
    · have h2 : ∃ t ∈ l, t.name = name := by
        obtain ⟨t, ht, hn⟩ := h
        rcases List.mem_cons.1 ht with rfl | ht
        · exact absurd hn ha
        · exact ⟨t, ht, hn⟩
      obtain ⟨k, t, hk, hn, hr, hfirst⟩ := ih (i + 1) h2
      refine ⟨k + 1, t, by simp [hk], hn, ?_, ?_⟩
      · simp only [findRankFrom, ha, if_false, hr]
        push_cast
        ring
      · intro j u hj hu
        cases j with
        | zero =>
          simp only [List.getElem?_cons_zero, Option.some.injEq] at hu
          subst hu
          exact ha
        | succ j =>
          exact hfirst j u (Nat.lt_of_succ_lt_succ hj) (by simpa using hu)

theorem findRank_le_index (l : List Team) (i : Nat) (t : Team) (ht : l[i]? = some t) :
    ∃ k : Nat, findRank l t.name = k ∧ k ≤ i := by
  obtain ⟨k, u, hk, hn, hr, hfirst⟩ :=
    findRankFrom_mem l t.name 0 ⟨t, List.getElem?_mem ht, rfl⟩
  refine ⟨k, by simpa [findRank] using hr, ?_⟩
  by_contra hlt
  exact hfirst i t (Nat.lt_of_not_le hlt) ht rfl

theorem findRank_nodup (l : List Team) (i : Nat) (t : Team) (ht : l[i]? = some t)
    (hnd : (l.map Team.name).Nodup) : findRank l t.name = i := by
  unfold findRank
  rw [findRankFrom_found l t.name 0 i t ht rfl]
  · simp
  · intro j u hj hu hn
    have hi : i < l.length := (List.getElem?_eq_some.1 ht).1
    have e1 : (l.map Team.name)[j]? = some u.name := by simp [hu]
    have e2 : (l.map Team.name)[i]? = some t.name := by simp [ht]
    refine (List.nodup_iff_getElem?_ne_getElem?.1 hnd) j i hj (by simpa using hi) ?_
    rw [e1, e2, hn]


theorem scanFrozen_accepted (q1 : List Submission) (a : Submission) (q2 : List Submission)
    (cnt : Int) (h1 : ∀ x ∈ q1, x.status ≠ "Accepted") (ha : a.status = "Accepted") :
    scanFrozen (q1 ++ a :: q2) cnt = (cnt + q1.length, some a.time) := by
  induction q1 generalizing cnt with
  | nil => simp [scanFrozen, ha]
  | cons x q1 ih =>
    have hx : ¬ x.status = "Accepted" := h1 x (List.mem_cons_self _ _)
    rw [List.cons_append]
    simp only [scanFrozen, hx, if_false]
    rw [ih (cnt + 1) (fun y hy => h1 y (List.mem_cons_of_mem _ hy))]
    simp only [List.length_cons, Nat.cast_add, Nat.cast_one, Prod.mk.injEq, and_true]
    ring

theorem scanFrozen_rejected (q : List Submission) (cnt : Int)
    (h : ∀ x ∈ q, x.status ≠ "Accepted") : scanFrozen q cnt = (cnt + q.length, none) := by
  induction q generalizing cnt with
  | nil => simp [scanFrozen]
  | cons x q ih =>
    have hx : ¬ x.status = "Accepted" := h x (List.mem_cons_self _ _)
    simp only [scanFrozen, hx, if_false]
    rw [ih (cnt + 1) (fun y hy => h y (List.mem_cons_of_mem _ hy))]
    simp only [List.length_cons, Nat.cast_add, Nat.cast_one, Prod.mk.injEq, and_true]
    ring

theorem resolve_name (t : Team) (p : String) : (resolve t p).name = t.name := by
  unfold resolve
  simp only
  split <;> rfl

theorem resolve_status_ne (t : Team) {p q : String} (h : q ≠ p) :
    (resolve t p).status q = t.status q := by
  unfold Team.status resolve
  simp only
  split <;> simp [getP_setP_ne _ _ h]

theorem resolve_pending (t : Team) (p : String) :
    ((resolve t p).status p).frozenSubmissions = 0 ∧ ((resolve t p).status p).frozenSubs = [] := by
  unfold Team.status resolve
  simp [getP_setP_same]

theorem resolve_accepted (t : Team) (p : String) (q1 : List Submission) (a : Submission)
    (q2 : List Submission) (hu : (t.status p).solved = false)
    (hq : (t.status p).frozenSubs = q1 ++ a :: q2)
    (h1 : ∀ x ∈ q1, x.status ≠ "Accepted") (ha : a.status = "Accepted") :
    resolve t p =
      { t with
        problems := setP (setP t.problems p
          { t.status p with
            solved := true
            solveTime := a.time
            wrongAttempts := (t.status p).wrongBeforeFreeze + q1.length }) p
          { t.status p with
            solved := true
            solveTime := a.time
            wrongAttempts := (t.status p).wrongBeforeFreeze + q1.length
            frozenSubmissions := 0
            frozenSubs := [] }
        solvedCount := t.solvedCount + 1
        penaltyTime := t.penaltyTime + (20 * ((t.status p).wrongBeforeFreeze + q1.length) + a.time)
        solveTimes := t.solveTimes ++ [a.time] } := by
  unfold Team.status at hu hq ⊢
  unfold resolve
  simp [hu, hq, scanFrozen_accepted q1 a q2 0 h1 ha, getP_setP_same]

theorem resolve_rejected (t : Team) (p : String) (hu : (t.status p).solved = false)
    (h : ∀ x ∈ (t.status p).frozenSubs, x.status ≠ "Accepted") :
    resolve t p =
      { t with
        problems := setP (setP t.problems p
          { t.status p with
            wrongAttempts := (t.status p).wrongBeforeFreeze + (t.status p).frozenSubs.length }) p
          { t.status p with
            wrongAttempts := (t.status p).wrongBeforeFreeze + (t.status p).frozenSubs.length
            frozenSubmissions := 0
            frozenSubs := [] } } := by
  unfold Team.status at hu h ⊢
  unfold resolve
  simp [hu, scanFrozen_rejected _ 0 h, getP_setP_same]

/-- The result of one reveal iteration, with the index of the team below the
target shown to lie inside the ranking. -/
theorem scrollStep_eq (s : State) (i : Nat) (p : String) (t : Team)
    (ht : s.teamList[i]? = some t) :
    (findRank (stdSort compareTeams (s.teamList.set i (resolve t p))) t.name <
        findRank s.teamList t.name →
      ∃ below,
        (stdSort compareTeams (s.teamList.set i (resolve t p)))[(findRank
          (stdSort compareTeams (s.teamList.set i (resolve t p))) t.name + 1).toNat]? =
            some below ∧
        scrollStep s i p =
          some ({ s with teamList := stdSort compareTeams (s.teamList.set i (resolve t p)) },
            [rankChangeLine t.name below.name (resolve t p).solvedCount
              (resolve t p).penaltyTime])) ∧
    (¬ findRank (stdSort compareTeams (s.teamList.set i (resolve t p))) t.name <
        findRank s.teamList t.name →
      scrollStep s i p =
        some ({ s with teamList := stdSort compareTeams (s.teamList.set i (resolve t p)) }, [])) := by
  obtain ⟨k, hk, hki⟩ := findRank_le_index s.teamList i t ht
  have hi : i < s.teamList.length := (List.getElem?_eq_some.1 ht).1
  have hmem : resolve t p ∈ stdSort compareTeams (s.teamList.set i (resolve t p)) := by
    rw [(stdSort_perm compareTeams _).mem_iff]
    exact List.mem_iff_getElem?.2 ⟨i, by simp [List.getElem?_set, hi]⟩
  obtain ⟨k2, u, hk2, -, hr2, -⟩ :=
    findRankFrom_mem (stdSort compareTeams (s.teamList.set i (resolve t p))) t.name 0
      ⟨resolve t p, hmem, resolve_name t p⟩
  have hr2' : findRank (stdSort compareTeams (s.teamList.set i (resolve t p))) t.name = k2 := by
    simpa [findRank] using hr2
  have hlen : (stdSort compareTeams (s.teamList.set i (resolve t p))).length
      = s.teamList.length := by
    rw [(stdSort_perm compareTeams _).length_eq, List.length_set]
  constructor
  · intro hlt
    rw [hr2', hk] at hlt
    have hk2i : k2 + 1 < (stdSort compareTeams (s.teamList.set i (resolve t p))).length := by
      rw [hlen]; omega
    refine ⟨(stdSort compareTeams (s.teamList.set i (resolve t p)))[k2 + 1], ?_, ?_⟩
    · rw [hr2']
      have : ((k2 : Int) + 1).toNat = k2 + 1 := by omega
      rw [this]
      exact List.getElem?_eq_getElem hk2i
    · unfold scrollStep
      rw [ht]
      simp only [hr2', hk, hlt, if_true]
      have : ((k2 : Int) + 1).toNat = k2 + 1 := by omega
      rw [this, List.getElem?_eq_getElem hk2i]
      simp [resolve_name]
  · intro hlt
    unfold scrollStep
    rw [ht]
    simp only [hlt, if_false]

theorem names_set_resolve (l : List Team) (i : Nat) (t : Team) (p : String)
    (ht : l[i]? = some t) : (l.set i (resolve t p)).map Team.name = l.map Team.name := by
  apply List.ext_getElem?
  intro j
  by_cases hj : i = j
  · subst hj
    have hi : i < l.length := (List.getElem?_eq_some.1 ht).1
    have e : l[i] = t := (List.getElem?_eq_some.1 ht).2
    simp [List.getElem?_set, hi, resolve_name, e]
  · simp [List.getElem?_set, hj]

/-- C2: one reveal iteration on the team `t` at index `i` and a problem `p`
that `t` has not solved, with pending queue `(t.status p).frozenSubs`. The
iteration replaces `t` by `resolve t p` and re-sorts. If the queue is
`q1 ++ a :: q2` with no "Accepted" in `q1` and `a` "Accepted", then afterwards
`p` is solved with `wrongAttempts = wrongBeforeFreeze + length q1` and
`solveTime = a.time`, `solvedCount` has grown by 1, `penaltyTime` by
`20 * (wrongBeforeFreeze + length q1) + a.time`, and `a.time` was pushed on the
solve-time list, whatever `q2` is. If the queue holds no "Accepted", `p` stays
unsolved with `wrongAttempts = wrongBeforeFreeze + length queue`, and
`solvedCount`, `penaltyTime` and the solve-time list are unchanged. In both
cases the pending queue is empty and its count is 0 afterwards. -/
theorem scrollStep_resolution (s : State) (i : Nat) (p : String) (t : Team)
    (ht : s.teamList[i]? = some t) (hu : (t.status p).solved = false) :
    ∃ s1 out, scrollStep s i p = some (s1, out) ∧
      s1.teamList.Perm (s.teamList.set i (resolve t p)) ∧
      (∀ (q1 : List Submission) (a : Submission) (q2 : List Submission),
        (t.status p).frozenSubs = q1 ++ a :: q2 →
        (∀ x ∈ q1, x.status ≠ "Accepted") → a.status = "Accepted" →
        ((resolve t p).status p).solved = true ∧
        ((resolve t p).status p).wrongAttempts = (t.status p).wrongBeforeFreeze + q1.length ∧
        ((resolve t p).status p).solveTime = a.time ∧
        (resolve t p).solvedCount = t.solvedCount + 1 ∧
        (resolve t p).penaltyTime =
          t.penaltyTime + (20 * ((t.status p).wrongBeforeFreeze + q1.length) + a.time) ∧
        (resolve t p).solveTimes = t.solveTimes ++ [a.time]) ∧
      ((∀ x ∈ (t.status p).frozenSubs, x.status ≠ "Accepted") →
        ((resolve t p).status p).solved = false ∧
        ((resolve t p).status p).wrongAttempts =
          (t.status p).wrongBeforeFreeze + (t.status p).frozenSubs.length ∧
        (resolve t p).solvedCount = t.solvedCount ∧
        (resolve t p).penaltyTime = t.penaltyTime ∧
        (resolve t p).solveTimes = t.solveTimes) ∧
      ((resolve t p).status p).frozenSubs = [] ∧
      ((resolve t p).status p).frozenSubmissions = 0 := by
  have hstep : ∃ s1 out, scrollStep s i p = some (s1, out) ∧
      s1.teamList = stdSort compareTeams (s.teamList.set i (resolve t p)) := by
    by_cases hlt : findRank (stdSort compareTeams (s.teamList.set i (resolve t p))) t.name <
        findRank s.teamList t.name
    · obtain ⟨below, -, e⟩ := (scrollStep_eq s i p t ht).1 hlt
      exact ⟨_, _, e, rfl⟩
    · exact ⟨_, _, (scrollStep_eq s i p t ht).2 hlt, rfl⟩
  obtain ⟨s1, out, e, hl⟩ := hstep
  refine ⟨s1, out, e, ?_, ?_, ?_, (resolve_pending t p).2, (resolve_pending t p).1⟩
  · rw [hl]
    exact stdSort_perm compareTeams _
  · intro q1 a q2 hq h1 ha
    rw [resolve_accepted t p q1 a q2 hu hq h1 ha]
    simp [Team.status, getP_setP_same]
  · intro h
    rw [resolve_rejected t p hu h]
    simp only [Team.status, getP_setP_same, and_self, and_true, true_and]
    simpa [Team.status] using hu

/-- C2 (witness): the queue of "beta" on problem "B" is a rejection followed by
an acceptance at minute 260; the reveal gives `solved`, `wrongAttempts = 1`,
`solveTime = 260`, `solvedCount = 1`, `penaltyTime = 280` and an empty queue. -/
theorem scrollStep_resolution_witness :
    exPending.teamList[1]? = some exTeamBetaPending ∧
    (exTeamBetaPending.status "B").solved = false ∧
    (exTeamBetaPending.status "B").frozenSubs =
      [⟨"B", "Wrong_Answer", 250, true⟩] ++ ⟨"B", "Accepted", 260, true⟩ :: [] ∧
    ((resolve exTeamBetaPending "B").status "B").solved = true ∧
    ((resolve exTeamBetaPending "B").status "B").wrongAttempts = 1 ∧
    ((resolve exTeamBetaPending "B").status "B").solveTime = 260 ∧
    (resolve exTeamBetaPending "B").solvedCount = 1 ∧
    (resolve exTeamBetaPending "B").penaltyTime = 280 ∧
    ((resolve exTeamBetaPending "B").status "B").frozenSubs = [] := by
  have h1 : exPending.teamList[1]? = some exTeamBetaPending := by decide
  have h2 : (exTeamBetaPending.status "B").solved = false := by decide
  have h3 : (exTeamBetaPending.status "B").frozenSubs =
      [⟨"B", "Wrong_Answer", 250, true⟩] ++ ⟨"B", "Accepted", 260, true⟩ :: [] := by decide
  obtain ⟨s1, out, -, -, hacc, -, hq, -⟩ :=
    scrollStep_resolution exPending 1 "B" exTeamBetaPending h1 h2
  obtain ⟨a1, a2, a3, a4, a5, -⟩ := hacc _ _ _ h3 (by decide) rfl
  refine ⟨h1, h2, h3, a1, ?_, a3, ?_, ?_, hq⟩
  · rw [a2]; decide
  · rw [a4]; decide
  · rw [a5]; decide

/-- C7: one reveal iteration on the team `t` at index `i` with problem `p`,
where `ranking` is the list re-sorted after the resolution. The target is
found in `ranking` at an index `k`. If that index is smaller than the index
the target had before, a team `below` stands at index `k + 1` of `ranking` and
the iteration writes exactly one line: the target's name, `below`'s name, and
the decimal forms of the target's updated `solvedCount` and `penaltyTime`,
separated by single spaces; otherwise it writes nothing. So the iteration
returns, and it writes something exactly when the index decreased. With
pairwise distinct team names the index before is `i` and the team at index `k`
of `ranking` is the resolved target. -/
theorem scrollStep_rank_change (s : State) (i : Nat) (p : String) (t : Team)
    (ranking : List Team) (ht : s.teamList[i]? = some t)
    (hr : ranking = stdSort compareTeams (s.teamList.set i (resolve t p))) :
    (∃ (k : Nat) (u : Team), findRank ranking t.name = k ∧ ranking[k]? = some u ∧
      u.name = t.name) ∧
    (findRank ranking t.name < findRank s.teamList t.name →
      ∃ below, ranking[(findRank ranking t.name + 1).toNat]? = some below ∧
        scrollStep s i p =
          some ({ s with teamList := ranking },
            [t.name ++ " " ++ below.name ++ " " ++ toString (resolve t p).solvedCount ++ " " ++
              toString (resolve t p).penaltyTime])) ∧
    (¬ findRank ranking t.name < findRank s.teamList t.name →
      scrollStep s i p = some ({ s with teamList := ranking }, [])) ∧
    ((s.teamList.map Team.name).Nodup →
      findRank s.teamList t.name = i ∧
      ranking[(findRank ranking t.name).toNat]? = some (resolve t p)) ∧
    (∃ out, scrollStep s i p = some ({ s with teamList := ranking }, out) ∧
      (out ≠ [] ↔ findRank ranking t.name < findRank s.teamList t.name) ∧
      (out = [] ∨ ∃ line, out = [line])) := by
  subst hr
  have hi : i < s.teamList.length := (List.getElem?_eq_some.1 ht).1
  have hmem : resolve t p ∈ stdSort compareTeams (s.teamList.set i (resolve t p)) := by
    rw [(stdSort_perm compareTeams _).mem_iff]
    exact List.mem_iff_getElem?.2 ⟨i, by simp [List.getElem?_set, hi]⟩
  refine ⟨?_, (scrollStep_eq s i p t ht).1, (scrollStep_eq s i p t ht).2, ?_, ?_⟩
  · obtain ⟨k, u, hk, hn, hrk, -⟩ :=
      findRankFrom_mem (stdSort compareTeams (s.teamList.set i (resolve t p))) t.name 0
        ⟨resolve t p, hmem, resolve_name t p⟩
    exact ⟨k, u, by simpa [findRank] using hrk, hk, hn⟩
  · intro hnd
    refine ⟨findRank_nodup s.teamList i t ht hnd, ?_⟩
    obtain ⟨j, hj⟩ := List.mem_iff_getElem?.1 hmem
    have hnd2 : ((stdSort compareTeams (s.teamList.set i (resolve t p))).map Team.name).Nodup := by
      rw [((stdSort_perm compareTeams _).map Team.name).nodup_iff, names_set_resolve _ _ _ _ ht]
      exact hnd
    have := findRank_nodup _ j (resolve t p) hj hnd2
    rw [resolve_name] at this
    rw [this]
    simpa using hj
  · by_cases hlt : findRank (stdSort compareTeams (s.teamList.set i (resolve t p))) t.name <
        findRank s.teamList t.name
    · obtain ⟨below, -, e⟩ := (scrollStep_eq s i p t ht).1 hlt
      exact ⟨_, e, ⟨fun _ => hlt, fun _ => List.cons_ne_nil _ _⟩, Or.inr ⟨_, rfl⟩⟩
    · exact ⟨[], (scrollStep_eq s i p t ht).2 hlt, ⟨fun h => (h rfl).elim, fun h => (hlt h).elim⟩,
        Or.inl rfl⟩

/-- C7 (witness): revealing "beta" at index 1 moves it to index 0, above
"alpha", and the iteration writes the one line "beta alpha 1 280". -/
theorem scrollStep_rank_change_witness :
    exPending.teamList[1]? = some exTeamBetaPending ∧
    findRank (stdSort compareTeams (exPending.teamList.set 1 (resolve exTeamBetaPending "B")))
      exTeamBetaPending.name <
      findRank exPending.teamList exTeamBetaPending.name ∧
    ∃ below,
      (stdSort compareTeams (exPending.teamList.set 1 (resolve exTeamBetaPending "B")))[(findRank
        (stdSort compareTeams (exPending.teamList.set 1 (resolve exTeamBetaPending "B")))
        exTeamBetaPending.name + 1).toNat]? = some below ∧
      below.name = "alpha" ∧
      scrollStep exPending 1 "B" =
        some ({ exPending with
                teamList := stdSort compareTeams
                  (exPending.teamList.set 1 (resolve exTeamBetaPending "B")) },
          ["beta alpha 1 280"]) := by
  have h1 : exPending.teamList[1]? = some exTeamBetaPending := by decide
  have hlt : findRank (stdSort compareTeams
      (exPending.teamList.set 1 (resolve exTeamBetaPending "B"))) exTeamBetaPending.name <
      findRank exPending.teamList exTeamBetaPending.name := by decide
  obtain ⟨below, hb, hs⟩ :=
    (scrollStep_rank_change exPending 1 "B" exTeamBetaPending _ h1 rfl).2.1 hlt
  have hb2 : ((stdSort compareTeams
      (exPending.teamList.set 1 (resolve exTeamBetaPending "B")))[(findRank
        (stdSort compareTeams (exPending.teamList.set 1 (resolve exTeamBetaPending "B")))
        exTeamBetaPending.name + 1).toNat]?).map Team.name = some "alpha" := by decide
  rw [hb] at hb2
  have hname : below.name = "alpha" := Option.some.inj hb2
  rw [hname] at hs
  exact ⟨h1, hlt, below, hb, hname, hs.trans (by decide)⟩

/-! ## Queries -/

theorem findLastFrom_some (subs : List Submission) (problem status : String) (n i : Nat)
    (h : findLastFrom subs problem status n = some i) :
    i < n ∧ (∃ sub, subs[i]? = some sub ∧ matchesFilter problem status sub = true) ∧
      ∀ j u, i < j → j < n → subs[j]? = some u → matchesFilter problem status u = false := by
  induction n with
  | zero => simp [findLastFrom] at h
  | succ n ih =>
    unfold findLastFrom at h
    cases hs : subs[n]? with
    | none =>
      rw [hs] at h
      obtain ⟨h1, h2, h3⟩ := ih h
      refine ⟨Nat.lt_succ_of_lt h1, h2, ?_⟩
      intro j u hij hjn hu
      rcases Nat.lt_succ_iff_lt_or_eq.1 hjn with hlt | heq
      · exact h3 j u hij hlt hu
      · subst heq; rw [hs] at hu; cases hu
    | some sub =>
      rw [hs] at h
      simp only at h
      by_cases hm : matchesFilter problem status sub = true
      · simp only [hm, if_true, Option.some.injEq] at h
        subst h
        refine ⟨Nat.lt_succ_self _, ⟨sub, hs, hm⟩, ?_⟩
        intro j u hij hjn
        omega
      · simp only [hm, if_false] at h
        obtain ⟨h1, h2, h3⟩ := ih h
        refine ⟨Nat.lt_succ_of_lt h1, h2, ?_⟩
        intro j u hij hjn hu
        rcases Nat.lt_succ_iff_lt_or_eq.1 hjn with hlt | heq
        · exact h3 j u hij hlt hu
        · subst heq
          rw [hs] at hu
          cases hu
          simpa using hm

theorem findLastFrom_none (subs : List Submission) (problem status : String) (n : Nat)
    (h : findLastFrom subs problem status n = none) :
    ∀ j u, j < n → subs[j]? = some u → matchesFilter problem status u = false := by
  induction n with
  | zero => intro j u hj; exact absurd hj (Nat.not_lt_zero _)
  | succ n ih =>
    unfold findLastFrom at h
    cases hs : subs[n]? with
    | none =>
      rw [hs] at h
      intro j u hjn hu
      rcases Nat.lt_succ_iff_lt_or_eq.1 hjn with hlt | heq
      · exact ih h j u hlt hu
      · subst heq; rw [hs] at hu; cases hu
    | some sub =>
      rw [hs] at h
      simp only at h
      by_cases hm : matchesFilter problem status sub = true
      · simp [hm] at h
      · simp only [hm, if_false] at h
        intro j u hjn hu
        rcases Nat.lt_succ_iff_lt_or_eq.1 hjn with hlt | heq
        · exact ih h j u hlt hu
        · subst heq
          rw [hs] at hu
          cases hu
          simpa using hm

theorem foundSubmission_some (t : Team) (problem status : String) (sub : Submission) :
    foundSubmission t problem status = some sub ↔
      ∃ i : Nat, t.submissions[i]? = some sub ∧ matchesFilter problem status sub = true ∧
        ∀ (j : Nat) (u : Submission), i < j → t.submissions[j]? = some u → matchesFilter problem status u = false := by
  unfold foundSubmission
  constructor
  · intro h
    cases hf : findLastFrom t.submissions problem status t.submissions.length with
    | none => rw [hf] at h; cases h
    | some i =>
      rw [hf] at h
      simp only at h
      obtain ⟨-, ⟨sub2, hs2, hm⟩, hlater⟩ := findLastFrom_some _ _ _ _ _ hf
      rw [h] at hs2
      cases hs2
      refine ⟨i, h, hm, ?_⟩
      intro j u hij hu
      exact hlater j u hij (List.getElem?_eq_some.1 hu).1 hu
  · rintro ⟨i, hi, hm, hlater⟩
    cases hf : findLastFrom t.submissions problem status t.submissions.length with
    | none =>
      have := findLastFrom_none _ _ _ _ hf i sub (List.getElem?_eq_some.1 hi).1 hi
      rw [this] at hm
      cases hm
    | some k =>
      simp only
      obtain ⟨hk, ⟨sub2, hs2, hm2⟩, hlater2⟩ := findLastFrom_some _ _ _ _ _ hf
      rcases Nat.lt_trichotomy i k with hlt | heq | hgt
      · have := hlater k sub2 hlt hs2
        rw [this] at hm2; cases hm2
      · subst heq; exact hi
      · have := hlater2 i sub hgt (List.getElem?_eq_some.1 hi).1 hi
        rw [this] at hm; cases hm

theorem foundSubmission_none (t : Team) (problem status : String) :
    foundSubmission t problem status = none ↔
      ∀ u ∈ t.submissions, matchesFilter problem status u = false := by
  constructor
  · intro h u hu
    obtain ⟨j, hj⟩ := List.mem_iff_getElem?.1 hu
    cases hf : findLastFrom t.submissions problem status t.submissions.length with
    | none => exact findLastFrom_none _ _ _ _ hf j u (List.getElem?_eq_some.1 hj).1 hj
    | some i =>
      obtain ⟨hi, -, -⟩ := findLastFrom_some _ _ _ _ _ hf
      unfold foundSubmission at h
      rw [hf] at h
      simp only at h
      rw [List.getElem?_eq_getElem hi] at h
      cases h
  · intro h
    cases hf : foundSubmission t problem status with
    | none => rfl
    | some sub =>
      obtain ⟨i, hi, hm, -⟩ := (foundSubmission_some t problem status sub).1 hf
      rw [h sub (List.getElem?_mem hi)] at hm
      cases hm

theorem matchesFilter_iff (problem status : String) (u : Submission) :
    matchesFilter problem status u = true ↔
      (problem = "ALL" ∨ u.problem = problem) ∧ (status = "ALL" ∨ u.status = status) := by
  simp [matchesFilter]

/-- C10: for a registered team `t`, `querySubmission` writes the entry of
greatest index of `t`'s history that matches both filters (a filter "ALL"
matches everything, any other filter matches on equality), and writes the
no-match line exactly when no entry of the history matches both filters; with
both filters "ALL" and a non-empty history the entry is the last one. -/
theorem querySubmission_most_recent (s : State) (t : Team) (teamName problem status : String)
    (ht : findTeam s.teamList teamName = some t) :
    (∀ u : Submission, matchesFilter problem status u = true ↔
      (problem = "ALL" ∨ u.problem = problem) ∧ (status = "ALL" ∨ u.status = status)) ∧
    (∀ sub : Submission, foundSubmission t problem status = some sub ↔
      ∃ i : Nat, t.submissions[i]? = some sub ∧ matchesFilter problem status sub = true ∧
        ∀ (j : Nat) (u : Submission), i < j → t.submissions[j]? = some u →
          matchesFilter problem status u = false) ∧
    (foundSubmission t problem status = none ↔
      ∀ u ∈ t.submissions, matchesFilter problem status u = false) ∧
    (∀ h : t.submissions ≠ [],
      foundSubmission t "ALL" "ALL" = some (t.submissions.getLast h)) ∧
    (∀ sub : Submission, foundSubmission t problem status = some sub →
      querySubmission s teamName problem status =
        ["[Info]Complete query submission.",
          teamName ++ " " ++ sub.problem ++ " " ++ sub.status ++ " " ++ toString sub.time]) ∧
    (foundSubmission t problem status = none →
      querySubmission s teamName problem status =
        ["[Info]Complete query submission.", "Cannot find any submission."]) := by
  refine ⟨matchesFilter_iff problem status, foundSubmission_some t problem status,
    foundSubmission_none t problem status, ?_, ?_, ?_⟩
  · intro h
    rw [foundSubmission_some]
    have hpos : 0 < t.submissions.length := List.length_pos.2 h
    refine ⟨t.submissions.length - 1, ?_, by simp [matchesFilter], ?_⟩
    · rw [List.getLast_eq_getElem]
      exact List.getElem?_eq_getElem (by omega)
    · intro j u hj hu
      have := (List.getElem?_eq_some.1 hu).1
      omega
  · intro sub h
    unfold querySubmission
    rw [ht]
    simp [h]
  · intro h
    unfold querySubmission
    rw [ht]
    simp [h]

/-- C10 (witness): the history of "alpha" is a rejection at 3, a rejection at 7
and an acceptance at 10 on problem "A"; the most recent entry with problem "A"
and outcome "Wrong_Answer" is the one of minute 3, and with both filters "ALL"
it is the acceptance. -/
theorem querySubmission_most_recent_witness :
    findTeam exSolved.teamList "alpha" = some exTeamSolved ∧
    foundSubmission exTeamSolved "A" "Wrong_Answer" = some ⟨"A", "Wrong_Answer", 3, false⟩ ∧
    foundSubmission exTeamSolved "ALL" "ALL" = some ⟨"A", "Accepted", 10, false⟩ ∧
    querySubmission exSolved "alpha" "A" "Wrong_Answer" =
      ["[Info]Complete query submission.", "alpha A Wrong_Answer 3"] := by
  have h1 : findTeam exSolved.teamList "alpha" = some exTeamSolved := by decide
  have h2 : foundSubmission exTeamSolved "A" "Wrong_Answer" =
      some ⟨"A", "Wrong_Answer", 3, false⟩ := by decide
  have h := querySubmission_most_recent exSolved exTeamSolved "alpha" "A" "Wrong_Answer" h1
  refine ⟨h1, h2, ?_, ?_⟩
  · exact (querySubmission_most_recent exSolved exTeamSolved "alpha" "ALL" "ALL" h1).2.2.2.1
      (by decide)
  · rw [h.2.2.2.2.1 _ h2]
    decide

/-! ## The engine invariant -/

theorem mem_keys_setP (m : List (String × ProblemStatus)) (k q : String) (v : ProblemStatus) :
    q ∈ (setP m k v).map Prod.fst ↔ q = k ∨ q ∈ m.map Prod.fst := by
  induction m with
  | nil => simp [setP]
  | cons e m ih =>
    obtain ⟨k', v'⟩ := e
    by_cases h : k' = k
    · subst h
      simp [setP]
    · simp only [setP, h, if_false, List.map_cons, List.mem_cons, ih]
      tauto

theorem keys_setP (m : List (String × ProblemStatus)) (k : String) (v : ProblemStatus)
    (h : (m.map Prod.fst).Nodup) : ((setP m k v).map Prod.fst).Nodup := by
  induction m with
  | nil => simp [setP]
  | cons e m ih =>
    obtain ⟨k', v'⟩ := e
    simp only [List.map_cons, List.nodup_cons] at h
    by_cases hk : k' = k
    · subst hk
      simp only [setP, if_true, List.map_cons, List.nodup_cons]
      exact h
    · simp only [setP, hk, if_false, List.map_cons, List.nodup_cons]
      refine ⟨?_, ih h.2⟩
      rw [mem_keys_setP]
      rintro (hc | hc)
      · exact hk hc
      · exact h.1 hc

theorem solvedPenalty_cons (e : String × ProblemStatus) (m : List (String × ProblemStatus)) :
    solvedPenalty (e :: m) = penaltyOf e.2 + solvedPenalty m := by
  unfold solvedPenalty penaltyOf
  by_cases h : e.2.solved = true
  · simp [List.filter, h]
  · simp [List.filter, h]

theorem solvedPenalty_setP (m : List (String × ProblemStatus)) (k : String)
    (v : ProblemStatus) :
    solvedPenalty (setP m k v) = solvedPenalty m - penaltyOf (getP m k) + penaltyOf v := by
  induction m with
  | nil =>
    simp only [setP, getP, solvedPenalty_cons]
    simp [solvedPenalty, penaltyOf]
  | cons e m ih =>
    obtain ⟨k', v'⟩ := e
    by_cases hk : k' = k
    · subst hk
      simp only [setP, getP, if_true, solvedPenalty_cons]
      ring
    · simp only [setP, getP, hk, if_false, solvedPenalty_cons, ih]
      ring

theorem setP_setP (m : List (String × ProblemStatus)) (k : String) (v w : ProblemStatus) :
    setP (setP m k v) k w = setP m k w := by
  induction m with
  | nil => simp [setP]
  | cons e m ih =>
    obtain ⟨k', v'⟩ := e
    by_cases hk : k' = k
    · subst hk; simp [setP]
    · simp [setP, hk, ih]

/-- Writing one problem status that meets the pending-queue conditions, with
the penalty adjusted accordingly, keeps the team invariant. -/
theorem teamInv_update {names : List String} {fr : Bool} {t t1 : Team}
    (h : TeamInv names fr t) (p : String) (v : ProblemStatus)
    (hprob : t1.problems = setP t.problems p v)
    (hpen : t1.penaltyTime = t.penaltyTime - penaltyOf (t.status p) + penaltyOf v)
    (htimes : (t1.solveTimes.length : Int) = t1.solvedCount)
    (hv1 : v.frozenSubmissions = v.frozenSubs.length)
    (hv2 : v.solved = true → v.frozenSubs = [])
    (hv3 : p ∉ names → v.frozenSubs = [])
    (hv4 : fr = false → v.frozenSubs = []) : TeamInv names fr t1 := by
  have hst : ∀ q, t1.status q = if q = p then v else t.status q := by
    intro q
    unfold Team.status
    rw [hprob]
    by_cases hq : q = p
    · subst hq; simp [getP_setP_same]
    · simp [hq, getP_setP_ne _ _ hq]
  refine ⟨?_, ?_, htimes, ?_, ?_, ?_, ?_⟩
  · rw [hprob]; exact keys_setP _ _ _ h.keys
  · rw [hpen, hprob, solvedPenalty_setP, h.penalty]; rfl
  · intro q
    rw [hst]
    by_cases hq : q = p
    · simp [hq, hv1]
    · simp only [hq, if_false]; exact h.count q
  · intro q
    rw [hst]
    by_cases hq : q = p
    · simpa [hq] using hv2
    · simp only [hq, if_false]; exact h.unsolved q
  · intro q hn
    rw [hst]
    by_cases hq : q = p
    · subst hq; simpa using hv3 hn
    · simp only [hq, if_false]; exact h.contest q hn
  · intro hfr q
    rw [hst]
    by_cases hq : q = p
    · simpa [hq] using hv4 hfr
    · simp only [hq, if_false]; exact h.thawed hfr q

/-- A change that leaves the problem map and the aggregates alone keeps the
team invariant. -/
theorem teamInv_same {names : List String} {fr : Bool} {t t1 : Team}
    (h : TeamInv names fr t) (hprob : t1.problems = t.problems)
    (hpen : t1.penaltyTime = t.penaltyTime) (hsc : t1.solvedCount = t.solvedCount)
    (hst : t1.solveTimes = t.solveTimes) : TeamInv names fr t1 := by
  have hs : ∀ q, t1.status q = t.status q := fun q => by unfold Team.status; rw [hprob]
  refine ⟨by rw [hprob]; exact h.keys, by rw [hpen, hprob]; exact h.penalty,
    by rw [hst, hsc]; exact h.times, ?_, ?_, ?_, ?_⟩
  · intro q; rw [hs]; exact h.count q
  · intro q; rw [hs]; exact h.unsolved q
  · intro q hq; rw [hs]; exact h.contest q hq
  · intro hf q; rw [hs]; exact h.thawed hf q

theorem teamInv_addSubmission {names : List String} {fr : Bool} {t : Team}
    (h : TeamInv names fr t) (p st : String) (time : Int) (hp : p ∈ names) :
    TeamInv names fr (t.addSubmission p st time fr) := by
  by_cases hs : (t.status p).solved = true
  · rw [addSubmission_solved t p st time fr hs]
    exact teamInv_same h rfl rfl rfl rfl
  · have hu : (t.status p).solved = false := by simpa using hs
    cases fr with
    | true =>
      rw [addSubmission_frozen t p st time hu]
      refine teamInv_update h p _ rfl ?_ h.times ?_ ?_ ?_ ?_
      · simp [penaltyOf, hu]
      · simp [h.count p]
      · intro hc; simp [hu] at hc
      · intro hn; exact absurd hp hn
      · intro hc; cases hc
    | false =>
      have hq : (t.status p).frozenSubs = [] := h.thawed rfl p
      have hc : (t.status p).frozenSubmissions = 0 := by rw [h.count p, hq]; rfl
      by_cases hacc : st = "Accepted"
      · subst hacc
        rw [addSubmission_accepted t p time hu]
        refine teamInv_update h p _ rfl ?_ ?_ ?_ ?_ ?_ ?_
        · simp [penaltyOf, hu]
        · simp only [List.length_append, List.length_singleton, Nat.cast_add, Nat.cast_one,
            h.times]
        · simp [hc, hq]
        · intro _; exact hq
        · intro _; exact hq
        · intro _; exact hq
      · rw [addSubmission_rejected t p st time hu hacc]
        refine teamInv_update h p _ rfl ?_ h.times ?_ ?_ ?_ ?_
        · simp [penaltyOf, hu]
        · simp [hc, hq]
        · intro _; exact hq
        · intro _; exact hq
        · intro _; exact hq

theorem teamInv_resolve {names : List String} {t : Team}
    (h : TeamInv names true t) (p : String) (hp : (t.status p).frozenSubmissions > 0) :
    TeamInv names true (resolve t p) := by
  have hu : (t.status p).solved = false := by
    by_contra hc
    have hs : (t.status p).solved = true := by simpa using hc
    have := h.count p
    rw [h.unsolved p hs] at this
    simp at this
    omega
  have hu2 : (getP t.problems p).solved = false := hu
  have key : ∀ r : Int × Option Int, scanFrozen (t.status p).frozenSubs 0 = r →
      TeamInv names true (resolve t p) := by
    intro r hr
    have hr2 : scanFrozen (getP t.problems p).frozenSubs 0 = r := hr
    obtain ⟨cnt, acc⟩ := r
    cases acc with
    | some time =>
      refine teamInv_update h p
        { t.status p with
          solved := true
          solveTime := time
          wrongAttempts := (t.status p).wrongBeforeFreeze + cnt
          frozenSubmissions := 0
          frozenSubs := [] } ?_ ?_ ?_ ?_ ?_ ?_ ?_
      · unfold resolve Team.status
        simp [hu2, hr2, getP_setP_same, setP_setP]
      · unfold resolve
        simp [hu2, hr2, penaltyOf, hu, Team.status]
      · unfold resolve
        simp [hu2, hr2, h.times]
      · simp
      · intro _; rfl
      · intro _; rfl
      · intro hc; cases hc
    | none =>
      refine teamInv_update h p
        { t.status p with
          wrongAttempts := (t.status p).wrongBeforeFreeze + cnt
          frozenSubmissions := 0
          frozenSubs := [] } ?_ ?_ ?_ ?_ ?_ ?_ ?_
      · unfold resolve Team.status
        simp [hu2, hr2, getP_setP_same, setP_setP]
      · unfold resolve
        simp [hu2, hr2, penaltyOf, hu, Team.status]
      · unfold resolve
        simp [hu2, hr2, h.times]
      · simp
      · intro _; rfl
      · intro _; rfl
      · intro hc; cases hc
  exact key _ rfl

theorem teamInv_new (names : List String) (fr : Bool) (n : String) :
    TeamInv names fr { name := n } := by
  refine ⟨by simp, by simp [solvedPenalty], by simp, ?_, ?_, ?_, ?_⟩ <;>
    simp [Team.status, getP]

theorem teamInv_names {names : List String} {fr : Bool} {t : Team} (names2 : List String)
    (h : TeamInv names fr t) (hp : t.problems = []) : TeamInv names2 fr t := by
  refine ⟨h.keys, h.penalty, h.times, h.count, h.unsolved, ?_, h.thawed⟩
  intro p _
  simp [Team.status, hp, getP]

theorem freezeStatus_default : freezeStatus {} = {} := rfl

/-- The effect of `freeze` on one problem status. -/
theorem getP_freezeProblems (m : List (String × ProblemStatus)) (p : String) :
    getP (freezeProblems m) p = freezeStatus (getP m p) := by
  induction m with
  | nil => rfl
  | cons e m ih =>
    obtain ⟨k, v⟩ := e
    unfold freezeProblems at ih ⊢
    by_cases hk : k = p
    · simp [getP, hk]
    · simp only [List.map_cons, getP, hk, if_false]
      exact ih

theorem keys_freezeProblems (m : List (String × ProblemStatus)) :
    (freezeProblems m).map Prod.fst = m.map Prod.fst := by
  unfold freezeProblems
  rw [List.map_map]
  rfl

theorem penaltyOf_freezeStatus (ps : ProblemStatus) :
    penaltyOf (freezeStatus ps) = penaltyOf ps := by
  unfold freezeStatus penaltyOf
  by_cases hs : ps.solved = true <;> simp [hs]

theorem solvedPenalty_freezeProblems (m : List (String × ProblemStatus)) :
    solvedPenalty (freezeProblems m) = solvedPenalty m := by
  induction m with
  | nil => rfl
  | cons e m ih =>
    have : freezeProblems (e :: m) = (e.1, freezeStatus e.2) :: freezeProblems m := rfl
    rw [this, solvedPenalty_cons, solvedPenalty_cons, ih, penaltyOf_freezeStatus]

theorem freezeStatus_pending (ps : ProblemStatus) :
    (freezeStatus ps).frozenSubs = ps.frozenSubs ∧
      (freezeStatus ps).frozenSubmissions = ps.frozenSubmissions ∧
      (freezeStatus ps).solved = ps.solved := by
  unfold freezeStatus
  by_cases hs : ps.solved = true <;> simp [hs]

theorem teamInv_freeze {names : List String} {t : Team} (h : TeamInv names false t) :
    TeamInv names true { t with problems := freezeProblems t.problems } := by
  have hst : ∀ q, (Team.status { t with problems := freezeProblems t.problems } q).frozenSubs = []
      ∧ (Team.status { t with problems := freezeProblems t.problems } q).frozenSubmissions = 0 := by
    intro q
    have h1 := h.thawed rfl q
    have h2 := h.count q
    rw [h1] at h2
    unfold Team.status at h1 h2 ⊢
    simp only [getP_freezeProblems]
    rw [(freezeStatus_pending _).1, (freezeStatus_pending _).2.1, h1, h2]
    exact ⟨rfl, rfl⟩
  refine ⟨?_, ?_, h.times, ?_, ?_, ?_, ?_⟩
  · simp only [keys_freezeProblems]; exact h.keys
  · simp only [solvedPenalty_freezeProblems]; exact h.penalty
  · intro q; rw [(hst q).1, (hst q).2]; rfl
  · intro q _; exact (hst q).1
  · intro q _; exact (hst q).1
  · intro hc; cases hc

theorem teamInv_thaw {names : List String} {t : Team} (h : TeamInv names true t)
    (hn : ∀ p ∈ names, ¬ (t.status p).frozenSubmissions > 0) :
    TeamInv names false t ∧
      ∀ p, (t.status p).frozenSubmissions = 0 ∧ (t.status p).frozenSubs = [] := by
  have hall : ∀ p, (t.status p).frozenSubs = [] := by
    intro p
    by_cases hp : p ∈ names
    · have h1 := hn p hp
      have h2 := h.count p
      rw [h2] at h1
      have : (t.status p).frozenSubs.length = 0 := by omega
      exact List.length_eq_zero.1 this
    · exact h.contest p hp
  refine ⟨⟨h.keys, h.penalty, h.times, h.count, h.unsolved, h.contest, fun _ => hall⟩, ?_⟩
  intro p
  refine ⟨?_, hall p⟩
  rw [h.count p, hall p]
  rfl

theorem findTeam_none_iff (l : List Team) (n : String) :
    findTeam l n = none ↔ ∀ t ∈ l, t.name ≠ n := by
  unfold findTeam
  simp [List.find?_eq_none]

theorem inv_init : Inv init := by
  refine ⟨?_, ?_, ?_⟩
  · intro t ht; cases ht
  · exact List.nodup_nil
  · intro _; exact ⟨rfl, fun t ht => by cases ht⟩

theorem inv_of_perm {s : State} (h : Inv s) {l : List Team} (hp : l.Perm s.teamList)
    (fl : Bool) : Inv { s with teamList := l, flushed := fl } := by
  refine ⟨?_, ?_, ?_⟩
  · intro t ht
    exact h.teams t (hp.mem_iff.1 ht)
  · exact ((hp.map Team.name).nodup_iff).2 h.names
  · intro hs
    refine ⟨(h.fresh hs).1, ?_⟩
    intro t ht
    exact (h.fresh hs).2 t (hp.mem_iff.1 ht)

theorem inv_addTeam {s : State} (h : Inv s) (name : String) : Inv (addTeam s name).1 := by
  unfold addTeam
  by_cases hs : s.started = true
  · simp only [hs, if_true]; exact h
  · simp only [hs, Bool.false_eq_true, if_false]
    cases hf : findTeam s.teamList name with
    | some t => simp only [Option.isSome_some, if_true]; exact h
    | none =>
      simp only [Option.isSome_none, Bool.false_eq_true, if_false]
      have hne := (findTeam_none_iff _ _).1 hf
      refine ⟨?_, ?_, ?_⟩
      · intro t ht
        rcases List.mem_append.1 ht with ht | ht
        · exact h.teams t ht
        · rw [List.mem_singleton.1 ht]
          exact teamInv_new _ _ _
      · simp only [List.map_append, List.map_cons, List.map_nil]
        refine List.Nodup.append h.names (List.nodup_singleton _) ?_
        intro n hn1 hn2
        rw [List.mem_singleton.1 hn2] at hn1
        obtain ⟨t, ht, htn⟩ := List.mem_map.1 hn1
        exact hne t ht htn
      · intro _
        have hst : s.started = false := by simpa using hs
        refine ⟨(h.fresh hst).1, ?_⟩
        intro t ht
        rcases List.mem_append.1 ht with ht | ht
        · exact (h.fresh hst).2 t ht
        · rw [List.mem_singleton.1 ht]

theorem inv_start {s : State} (h : Inv s) (duration problems : Int) :
    Inv (start s duration problems).1 := by
  unfold start
  by_cases hs : s.started = true
  · simp only [hs, if_true]; exact h
  · simp only [hs, Bool.false_eq_true, if_false]
    have hfr := h.fresh (by simpa using hs)
    have hp := stdSort_perm (fun a b : Team => strLt a.name b.name) s.teamList
    refine ⟨?_, ?_, ?_⟩
    · intro t ht
      have ht2 : t ∈ s.teamList := hp.mem_iff.1 ht
      exact teamInv_names _ (h.teams t ht2) (hfr.2 t ht2)
    · exact ((hp.map Team.name).nodup_iff).2 h.names
    · intro hc; cases hc

theorem mem_updateTeam (l : List Team) (name : String) (f : Team → Team) (t : Team)
    (h : t ∈ updateTeam l name f) : t ∈ l ∨ ∃ u ∈ l, t = f u := by
  induction l with
  | nil => cases h
  | cons a l ih =>
    unfold updateTeam at h
    by_cases ha : a.name = name
    · simp only [ha, if_true] at h
      rcases List.mem_cons.1 h with rfl | h
      · exact Or.inr ⟨a, List.mem_cons_self _ _, rfl⟩
      · exact Or.inl (List.mem_cons_of_mem _ h)
    · simp only [ha, if_false] at h
      rcases List.mem_cons.1 h with rfl | h
      · exact Or.inl (List.mem_cons_self _ _)
      · rcases ih h with h | ⟨u, hu, e⟩
        · exact Or.inl (List.mem_cons_of_mem _ h)
        · exact Or.inr ⟨u, List.mem_cons_of_mem _ hu, e⟩

theorem names_updateTeam (l : List Team) (name : String) (f : Team → Team)
    (hf : ∀ t, (f t).name = t.name) :
    (updateTeam l name f).map Team.name = l.map Team.name := by
  induction l with
  | nil => rfl
  | cons a l ih =>
    unfold updateTeam
    by_cases ha : a.name = name
    · simp [ha, hf]
    · simp [ha, ih]

theorem inv_submit {s s1 : State} (h : Inv s) (problem teamName status : String) (time : Int)
    (hst : s.started = true) (hp : problem ∈ s.problemNames)
    (e : submit s problem teamName status time = some s1) : Inv s1 := by
  unfold submit at e
  cases hf : findTeam s.teamList teamName with
  | none => rw [hf] at e; cases e
  | some t0 =>
    rw [hf] at e
    simp only [Option.some.injEq] at e
    subst e
    refine ⟨?_, ?_, ?_⟩
    · intro t ht
      rcases mem_updateTeam _ _ _ _ ht with ht | ⟨u, hu, rfl⟩
      · exact h.teams t ht
      · exact teamInv_addSubmission (h.teams u hu) _ _ _ hp
    · simp only [names_updateTeam _ _ _ (fun t => addSubmission_name t _ _ _ _)]
      exact h.names
    · intro hc
      simp only [hst] at hc
      cases hc

theorem inv_flush {s : State} (h : Inv s) : Inv (flush s).1 :=
  inv_of_perm h (stdSort_perm compareTeams s.teamList) true

theorem inv_freeze {s : State} (h : Inv s) : Inv (freeze s).1 := by
  unfold freeze
  by_cases hf : s.frozen = true
  · simp only [hf, if_true]; exact h
  · simp only [hf, Bool.false_eq_true, if_false]
    have hf2 : s.frozen = false := by simpa using hf
    refine ⟨?_, ?_, ?_⟩
    · intro t ht
      obtain ⟨u, hu, rfl⟩ := List.mem_map.1 ht
      have := h.teams u hu
      rw [hf2] at this
      exact teamInv_freeze this
    · simp only [List.map_map]
      exact h.names
    · intro hs
      refine ⟨(h.fresh hs).1, ?_⟩
      intro t ht
      obtain ⟨u, hu, rfl⟩ := List.mem_map.1 ht
      simp [(h.fresh hs).2 u hu, freezeProblems]

/-! ## The reveal loop -/

theorem firstPending_some {t : Team} {names : List String} {p : String}
    (h : firstPending t names = some p) : p ∈ names ∧ (t.status p).frozenSubmissions > 0 := by
  unfold firstPending at h
  refine ⟨List.mem_of_find?_eq_some h, ?_⟩
  simpa using List.find?_some h

theorem firstPending_none {t : Team} {names : List String}
    (h : firstPending t names = none) : ∀ p ∈ names, ¬ (t.status p).frozenSubmissions > 0 := by
  unfold firstPending at h
  intro p hp
  simpa using List.find?_eq_none.1 h p hp

theorem findTargetFrom_some (l : List Team) (names : List String) (n i : Nat) (p : String)
    (h : findTargetFrom l names n = some (i, p)) :
    i < n ∧ ∃ t, l[i]? = some t ∧ firstPending t names = some p ∧
      ∀ (j : Nat) (u : Team), i < j → j < n → l[j]? = some u → firstPending u names = none := by
  induction n with
  | zero => simp [findTargetFrom] at h
  | succ n ih =>
    unfold findTargetFrom at h
    cases hl : l[n]? with
    | none =>
      rw [hl] at h
      simp only at h
      obtain ⟨h1, t, h2, h3, h4⟩ := ih h
      refine ⟨Nat.lt_succ_of_lt h1, t, h2, h3, ?_⟩
      intro j u hij hjn hu
      rcases Nat.lt_succ_iff_lt_or_eq.1 hjn with hlt | heq
      · exact h4 j u hij hlt hu
      · subst heq; rw [hl] at hu; cases hu
    | some t =>
      rw [hl] at h
      simp only at h
      cases hf : firstPending t names with
      | some q =>
        rw [hf] at h
        simp only [Option.some.injEq, Prod.mk.injEq] at h
        obtain ⟨rfl, rfl⟩ := h
        refine ⟨Nat.lt_succ_self _, t, hl, hf, ?_⟩
        intro j u hij hjn
        omega
      | none =>
        rw [hf] at h
        simp only at h
        obtain ⟨h1, t2, h2, h3, h4⟩ := ih h
        refine ⟨Nat.lt_succ_of_lt h1, t2, h2, h3, ?_⟩
        intro j u hij hjn hu
        rcases Nat.lt_succ_iff_lt_or_eq.1 hjn with hlt | heq
        · exact h4 j u hij hlt hu
        · subst heq
          rw [hl] at hu
          cases hu
          exact hf

theorem findTargetFrom_none (l : List Team) (names : List String) (n : Nat)
    (h : findTargetFrom l names n = none) :
    ∀ (j : Nat) (u : Team), j < n → l[j]? = some u → firstPending u names = none := by
  induction n with
  | zero => intro j u hj; exact absurd hj (Nat.not_lt_zero _)
  | succ n ih =>
    unfold findTargetFrom at h
    cases hl : l[n]? with
    | none =>
      rw [hl] at h
      simp only at h
      intro j u hjn hu
      rcases Nat.lt_succ_iff_lt_or_eq.1 hjn with hlt | heq
      · exact ih h j u hlt hu
      · subst heq; rw [hl] at hu; cases hu
    | some t =>
      rw [hl] at h
      simp only at h
      cases hf : firstPending t names with
      | some q => rw [hf] at h; cases h
      | none =>
        rw [hf] at h
        simp only at h
        intro j u hjn hu
        rcases Nat.lt_succ_iff_lt_or_eq.1 hjn with hlt | heq
        · exact ih h j u hlt hu
        · subst heq
          rw [hl] at hu
          cases hu
          exact hf

theorem findTarget_some {s : State} {i : Nat} {p : String} (h : findTarget s = some (i, p)) :
    ∃ t, s.teamList[i]? = some t ∧ p ∈ s.problemNames ∧ (t.status p).frozenSubmissions > 0 := by
  obtain ⟨-, t, h1, h2, -⟩ := findTargetFrom_some _ _ _ _ _ h
  exact ⟨t, h1, (firstPending_some h2).1, (firstPending_some h2).2⟩

theorem findTarget_none {s : State} (h : findTarget s = none) :
    ∀ t ∈ s.teamList, ∀ p ∈ s.problemNames, ¬ (t.status p).frozenSubmissions > 0 := by
  intro t ht
  obtain ⟨j, hj⟩ := List.mem_iff_getElem?.1 ht
  exact firstPending_none
    (findTargetFrom_none _ _ _ h j t (List.getElem?_eq_some.1 hj).1 hj)

theorem pendingProblems_resolve_le (names : List String) (t : Team) (p : String) :
    pendingProblems names (resolve t p) ≤ pendingProblems names t := by
  unfold pendingProblems
  induction names with
  | nil => simp
  | cons q names ih =>
    by_cases hq : q = p
    · subst hq
      simp only [List.filter, (resolve_pending t q).1]
      simp only [gt_iff_lt, lt_self_iff_false, decide_False]
      split
      · exact Nat.le_succ_of_le ih
      · exact ih
    · simp only [List.filter, resolve_status_ne t hq]
      split
      · simpa using ih
      · exact ih

theorem pendingProblems_resolve_lt (names : List String) (t : Team) (p : String)
    (hp : p ∈ names) (hpos : (t.status p).frozenSubmissions > 0) :
    pendingProblems names (resolve t p) < pendingProblems names t := by
  induction names with
  | nil => cases hp
  | cons q names ih =>
    by_cases hq : q = p
    · subst hq
      have hle := pendingProblems_resolve_le names t q
      unfold pendingProblems at hle ⊢
      simp only [gt_iff_lt] at hle hpos ⊢
      simp only [List.filter, (resolve_pending t q).1, hpos, lt_self_iff_false, decide_False,
        decide_True, List.length_cons]
      omega
    · have hp2 : p ∈ names := by
        rcases List.mem_cons.1 hp with h | h
        · exact absurd h.symm hq
        · exact h
      have := ih hp2
      unfold pendingProblems at this ⊢
      simp only [List.filter, resolve_status_ne t hq]
      split
      · simpa using this
      · exact this

theorem sum_map_set (f : Team → Nat) (l : List Team) (i : Nat) (a b : Team)
    (h : l[i]? = some a) : ((l.set i b).map f).sum + f a = (l.map f).sum + f b := by
  induction l generalizing i with
  | nil => simp at h
  | cons x l ih =>
    cases i with
    | zero =>
      simp only [List.getElem?_cons_zero, Option.some.injEq] at h
      subst h
      simp only [List.set_cons_zero, List.map_cons, List.sum_cons]
      omega
    | succ i =>
      have := ih i (by simpa using h)
      simp only [List.set_cons_succ, List.map_cons, List.sum_cons]
      omega

theorem pendingPairs_step (s : State) (i : Nat) (p : String) (t : Team)
    (ht : s.teamList[i]? = some t) (hp : p ∈ s.problemNames)
    (hpos : (t.status p).frozenSubmissions > 0) (fl : Bool) :
    pendingPairs { s with
                   teamList := stdSort compareTeams (s.teamList.set i (resolve t p))
                   flushed := fl } < pendingPairs s := by
  unfold pendingPairs
  simp only
  rw [((stdSort_perm compareTeams _).map _).sum_eq]
  have h1 := sum_map_set (pendingProblems s.problemNames) s.teamList i t (resolve t p) ht
  have h2 := pendingProblems_resolve_lt s.problemNames t p hp hpos
  omega

theorem scrollStep_state (s : State) (i : Nat) (p : String) (t : Team)
    (ht : s.teamList[i]? = some t) :
    ∃ out, scrollStep s i p =
      some ({ s with teamList := stdSort compareTeams (s.teamList.set i (resolve t p)) }, out) := by
  by_cases hlt : findRank (stdSort compareTeams (s.teamList.set i (resolve t p))) t.name <
      findRank s.teamList t.name
  · obtain ⟨below, -, e⟩ := (scrollStep_eq s i p t ht).1 hlt
    exact ⟨_, e⟩
  · exact ⟨_, (scrollStep_eq s i p t ht).2 hlt⟩

theorem inv_reveal {s : State} (h : Inv s) (hf : s.frozen = true) (i : Nat) (p : String)
    (t : Team) (ht : s.teamList[i]? = some t) (hp : p ∈ s.problemNames)
    (hpos : (t.status p).frozenSubmissions > 0) :
    Inv { s with teamList := stdSort compareTeams (s.teamList.set i (resolve t p)) } := by
  have hperm := stdSort_perm compareTeams (s.teamList.set i (resolve t p))
  refine ⟨?_, ?_, ?_⟩
  · intro u hu
    have hu2 : u ∈ s.teamList.set i (resolve t p) := hperm.mem_iff.1 hu
    rcases List.mem_or_eq_of_mem_set hu2 with hu3 | rfl
    · exact h.teams u hu3
    · have := h.teams t (List.getElem?_mem ht)
      rw [hf] at this
      simp only [hf]
      exact teamInv_resolve this p hpos
  · simp only
    rw [(hperm.map Team.name).nodup_iff, names_set_resolve _ _ _ _ ht]
    exact h.names
  · intro hs
    have := (h.fresh hs).1
    rw [this] at hp
    cases hp

/-- With more iterations than pending (team, problem) pairs the reveal loop
reaches its exit. -/
theorem scrollLoop_total (n : Nat) (s : State) (h : pendingPairs s < n) :
    ∃ r, scrollLoop n s = some r := by
  induction n generalizing s with
  | zero => exact absurd h (Nat.not_lt_zero _)
  | succ n ih =>
    unfold scrollLoop
    cases hft : findTarget s with
    | none => exact ⟨_, rfl⟩
    | some tgt =>
      obtain ⟨i, p⟩ := tgt
      obtain ⟨t, ht, hp, hpos⟩ := findTarget_some hft
      obtain ⟨out, e⟩ := scrollStep_state s i p t ht
      simp only [e]
      have hlt := pendingPairs_step s i p t ht hp hpos s.flushed
      obtain ⟨r, hr⟩ := ih _ (by omega : pendingPairs { s with
          teamList := stdSort compareTeams (s.teamList.set i (resolve t p))
          flushed := s.flushed } < n)
      rw [hr]
      exact ⟨_, rfl⟩

/-- More fuel does not change the result of the reveal loop. -/
theorem scrollLoop_mono (n : Nat) (s : State) (r : State × List String)
    (h : scrollLoop n s = some r) (m : Nat) (hm : n ≤ m) : scrollLoop m s = some r := by
  induction n generalizing s r m with
  | zero => simp [scrollLoop] at h
  | succ n ih =>
    cases m with
    | zero => omega
    | succ m =>
      unfold scrollLoop at h ⊢
      cases hft : findTarget s with
      | none => rw [hft] at h; exact h
      | some tgt =>
        obtain ⟨i, p⟩ := tgt
        rw [hft] at h
        simp only at h ⊢
        cases hst : scrollStep s i p with
        | none => rw [hst] at h; cases h
        | some r1 =>
          obtain ⟨s1, out1⟩ := r1
          rw [hst] at h
          simp only at h ⊢
          cases hl : scrollLoop n s1 with
          | none => rw [hl] at h; cases h
          | some r2 =>
            rw [hl] at h
            rw [ih s1 r2 hl m (by omega)]
            exact h

theorem scrollLoop_inv (n : Nat) (s s2 : State) (out : List String)
    (h : scrollLoop n s = some (s2, out)) (hi : Inv s) (hf : s.frozen = true) :
    Inv s2 ∧ s2.frozen = true ∧ findTarget s2 = none ∧ s2.problemNames = s.problemNames ∧
      s2.started = s.started ∧ s2.flushed = s.flushed := by
  induction n generalizing s out with
  | zero => simp [scrollLoop] at h
  | succ n ih =>
    unfold scrollLoop at h
    cases hft : findTarget s with
    | none =>
      rw [hft] at h
      simp only [Option.some.injEq, Prod.mk.injEq] at h
      obtain ⟨rfl, -⟩ := h
      exact ⟨hi, hf, hft, rfl, rfl, rfl⟩
    | some tgt =>
      obtain ⟨i, p⟩ := tgt
      rw [hft] at h
      simp only at h
      obtain ⟨t, ht, hp, hpos⟩ := findTarget_some hft
      obtain ⟨out1, e⟩ := scrollStep_state s i p t ht
      rw [e] at h
      simp only at h
      cases hl : scrollLoop n { s with
          teamList := stdSort compareTeams (s.teamList.set i (resolve t p)) } with
      | none => rw [hl] at h; cases h
      | some r2 =>
        obtain ⟨s3, out3⟩ := r2
        rw [hl] at h
        simp only [Option.some.injEq, Prod.mk.injEq] at h
        obtain ⟨rfl, -⟩ := h
        have := ih { s with teamList := stdSort compareTeams (s.teamList.set i (resolve t p)) }
          out3 hl (inv_reveal hi hf i p t ht hp hpos) hf
        exact this

theorem pendingPairs_sorted (s : State) :
    pendingPairs { s with teamList := stdSort compareTeams s.teamList } = pendingPairs s := by
  unfold pendingPairs
  exact ((stdSort_perm compareTeams s.teamList).map _).sum_eq

theorem scroll_of_frozen (n : Nat) (s : State) (hf : s.frozen = true) :
    scroll n s =
      match scrollLoop n { s with teamList := stdSort compareTeams s.teamList } with
      | none => none
      | some (s1, out) =>
        some ({ s1 with frozen := false },
          ["[Info]Scroll scoreboard."] ++
            printScoreboard { s with teamList := stdSort compareTeams s.teamList } ++ out ++
            printScoreboard s1) := by
  unfold scroll
  rw [if_neg (by simp [hf])]

theorem scroll_of_not_frozen (n : Nat) (s : State) (hf : s.frozen = false) :
    scroll n s = some (s, ["[Error]Scroll failed: scoreboard has not been frozen."]) := by
  unfold scroll
  rw [if_pos (by simp [hf])]

/-- A scroll with more fuel than pending pairs returns. -/
theorem scroll_total (s : State) (n : Nat) (h : pendingPairs s < n) :
    ∃ r, scroll n s = some r := by
  by_cases hf : s.frozen = true
  · rw [scroll_of_frozen n s hf]
    obtain ⟨r, hr⟩ := scrollLoop_total n { s with teamList := stdSort compareTeams s.teamList }
      (by rw [pendingPairs_sorted]; exact h)
    rw [hr]
    exact ⟨_, rfl⟩
  · rw [scroll_of_not_frozen n s (by simpa using hf)]
    exact ⟨_, rfl⟩

theorem scroll_mono (n : Nat) (s : State) (r : State × List String)
    (h : scroll n s = some r) (m : Nat) (hm : n ≤ m) : scroll m s = some r := by
  by_cases hf : s.frozen = true
  · rw [scroll_of_frozen n s hf] at h
    rw [scroll_of_frozen m s hf]
    cases hl : scrollLoop n { s with teamList := stdSort compareTeams s.teamList } with
    | none => rw [hl] at h; cases h
    | some r1 =>
      rw [hl] at h
      rw [scrollLoop_mono n _ r1 hl m hm]
      exact h
  · have hf2 : s.frozen = false := by simpa using hf
    rw [scroll_of_not_frozen n s hf2] at h
    rw [scroll_of_not_frozen m s hf2]
    exact h

theorem scroll_frozen_result (n : Nat) (s s1 : State) (out : List String)
    (h : scroll n s = some (s1, out)) (hi : Inv s) (hf : s.frozen = true) :
    Inv s1 ∧ s1.frozen = false ∧
      ∀ t ∈ s1.teamList, ∀ p,
        (t.status p).frozenSubmissions = 0 ∧ (t.status p).frozenSubs = [] := by
  rw [scroll_of_frozen n s hf] at h
  cases hl : scrollLoop n { s with teamList := stdSort compareTeams s.teamList } with
  | none => rw [hl] at h; cases h
  | some r1 =>
    obtain ⟨s2, out2⟩ := r1
    rw [hl] at h
    simp only [Option.some.injEq, Prod.mk.injEq] at h
    obtain ⟨rfl, -⟩ := h
    have hi0 : Inv { s with teamList := stdSort compareTeams s.teamList } := by
      have := inv_of_perm hi (stdSort_perm compareTeams s.teamList) s.flushed
      exact this
    obtain ⟨hi2, hf2, hnone, hpn, hst, -⟩ := scrollLoop_inv n _ s2 out2 hl hi0 hf
    have hteam : ∀ t ∈ s2.teamList, TeamInv s2.problemNames false t ∧
        ∀ p, (t.status p).frozenSubmissions = 0 ∧ (t.status p).frozenSubs = [] := by
      intro t ht
      have h1 := hi2.teams t ht
      rw [hf2] at h1
      exact teamInv_thaw h1 (findTarget_none hnone t ht)
    refine ⟨⟨fun t ht => (hteam t ht).1, hi2.names, hi2.fresh⟩, rfl, fun t ht => (hteam t ht).2⟩

theorem inv_scroll (n : Nat) (s s1 : State) (out : List String)
    (h : scroll n s = some (s1, out)) (hi : Inv s) : Inv s1 := by
  by_cases hf : s.frozen = true
  · exact (scroll_frozen_result n s s1 out h hi hf).1
  · have hf2 : s.frozen = false := by simpa using hf
    rw [scroll_of_not_frozen n s hf2] at h
    simp only [Option.some.injEq, Prod.mk.injEq] at h
    obtain ⟨rfl, -⟩ := h
    exact hi

theorem inv_exec {s s1 : State} {c : Cmd} (h : Exec s c s1) (hi : Inv s) : Inv s1 := by
  cases h
  case addTeam => exact inv_addTeam hi _
  case start => exact inv_start hi _ _
  case submit hst hp e => exact inv_submit hi _ _ _ _ hst hp e
  case flush => exact inv_flush hi
  case freeze => exact inv_freeze hi
  case scroll fuel out e => exact inv_scroll fuel _ _ out e hi

theorem inv_run {s s1 : State} {cs : List Cmd} (h : Run s cs s1) (hi : Inv s) : Inv s1 := by
  induction h with
  | nil => exact hi
  | cons he _ ih => exact ih (inv_exec he hi)

theorem inv_reachable {s : State} (h : Reachable s) : Inv s := by
  obtain ⟨cs, hr⟩ := h
  exact inv_run hr inv_init

/-! ## Reachable states -/

theorem run_snoc {s s1 s2 : State} {cs : List Cmd} {c : Cmd} (h : Run s cs s1)
    (e : Exec s1 c s2) : Run s (cs ++ [c]) s2 := by
  induction h with
  | nil => exact Run.cons e (Run.nil _)
  | cons he _ ih => exact Run.cons he (ih e)

theorem reachable_step {s s1 : State} {c : Cmd} (h : Reachable s) (e : Exec s c s1) :
    Reachable s1 := by
  obtain ⟨cs, hr⟩ := h
  exact ⟨cs ++ [c], run_snoc hr e⟩

theorem reachable_init : Reachable init := ⟨[], Run.nil _⟩

theorem reachable_exStarted : Reachable exStarted :=
  reachable_step (reachable_step (reachable_step reachable_init (Exec.addTeam _ "alpha"))
    (Exec.addTeam _ "beta")) (Exec.start _ 300 3)

theorem reachable_exTwoRejected : Reachable exTwoRejected := by
  have h1 : Reachable ((submit exStarted "A" "alpha" "Wrong_Answer" 3).getD init) :=
    reachable_step reachable_exStarted
      (Exec.submit _ _ "A" "alpha" "Wrong_Answer" 3 (by decide) (by decide) (by decide))
  exact reachable_step h1
    (Exec.submit _ _ "A" "alpha" "Time_Limit_Exceed" 7 (by decide) (by decide) (by decide))

theorem reachable_exSolved : Reachable exSolved :=
  reachable_step reachable_exTwoRejected
    (Exec.submit _ _ "A" "alpha" "Accepted" 10 (by decide) (by decide) (by decide))

theorem reachable_exFrozen : Reachable exFrozen :=
  reachable_step reachable_exTwoRejected (Exec.freeze _)

theorem reachable_exPending : Reachable exPending := by
  have h1 : Reachable ((submit exFrozen "B" "beta" "Wrong_Answer" 250).getD init) :=
    reachable_step reachable_exFrozen
      (Exec.submit _ _ "B" "beta" "Wrong_Answer" 250 (by decide) (by decide) (by decide))
  exact reachable_step h1
    (Exec.submit _ _ "B" "beta" "Accepted" 260 (by decide) (by decide) (by decide))

theorem scroll_exPending : scroll 2 exPending = some (exScrolled, exScrollOut) := by
  decide

/-- The lines written by the scroll of `exPending`: the frozen scoreboard, the
rank change of "beta", the final scoreboard. -/
theorem scroll_exPending_lines :
    exScrollOut =
      ["[Info]Scroll scoreboard.", "alpha 1 0 0 -2 . .", "beta 2 0 0 . 0/2 .",
        "beta alpha 1 280", "beta 1 1 280 . +1 .", "alpha 2 0 0 -2 . ."] := by
  decide

theorem reachable_exScrolled : Reachable exScrolled :=
  reachable_step reachable_exPending (Exec.scroll _ _ 2 exScrollOut scroll_exPending)

/-- C6: from every reachable frozen state `scroll` runs to completion (with
fuel for one more iteration than there are pending pairs, and with the same
result for any fuel that suffices); afterwards the engine is not frozen and
for every team and every problem the pending count is 0 and the stored
pending submissions are empty. -/
theorem scroll_clears_pending (s : State) (hr : Reachable s) (hf : s.frozen = true) :
    ∃ s1 out, scroll (pendingPairs s + 1) s = some (s1, out) ∧
      (∀ fuel r, scroll fuel s = some r → r = (s1, out)) ∧
      s1.frozen = false ∧
      ∀ t ∈ s1.teamList, ∀ p,
        (t.status p).frozenSubmissions = 0 ∧ (t.status p).frozenSubs = [] := by
  obtain ⟨r, hscroll⟩ := scroll_total s (pendingPairs s + 1) (Nat.lt_succ_self _)
  obtain ⟨s1, out⟩ := r
  obtain ⟨-, h2, h3⟩ :=
    scroll_frozen_result _ s s1 out hscroll (inv_reachable hr) hf
  refine ⟨s1, out, hscroll, ?_, h2, h3⟩
  intro fuel r hfuel
  have e1 := scroll_mono _ s _ hscroll (max fuel (pendingPairs s + 1)) (le_max_right _ _)
  have e2 := scroll_mono _ s _ hfuel (max fuel (pendingPairs s + 1)) (le_max_left _ _)
  rw [e1] at e2
  exact (Option.some.inj e2).symm

/-- C6 (witness): the reachable frozen state `exPending`, in which "beta" has
two pending submissions on problem "B", is scrolled to a state that is not
frozen and has no pending submission. -/
theorem scroll_clears_pending_witness :
    Reachable exPending ∧ exPending.frozen = true ∧
    ∃ s1 out, scroll (pendingPairs exPending + 1) exPending = some (s1, out) ∧
      s1.frozen = false ∧
      ∀ t ∈ s1.teamList, ∀ p,
        (t.status p).frozenSubmissions = 0 ∧ (t.status p).frozenSubs = [] := by
  have hf : exPending.frozen = true := by decide
  obtain ⟨s1, out, h1, -, h3, h4⟩ := scroll_clears_pending exPending reachable_exPending hf
  exact ⟨reachable_exPending, hf, s1, out, h1, h3, h4⟩

/-- C8: in every reachable state the penalty time of each team is the sum,
over the entries of its problem map that are solved, of
`20 * wrongAttempts + solveTime`; the map has one entry per problem name. -/
theorem penalty_is_sum_over_solved (s : State) (t : Team) (hr : Reachable s)
    (ht : t ∈ s.teamList) :
    t.penaltyTime =
      ((t.problems.filter (fun e => e.2.solved)).map
        (fun e => 20 * e.2.wrongAttempts + e.2.solveTime)).sum ∧
    (t.problems.map Prod.fst).Nodup :=
  ⟨((inv_reachable hr).teams t ht).penalty, ((inv_reachable hr).teams t ht).keys⟩

/-- C8 (witness): in the reachable state `exScrolled` team "beta" has solved
problem "B" at minute 260 with one wrong attempt, revealed by the scroll, and
its penalty time is 280. -/
theorem penalty_is_sum_over_solved_witness :
    Reachable exScrolled ∧ exTeamBetaRevealed ∈ exScrolled.teamList ∧
    exTeamBetaRevealed.penaltyTime = 280 ∧
    ((exTeamBetaRevealed.problems.filter (fun e => e.2.solved)).map
        (fun e => 20 * e.2.wrongAttempts + e.2.solveTime)).sum = 280 := by
  have hm : exTeamBetaRevealed ∈ exScrolled.teamList := by decide
  have h := (penalty_is_sum_over_solved exScrolled exTeamBetaRevealed reachable_exScrolled hm).1
  refine ⟨reachable_exScrolled, hm, by decide, ?_⟩
  rw [← h]
  decide

/-! ## The ranking query before the first flush -/

theorem rankUnflushed_eq (l : List Team) (name : String) (r : Int) :
    rankUnflushed l name r = r + ((l.map Team.name).indexOf name : Nat) := by
  induction l generalizing r with
  | nil => simp [rankUnflushed]
  | cons a l ih =>
    by_cases ha : a.name = name
    · simp [rankUnflushed, ha]
    · simp only [rankUnflushed, ha, if_false, List.map_cons]
      rw [ih, List.indexOf_cons_ne _ ha]
      push_cast
      ring

theorem queryRank_unflushed (s : State) (name : String) (hf : s.flushed = false) :
    queryRank s name = positionIn (s.teamList.map Team.name) name := by
  unfold queryRank positionIn
  simp only [hf, Bool.not_false, if_true]
  rw [rankUnflushed_eq]
  ring

theorem findTeam_isSome_iff (l : List Team) (n : String) :
    (findTeam l n).isSome = true ↔ n ∈ l.map Team.name := by
  cases h : findTeam l n with
  | none =>
    have := (findTeam_none_iff l n).1 h
    simp only [Option.isSome_none, Bool.false_eq_true, List.mem_map, false_iff, not_exists,
      not_and]
    exact fun t ht => this t ht
  | some t =>
    simp only [Option.isSome_some, List.mem_map, true_iff]
    unfold findTeam at h
    exact ⟨t, List.mem_of_find?_eq_some h, by simpa using List.find?_some h⟩

theorem names_sorted_by_name (l : List Team) :
    (stdSort (fun a b : Team => strLt a.name b.name) l).map Team.name =
      stdSort strLt (l.map Team.name) := by
  unfold stdSort
  exact List.map_insertionSort _ _ Team.name l (fun a _ b _ => Iff.rfl)

theorem tracks_addTeam {s : State} {acc : List String} (ht : Tracks s acc) (name : String) :
    Tracks (addTeam s name).1 (registerStep s.started acc (Cmd.addTeam name)).2 ∧
      (addTeam s name).1.started = (registerStep s.started acc (Cmd.addTeam name)).1 := by
  by_cases hs : s.started = true
  · have e : (addTeam s name).1 = s := by simp [addTeam, hs]
    rw [e]
    simpa [registerStep, hs] using ht
  · have hs2 : s.started = false := by simpa using hs
    have hn := ht.2.1 hs2
    by_cases hk : (findTeam s.teamList name).isSome = true
    · have e : (addTeam s name).1 = s := by simp [addTeam, hk, hs2]
      have hc : name ∈ acc := by
        rw [← hn]; exact (findTeam_isSome_iff _ _).1 hk
      rw [e]
      simpa [registerStep, hs2, hc] using ht
    · have e : (addTeam s name).1 =
          { s with teamList := s.teamList ++ [{ name := name }] } := by
        simp [addTeam, hs2, hk]
      have hc : ¬ name ∈ acc := by
        rw [← hn]
        exact fun hm => hk ((findTeam_isSome_iff _ _).2 hm)
      rw [e]
      simp only [registerStep, hs2, hc, decide_False, Bool.or_self, Bool.false_eq_true, if_false,
        and_true]
      refine ⟨ht.1, ?_, ?_⟩
      · intro _; simp [hn]
      · intro hc2; simp only [hs2] at hc2; cases hc2

theorem tracks_start {s : State} {acc : List String} (ht : Tracks s acc)
    (duration problems : Int) :
    Tracks (start s duration problems).1
        (registerStep s.started acc (Cmd.start duration problems)).2 ∧
      (start s duration problems).1.started =
        (registerStep s.started acc (Cmd.start duration problems)).1 := by
  by_cases hs : s.started = true
  · have e : (start s duration problems).1 = s := by simp [start, hs]
    rw [e]
    simpa [registerStep, hs] using ht
  · have hs2 : s.started = false := by simpa using hs
    have hn := ht.2.1 hs2
    refine ⟨⟨?_, ?_, ?_⟩, ?_⟩
    · simp [start, hs2, ht.1]
    · intro hc; simp [start, hs2] at hc
    · intro _
      simp only [start, hs2, Bool.false_eq_true, if_false, registerStep]
      rw [names_sorted_by_name, hn]
    · simp [start, hs2, registerStep]

theorem tracks_submit {s s1 : State} {acc : List String} (ht : Tracks s acc)
    (problem teamName status : String) (time : Int)
    (e : submit s problem teamName status time = some s1) :
    Tracks s1 acc ∧ s1.started = s.started := by
  unfold submit at e
  cases hf : findTeam s.teamList teamName with
  | none => rw [hf] at e; cases e
  | some t0 =>
    rw [hf] at e
    simp only [Option.some.injEq] at e
    subst e
    refine ⟨⟨ht.1, ?_, ?_⟩, rfl⟩
    · intro hc
      simp only [names_updateTeam _ _ _ (fun t => addSubmission_name t _ _ _ _)]
      exact ht.2.1 hc
    · intro hc
      simp only [names_updateTeam _ _ _ (fun t => addSubmission_name t _ _ _ _)]
      exact ht.2.2 hc

theorem tracks_freeze {s : State} {acc : List String} (ht : Tracks s acc) :
    Tracks (freeze s).1 acc ∧ (freeze s).1.started = s.started := by
  by_cases hf : s.frozen = true
  · have e : (freeze s).1 = s := by simp [freeze, hf]
    rw [e]
    exact ⟨ht, rfl⟩
  · have hf2 : s.frozen = false := by simpa using hf
    refine ⟨⟨?_, ?_, ?_⟩, ?_⟩
    · simp [freeze, hf2, ht.1]
    · intro hc
      have hc2 : s.started = false := by simpa [freeze, hf2] using hc
      simp only [freeze, hf2, Bool.false_eq_true, if_false, List.map_map]
      exact ht.2.1 hc2
    · intro hc
      have hc2 : s.started = true := by simpa [freeze, hf2] using hc
      simp only [freeze, hf2, Bool.false_eq_true, if_false, List.map_map]
      exact ht.2.2 hc2
    · simp [freeze, hf2]

theorem tracks_exec {s s1 : State} {c : Cmd} (he : Exec s c s1) (acc : List String)
    (hfl : c ≠ Cmd.flush) (hsc : c ≠ Cmd.scroll) (ht : Tracks s acc) :
    Tracks s1 (registerStep s.started acc c).2 ∧
      s1.started = (registerStep s.started acc c).1 := by
  cases he
  case addTeam => exact tracks_addTeam ht _
  case start => exact tracks_start ht _ _
  case submit hst hp e => exact tracks_submit ht _ _ _ _ e
  case flush => exact absurd rfl hfl
  case freeze => exact tracks_freeze ht
  case scroll => exact absurd rfl hsc

theorem tracks_run {s s1 : State} {cs : List Cmd} (h : Run s cs s1) (acc : List String)
    (hfl : Cmd.flush ∉ cs) (hsc : Cmd.scroll ∉ cs) (ht : Tracks s acc) :
    Tracks s1 (registered s.started acc cs) := by
  induction h generalizing acc with
  | nil => exact ht
  | cons he _ ih =>
    have h1 := tracks_exec he acc (fun hc => hfl (hc ▸ List.mem_cons_self _ _))
      (fun hc => hsc (hc ▸ List.mem_cons_self _ _)) ht
    have := ih _ (fun hc => hfl (List.mem_cons_of_mem _ hc))
      (fun hc => hsc (List.mem_cons_of_mem _ hc)) h1.1
    rw [h1.2] at this
    exact this


/-- Sorting strings with `operator<` yields a list in which no string is
preceded by a greater one. -/
theorem stdSort_strLt_sorted (l : List String) :
    (stdSort strLt l).Pairwise (fun a b => strLt b a = false) := by
  haveI : IsTotal String (fun a b => strLt b a = false) :=
    ⟨fun a b => by
      cases h : strLt b a with
      | false => exact Or.inl rfl
      | true => exact Or.inr (strLt_asymm h)⟩
  haveI : IsTrans String (fun a b => strLt b a = false) :=
    ⟨fun a b c hab hbc => by
      simp only [strLt, decide_eq_false_iff_not, not_lt] at hab hbc ⊢
      exact le_trans hab hbc⟩
  exact List.sorted_insertionSort (fun a b => strLt b a = false) l

/-- In a reachable state every team has one solve time per solved problem
counted, and the team names are pairwise distinct. -/
theorem reachable_consistent (s : State) (hr : Reachable s) :
    (∀ t ∈ s.teamList, t.timesConsistent) ∧ (s.teamList.map Team.name).Nodup :=
  ⟨fun t ht => ((inv_reachable hr).teams t ht).times, (inv_reachable hr).names⟩

/-- C9 (counterexample): teams "b" and then "a" are registered and the contest
is started, with no flush; "a" is second in insertion order, yet
`queryRanking` reports it at ranking 1. -/
theorem queryRanking_not_insertion_order :
    Run init exCmds exNameOrder ∧ Cmd.flush ∉ exCmds ∧ exNameOrder.flushed = false ∧
    insertionOrder exCmds = ["b", "a"] ∧
    positionIn (insertionOrder exCmds) "a" = 2 ∧
    queryRank exNameOrder "a" = 1 ∧
    queryRanking exNameOrder "a" = ["[Info]Complete query ranking.", "a NOW AT RANKING 1"] :=
  ⟨Run.cons (Exec.addTeam _ "b") (Run.cons (Exec.addTeam _ "a")
      (Run.cons (Exec.start _ 300 3) (Run.nil _))),
    by decide, by decide, by decide, by decide, by decide, by decide⟩

/-- C9 (amended): in a state reached without any flush or scroll,
`queryRanking` for a registered team reports the team's 1-based position in
the team list as it stands, which is the insertion order while the contest
has not started and, once it has started, the insertion order sorted by name
(a rearrangement of it in which no name is preceded by a greater one). -/
theorem queryRanking_before_first_flush (cs : List Cmd) (s : State) (teamName : String)
    (hrun : Run init cs s) (hfl : Cmd.flush ∉ cs) (hsc : Cmd.scroll ∉ cs)
    (hk : (findTeam s.teamList teamName).isSome = true) :
    s.flushed = false ∧
    queryRank s teamName = positionIn (s.teamList.map Team.name) teamName ∧
    (s.started = false →
      s.teamList.map Team.name = insertionOrder cs ∧
      queryRank s teamName = positionIn (insertionOrder cs) teamName) ∧
    (s.started = true →
      s.teamList.map Team.name = stdSort strLt (insertionOrder cs) ∧
      queryRank s teamName = positionIn (stdSort strLt (insertionOrder cs)) teamName) ∧
    (stdSort strLt (insertionOrder cs)).Perm (insertionOrder cs) ∧
    (stdSort strLt (insertionOrder cs)).Pairwise (fun a b => strLt b a = false) ∧
    queryRanking s teamName =
      ["[Info]Complete query ranking."] ++
      (if s.frozen then
        ["[Warning]Scoreboard is frozen. The ranking may be inaccurate until it were scrolled."]
       else []) ++
      [teamName ++ " NOW AT RANKING " ++ toString (queryRank s teamName)] := by
  have ht : Tracks s (insertionOrder cs) :=
    tracks_run hrun [] hfl hsc ⟨rfl, fun _ => rfl, fun hc => by cases hc⟩
  have hq := queryRank_unflushed s teamName ht.1
  refine ⟨ht.1, hq, ?_, ?_, stdSort_perm strLt _, stdSort_strLt_sorted _, ?_⟩
  · intro hs
    exact ⟨ht.2.1 hs, by rw [hq, ht.2.1 hs]⟩
  · intro hs
    exact ⟨ht.2.2 hs, by rw [hq, ht.2.2 hs]⟩
  · unfold queryRanking
    have : (findTeam s.teamList teamName).isNone = false := by
      cases hf : findTeam s.teamList teamName with
      | none => rw [hf] at hk; cases hk
      | some t => rfl
    rw [this]
    rfl

/-- C9 (witness): after registering "b" and then "a" and starting the contest,
with no flush or scroll, the team list is in name order and "a" is reported
at position 1, its position in ascending name order. -/
theorem queryRanking_before_first_flush_witness :
    Run init exCmds exNameOrder ∧ Cmd.flush ∉ exCmds ∧ Cmd.scroll ∉ exCmds ∧
    (findTeam exNameOrder.teamList "a").isSome = true ∧
    exNameOrder.started = true ∧
    exNameOrder.teamList.map Team.name = stdSort strLt (insertionOrder exCmds) ∧
    queryRank exNameOrder "a" = positionIn (stdSort strLt (insertionOrder exCmds)) "a" ∧
    positionIn (stdSort strLt (insertionOrder exCmds)) "a" = 1 :=
  have hrun : Run init exCmds exNameOrder :=
    Run.cons (Exec.addTeam _ "b") (Run.cons (Exec.addTeam _ "a")
      (Run.cons (Exec.start _ 300 3) (Run.nil _)))
  have hfl : Cmd.flush ∉ exCmds := by decide
  have hsc : Cmd.scroll ∉ exCmds := by decide
  have hk : (findTeam exNameOrder.teamList "a").isSome = true := by decide
  have hs : exNameOrder.started = true := by decide
  have h := (queryRanking_before_first_flush exCmds exNameOrder "a" hrun hfl hsc hk).2.2.2.1 hs
  ⟨hrun, hfl, hsc, hk, hs, h.1, h.2, by decide⟩

/-! ## Failure paths and the pending-queue invariant -/

/-- C11: an operation whose precondition fails returns the state it was given
together with its error line: `addTeam` once the contest has started or for a
registered name, `start` once started, `freeze` when frozen, `scroll` when not
frozen; `queryRanking` and `querySubmission` for an unregistered name write
only their error line (they have no state result: on that path the code only
calls `teams.find`). -/
theorem failed_operation_frame (s : State) :
    (∀ name : String, s.started = true →
      addTeam s name = (s, ["[Error]Add failed: competition has started."])) ∧
    (∀ name : String, s.started = false → (findTeam s.teamList name).isSome = true →
      addTeam s name = (s, ["[Error]Add failed: duplicated team name."])) ∧
    (∀ duration problems : Int, s.started = true →
      start s duration problems = (s, ["[Error]Start failed: competition has started."])) ∧
    (s.frozen = true →
      freeze s = (s, ["[Error]Freeze failed: scoreboard has been frozen."])) ∧
    (∀ fuel : Nat, s.frozen = false →
      scroll fuel s = some (s, ["[Error]Scroll failed: scoreboard has not been frozen."])) ∧
    (∀ teamName : String, findTeam s.teamList teamName = none →
      queryRanking s teamName = ["[Error]Query ranking failed: cannot find the team."]) ∧
    (∀ teamName problem status : String, findTeam s.teamList teamName = none →
      querySubmission s teamName problem status =
        ["[Error]Query submission failed: cannot find the team."]) := by
  refine ⟨?_, ?_, ?_, ?_, ?_, ?_, ?_⟩
  · intro name hs
    simp [addTeam, hs]
  · intro name hs hk
    simp [addTeam, hs, hk]
  · intro d p hs
    simp [start, hs]
  · intro hf
    simp [freeze, hf]
  · intro fuel hf
    exact scroll_of_not_frozen fuel s hf
  · intro n hn
    simp [queryRanking, hn]
  · intro n p st hn
    simp [querySubmission, hn]

/-- C11 (witness): in the started, frozen state `exFrozen` a second `start`,
an `addTeam` and a second `freeze` fail and return `exFrozen`; in the state
`exSolved`, which is not frozen, `scroll` fails and returns `exSolved`. -/
theorem failed_operation_frame_witness :
    exFrozen.started = true ∧ exFrozen.frozen = true ∧ exSolved.frozen = false ∧
    addTeam exFrozen "gamma" = (exFrozen, ["[Error]Add failed: competition has started."]) ∧
    start exFrozen 10 2 = (exFrozen, ["[Error]Start failed: competition has started."]) ∧
    freeze exFrozen = (exFrozen, ["[Error]Freeze failed: scoreboard has been frozen."]) ∧
    scroll 5 exSolved =
      some (exSolved, ["[Error]Scroll failed: scoreboard has not been frozen."]) ∧
    queryRanking exFrozen "gamma" = ["[Error]Query ranking failed: cannot find the team."] :=
  have hs : exFrozen.started = true := by decide
  have hf : exFrozen.frozen = true := by decide
  have hn : exSolved.frozen = false := by decide
  ⟨hs, hf, hn, (failed_operation_frame exFrozen).1 "gamma" hs,
    (failed_operation_frame exFrozen).2.2.1 10 2 hs,
    (failed_operation_frame exFrozen).2.2.2.1 hf,
    (failed_operation_frame exSolved).2.2.2.2.1 5 hn,
    (failed_operation_frame exFrozen).2.2.2.2.2.1 "gamma" (by decide)⟩

/-- C15: in every reachable state, a pending queue of a team and problem is
non-empty (stored submissions or count) only if the engine is frozen and the
problem is unsolved; when the engine is not frozen or the problem is solved,
the pending count is 0 and no pending submission is stored. The count always
equals the number of stored pending submissions. -/
theorem pending_only_frozen_unsolved (s : State) (t : Team) (p : String)
    (hr : Reachable s) (ht : t ∈ s.teamList) :
    (t.status p).frozenSubmissions = (t.status p).frozenSubs.length ∧
    ((t.status p).frozenSubs ≠ [] ∨ (t.status p).frozenSubmissions ≠ 0 →
      s.frozen = true ∧ (t.status p).solved = false) ∧
    (s.frozen = false ∨ (t.status p).solved = true →
      (t.status p).frozenSubmissions = 0 ∧ (t.status p).frozenSubs = []) := by
  have hi := (inv_reachable hr).teams t ht
  have hcount := hi.count p
  have key : s.frozen = false ∨ (t.status p).solved = true →
      (t.status p).frozenSubmissions = 0 ∧ (t.status p).frozenSubs = [] := by
    intro h
    have hq : (t.status p).frozenSubs = [] := by
      rcases h with h | h
      · exact hi.thawed h p
      · exact hi.unsolved p h
    exact ⟨by rw [hcount, hq]; rfl, hq⟩
  refine ⟨hcount, ?_, key⟩
  intro hne
  by_contra hcon
  have : s.frozen = false ∨ (t.status p).solved = true := by
    by_cases hf : s.frozen = true
    · right
      by_contra hs
      exact hcon ⟨hf, by simpa using hs⟩
    · left; simpa using hf
  obtain ⟨h0, hq⟩ := key this
  rcases hne with h | h
  · exact h hq
  · exact h h0

/-- C15 (witness): in the reachable frozen state `exPending` the queue of
"beta" on problem "B" holds two submissions and "B" is unsolved. -/
theorem pending_only_frozen_unsolved_witness :
    Reachable exPending ∧ exTeamBetaPending ∈ exPending.teamList ∧
    (exTeamBetaPending.status "B").frozenSubmissions = 2 ∧
    (exTeamBetaPending.status "B").frozenSubs ≠ [] ∧
    exPending.frozen = true ∧ (exTeamBetaPending.status "B").solved = false := by
  have hm : exTeamBetaPending ∈ exPending.teamList := by decide
  have hq : (exTeamBetaPending.status "B").frozenSubs ≠ [] := by decide
  have h := (pending_only_frozen_unsolved exPending exTeamBetaPending "B"
    reachable_exPending hm).2.1 (Or.inl hq)
  exact ⟨reachable_exPending, hm, by decide, hq, h.1, h.2⟩

/-! ## Freeze and target selection -/

theorem freezeStatus_unsolved (ps : ProblemStatus) (h : ps.solved = false) :
    freezeStatus ps = { ps with wrongBeforeFreeze := ps.wrongAttempts } := by
  simp [freezeStatus, h]

theorem freezeStatus_solved (ps : ProblemStatus) (h : ps.solved = true) :
    freezeStatus ps = ps := by
  simp [freezeStatus, h]

/-- C18: on a state that is not frozen, `freeze` sets the frozen flag and
replaces each team, in place, by a team with the same name, history,
`solvedCount`, `penaltyTime` and solve-time list, in which every unsolved
problem (attempted or not) has `wrongBeforeFreeze` equal to its
`wrongAttempts` and is otherwise unchanged, and every solved problem has its
status unchanged; the other fields of the engine are unchanged. -/
theorem freeze_snapshot (s : State) (hf : s.frozen = false) :
    (freeze s).2 = ["[Info]Freeze scoreboard."] ∧
    (freeze s).1.frozen = true ∧
    (freeze s).1.started = s.started ∧ (freeze s).1.flushed = s.flushed ∧
    (freeze s).1.problemNames = s.problemNames ∧
    (freeze s).1.durationTime = s.durationTime ∧
    (freeze s).1.problemCount = s.problemCount ∧
    (freeze s).1.teamList.length = s.teamList.length ∧
    (freeze s).1.teamList.map Team.name = s.teamList.map Team.name ∧
    ∀ (i : Nat) (t : Team), s.teamList[i]? = some t →
      ∃ t1, (freeze s).1.teamList[i]? = some t1 ∧
        t1.name = t.name ∧ t1.submissions = t.submissions ∧
        t1.solvedCount = t.solvedCount ∧ t1.penaltyTime = t.penaltyTime ∧
        t1.solveTimes = t.solveTimes ∧
        ∀ p : String,
          ((t.status p).solved = false →
            t1.status p = { t.status p with wrongBeforeFreeze := (t.status p).wrongAttempts } ∧
            (t1.status p).wrongBeforeFreeze = (t1.status p).wrongAttempts) ∧
          ((t.status p).solved = true → t1.status p = t.status p) ∧
          (t1.status p).wrongAttempts = (t.status p).wrongAttempts ∧
          (t1.status p).solved = (t.status p).solved ∧
          (t1.status p).solveTime = (t.status p).solveTime ∧
          (t1.status p).frozenSubmissions = (t.status p).frozenSubmissions ∧
          (t1.status p).frozenSubs = (t.status p).frozenSubs := by
  have e : freeze s =
      ({ s with
         frozen := true
         teamList := s.teamList.map (fun t => { t with problems := freezeProblems t.problems }) },
       ["[Info]Freeze scoreboard."]) := by
    unfold freeze
    rw [if_neg (by simp [hf])]
  rw [e]
  refine ⟨rfl, rfl, rfl, rfl, rfl, rfl, rfl, by simp, by simp [List.map_map, Function.comp_def],
    ?_⟩
  intro i t ht
  refine ⟨{ t with problems := freezeProblems t.problems }, by simp [ht], rfl, rfl, rfl, rfl,
    rfl, ?_⟩
  intro p
  have hst : Team.status { t with problems := freezeProblems t.problems } p
      = freezeStatus (t.status p) := getP_freezeProblems t.problems p
  rw [hst]
  refine ⟨?_, ?_, ?_, (freezeStatus_pending _).2.2, ?_, (freezeStatus_pending _).2.1,
    (freezeStatus_pending _).1⟩
  · intro hu
    rw [freezeStatus_unsolved _ hu]
    exact ⟨rfl, rfl⟩
  · intro hs
    exact freezeStatus_solved _ hs
  · by_cases hs : (t.status p).solved = true
    · rw [freezeStatus_solved _ hs]
    · rw [freezeStatus_unsolved _ (by simpa using hs)]
  · by_cases hs : (t.status p).solved = true
    · rw [freezeStatus_solved _ hs]
    · rw [freezeStatus_unsolved _ (by simpa using hs)]

/-- C18 (witness): freezing `exTwoRejected`, where "alpha" has two wrong
attempts on the unsolved problem "A", records `wrongBeforeFreeze = 2` for it
and 0 for the problem "B" it never attempted. -/
theorem freeze_snapshot_witness :
    exTwoRejected.frozen = false ∧
    exTwoRejected.teamList[0]? = some exTeamTwoRejected ∧
    (exTeamTwoRejected.status "A").solved = false ∧
    ∃ t1, (freeze exTwoRejected).1.teamList[0]? = some t1 ∧
      (t1.status "A").wrongBeforeFreeze = 2 ∧ (t1.status "A").wrongAttempts = 2 ∧
      (t1.status "B").wrongBeforeFreeze = 0 ∧ (t1.status "B").wrongAttempts = 0 := by
  have hf : exTwoRejected.frozen = false := by decide
  have h0 : exTwoRejected.teamList[0]? = some exTeamTwoRejected := by decide
  have hu : (exTeamTwoRejected.status "A").solved = false := by decide
  obtain ⟨t1, e1, -, -, -, -, -, hp⟩ :=
    (freeze_snapshot exTwoRejected hf).2.2.2.2.2.2.2.2.2 0 exTeamTwoRejected h0
  have hA := (hp "A").1 hu
  have hB := (hp "B").1 (by decide)
  refine ⟨hf, h0, hu, t1, e1, ?_, ?_, ?_, ?_⟩
  · rw [hA.1]; decide
  · rw [(hp "A").2.2.1]; decide
  · rw [hB.1]; decide
  · rw [(hp "B").2.2.1]; decide

theorem firstPending_first {t : Team} {names : List String} {p : String}
    (h : firstPending t names = some p) :
    ∃ k : Nat, names[k]? = some p ∧ (t.status p).frozenSubmissions > 0 ∧
      ∀ (j : Nat) (q : String), j < k → names[j]? = some q →
        ¬ (t.status q).frozenSubmissions > 0 := by
  unfold firstPending at h
  induction names with
  | nil => simp at h
  | cons a names ih =>
    by_cases ha : (t.status a).frozenSubmissions > 0
    · have : a = p := by simpa [List.find?, ha] using h
      subst this
      exact ⟨0, by simp, ha, fun j q hj => absurd hj (Nat.not_lt_zero _)⟩
    · have h2 : List.find? (fun p => decide ((t.status p).frozenSubmissions > 0)) names = some p := by
        simpa [List.find?, ha] using h
      obtain ⟨k, hk, hpos, hfirst⟩ := ih h2
      refine ⟨k + 1, by simpa using hk, hpos, ?_⟩
      intro j q hj hq
      cases j with
      | zero =>
        simp only [List.getElem?_cons_zero, Option.some.injEq] at hq
        subst hq
        exact ha
      | succ j => exact hfirst j q (by omega) (by simpa using hq)

theorem firstPending_of_first {t : Team} {names : List String} {p : String} (k : Nat)
    (hk : names[k]? = some p) (hpos : (t.status p).frozenSubmissions > 0)
    (hfirst : ∀ (j : Nat) (q : String), j < k → names[j]? = some q →
      ¬ (t.status q).frozenSubmissions > 0) :
    firstPending t names = some p := by
  unfold firstPending
  induction names generalizing k with
  | nil => simp at hk
  | cons a names ih =>
    cases k with
    | zero =>
      simp only [List.getElem?_cons_zero, Option.some.injEq] at hk
      subst hk
      simp [List.find?, hpos]
    | succ k =>
      have ha : ¬ (t.status a).frozenSubmissions > 0 := hfirst 0 a (Nat.succ_pos _) (by simp)
      have := ih k (by simpa using hk)
        (fun j q hj hq => hfirst (j + 1) q (by omega) (by simpa using hq))
      simpa [List.find?, ha] using this

theorem firstPending_eq_none {t : Team} {names : List String}
    (h : ∀ p ∈ names, ¬ (t.status p).frozenSubmissions > 0) : firstPending t names = none := by
  unfold firstPending
  rw [List.find?_eq_none]
  intro p hp
  simpa using h p hp

theorem findTargetFrom_of_last (l : List Team) (names : List String) (n i : Nat) (p : String)
    (t : Team) (hi : i < n) (ht : l[i]? = some t) (hp : firstPending t names = some p)
    (hlast : ∀ (j : Nat) (u : Team), i < j → j < n → l[j]? = some u →
      firstPending u names = none) :
    findTargetFrom l names n = some (i, p) := by
  induction n with
  | zero => omega
  | succ n ih =>
    unfold findTargetFrom
    rcases Nat.lt_succ_iff_lt_or_eq.1 hi with hlt | heq
    · have hrec := ih hlt (fun j u hij hjn hu => hlast j u hij (Nat.lt_succ_of_lt hjn) hu)
      cases hl : l[n]? with
      | none => simpa using hrec
      | some u =>
        have := hlast n u hlt (Nat.lt_succ_self _) hl
        simp only [this]
        exact hrec
    · subst heq
      simp [ht, hp]

theorem findTargetFrom_eq_none (l : List Team) (names : List String) (n : Nat)
    (h : ∀ (j : Nat) (u : Team), j < n → l[j]? = some u → firstPending u names = none) :
    findTargetFrom l names n = none := by
  induction n with
  | zero => rfl
  | succ n ih =>
    unfold findTargetFrom
    have hrec := ih (fun j u hj hu => h j u (Nat.lt_succ_of_lt hj) hu)
    cases hl : l[n]? with
    | none => simpa using hrec
    | some u =>
      have := h n u (Nat.lt_succ_self _) hl
      simp only [this]
      exact hrec



/-- C17: the target of a reveal iteration. `findTarget` returns nothing exactly
when no team has a contest problem with a positive pending count, and then the
loop stops; it returns `(i, p)` exactly when the team at index `i` has a
pending contest problem, `p` is the first such problem in contest order, and
no team of greater index has a pending contest problem, and then the loop
resolves that target and goes on. In a reachable state the pending count is
positive exactly when the stored queue is non-empty. -/
theorem findTarget_selection (s : State) :
    (findTarget s = none ↔
      ∀ t ∈ s.teamList, ∀ p ∈ s.problemNames, ¬ (t.status p).frozenSubmissions > 0) ∧
    (∀ (i : Nat) (p : String), findTarget s = some (i, p) ↔
      ∃ (t : Team) (k : Nat), s.teamList[i]? = some t ∧ s.problemNames[k]? = some p ∧
        (t.status p).frozenSubmissions > 0 ∧
        (∀ (j : Nat) (q : String), j < k → s.problemNames[j]? = some q →
          ¬ (t.status q).frozenSubmissions > 0) ∧
        (∀ (j : Nat) (u : Team), i < j → s.teamList[j]? = some u →
          ∀ q ∈ s.problemNames, ¬ (u.status q).frozenSubmissions > 0)) ∧
    (∀ fuel : Nat, findTarget s = none → scrollLoop (fuel + 1) s = some (s, [])) ∧
    (∀ (fuel i : Nat) (p : String), findTarget s = some (i, p) →
      scrollLoop (fuel + 1) s =
        (scrollStep s i p).bind (fun r1 =>
          (scrollLoop fuel r1.1).bind (fun r2 => some (r2.1, r1.2 ++ r2.2)))) ∧
    (Reachable s → ∀ t ∈ s.teamList, ∀ p : String,
      ((t.status p).frozenSubmissions > 0 ↔ (t.status p).frozenSubs ≠ [])) := by
  refine ⟨⟨findTarget_none, ?_⟩, ?_, ?_, ?_, ?_⟩
  · intro h
    apply findTargetFrom_eq_none
    intro j u _ hu
    exact firstPending_eq_none (h u (List.getElem?_mem hu))
  · intro i p
    constructor
    · intro h
      obtain ⟨-, t, ht, hfp, hlast⟩ := findTargetFrom_some _ _ _ _ _ h
      obtain ⟨k, hk, hpos, hfirst⟩ := firstPending_first hfp
      refine ⟨t, k, ht, hk, hpos, hfirst, ?_⟩
      intro j u hij hu
      exact firstPending_none (hlast j u hij (List.getElem?_eq_some.1 hu).1 hu)
    · rintro ⟨t, k, ht, hk, hpos, hfirst, hlast⟩
      exact findTargetFrom_of_last _ _ _ i p t (List.getElem?_eq_some.1 ht).1 ht
        (firstPending_of_first k hk hpos hfirst)
        (fun j u hij _ hu => firstPending_eq_none (hlast j u hij hu))
  · intro fuel h
    simp [scrollLoop, h]
  · intro fuel i p h
    cases hst : scrollStep s i p with
    | none => simp [scrollLoop, h, hst]
    | some r1 =>
      obtain ⟨s1, out1⟩ := r1
      cases hl : scrollLoop fuel s1 with
      | none => simp [scrollLoop, h, hst, hl]
      | some r2 => simp [scrollLoop, h, hst, hl]
  · intro hr t ht p
    have hc := ((inv_reachable hr).teams t ht).count p
    rw [hc]
    constructor
    · intro h hq
      rw [hq] at h
      simp at h
    · intro h
      have : 0 < (t.status p).frozenSubs.length := List.length_pos.2 h
      exact_mod_cast this

/-- C17 (witness): in `exPending` the team of greatest index with a pending
contest problem is "beta" at index 1, and its first pending problem is "B". -/
theorem findTarget_selection_witness :
    findTarget exPending = some (1, "B") ∧
    ∃ (t : Team) (k : Nat), exPending.teamList[1]? = some t ∧
      exPending.problemNames[k]? = some "B" ∧ (t.status "B").frozenSubmissions > 0 := by
  have h : findTarget exPending = some (1, "B") := by decide
  obtain ⟨t, k, h1, h2, h3, -, -⟩ := ((findTarget_selection exPending).2.1 1 "B").1 h
  exact ⟨h, t, k, h1, h2, h3⟩

/-! ## A reveal of a solved problem -/

/-- The resolution of a problem that was already solved: the queue is cleared,
and `wrongAttempts` is overwritten with `wrongBeforeFreeze` (line 225 runs
because `problemSolved` is still false). -/
theorem resolve_was_solved (t : Team) (p : String) (hs : (t.status p).solved = true) :
    resolve t p =
      { t with
        problems := setP t.problems p
          { t.status p with
            wrongAttempts := (t.status p).wrongBeforeFreeze
            frozenSubmissions := 0
            frozenSubs := [] } } := by
  unfold Team.status at hs ⊢
  unfold resolve
  simp [hs, getP_setP_same, setP_setP]

/-- C16 (the code at the failing input): in `exDefensive` the reveal loop
targets problem "A" of the team at index 0, which is already solved with 3
wrong attempts; the step clears the queue and leaves the solved flag, the
solve time, `solvedCount`, `penaltyTime` and the solve-time list alone, but
sets `wrongAttempts` to `wrongBeforeFreeze`, here 0. -/
theorem scrollStep_solved_target_overwrites :
    findTarget exDefensive = some (0, "A") ∧
    exDefensive.teamList[0]? = some exTeamSolvedPending ∧
    (exTeamSolvedPending.status "A").solved = true ∧
    (exTeamSolvedPending.status "A").wrongAttempts = 3 ∧
    (exTeamSolvedPending.status "A").wrongBeforeFreeze = 0 ∧
    scrollStep exDefensive 0 "A" =
      some ({ exDefensive with teamList := [resolve exTeamSolvedPending "A"] }, []) ∧
    ((resolve exTeamSolvedPending "A").status "A").wrongAttempts = 0 ∧
    ((resolve exTeamSolvedPending "A").status "A").solved = true ∧
    ((resolve exTeamSolvedPending "A").status "A").solveTime = 40 ∧
    ((resolve exTeamSolvedPending "A").status "A").frozenSubmissions = 0 ∧
    ((resolve exTeamSolvedPending "A").status "A").frozenSubs = [] ∧
    (resolve exTeamSolvedPending "A").solvedCount = 1 ∧
    (resolve exTeamSolvedPending "A").penaltyTime = 100 ∧
    (resolve exTeamSolvedPending "A").solveTimes = [40] := by
  decide

/-! ## The comparator and the ranking rule -/

theorem firstDiff_eq_none_iff (x y : List Int) :
    firstDiff x y = none ↔
      ∀ (i : Nat) (a b : Int), x[i]? = some a → y[i]? = some b → a = b := by
  induction x generalizing y with
  | nil => simp [firstDiff]
  | cons u x ih =>
    cases y with
    | nil => simp [firstDiff]
    | cons v y =>
      simp only [firstDiff]
      by_cases huv : u = v
      · subst huv
        simp only [ne_eq, not_true_eq_false, if_false, ih]
        constructor
        · intro h i a b ha hb
          cases i with
          | zero =>
            simp only [List.getElem?_cons_zero, Option.some.injEq] at ha hb
            rw [← ha, ← hb]
          | succ i => exact h i a b (by simpa using ha) (by simpa using hb)
        · intro h i a b ha hb
          exact h (i + 1) a b (by simpa using ha) (by simpa using hb)
      · simp only [ne_eq, huv, not_false_eq_true, if_true]
        constructor
        · intro h; cases h
        · intro h
          exact absurd (h 0 u v (by simp) (by simp)) huv

theorem firstDiff_eq_some_iff (x y : List Int) (r : Bool) :
    firstDiff x y = some r ↔
      ∃ (i : Nat) (a b : Int), x[i]? = some a ∧ y[i]? = some b ∧ a ≠ b ∧
        r = decide (a < b) ∧ ∀ j : Nat, j < i → x[j]? = y[j]? := by
  induction x generalizing y with
  | nil => simp [firstDiff]
  | cons u x ih =>
    cases y with
    | nil => simp [firstDiff]
    | cons v y =>
      simp only [firstDiff]
      by_cases huv : u = v
      · subst huv
        simp only [ne_eq, not_true_eq_false, if_false, ih]
        constructor
        · rintro ⟨i, a, b, ha, hb, hab, hr, hj⟩
          refine ⟨i + 1, a, b, by simpa using ha, by simpa using hb, hab, hr, ?_⟩
          intro j hji
          cases j with
          | zero => simp
          | succ j => simpa using hj j (by omega)
        · rintro ⟨i, a, b, ha, hb, hab, hr, hj⟩
          cases i with
          | zero =>
            simp only [List.getElem?_cons_zero, Option.some.injEq] at ha hb
            exact absurd (ha.symm.trans hb) hab
          | succ i =>
            refine ⟨i, a, b, by simpa using ha, by simpa using hb, hab, hr, ?_⟩
            intro j hji
            simpa using hj (j + 1) (by omega)
      · simp only [ne_eq, huv, not_false_eq_true, if_true, Option.some.injEq]
        constructor
        · intro h
          exact ⟨0, u, v, by simp, by simp, huv, h.symm, fun j hj => absurd hj (Nat.not_lt_zero _)⟩
        · rintro ⟨i, a, b, ha, hb, hab, hr, hj⟩
          cases i with
          | zero =>
            simp only [List.getElem?_cons_zero, Option.some.injEq] at ha hb
            rw [hr, ha, hb]
          | succ i =>
            have := hj 0 (Nat.succ_pos _)
            simp only [List.getElem?_cons_zero, Option.some.injEq] at this
            exact absurd this huv

theorem sortDesc_perm (l : List Int) : (sortDesc l).Perm l := List.perm_insertionSort _ l

theorem sortDesc_eq_of_perm {l1 l2 : List Int} (h : l1.Perm l2) : sortDesc l1 = sortDesc l2 := by
  haveI : IsAntisymm Int (fun a b => b ≤ a) := ⟨fun _ _ hab hba => le_antisymm hba hab⟩
  exact List.eq_of_perm_of_sorted (((sortDesc_perm l1).trans h).trans (sortDesc_perm l2).symm)
    (sortDesc_sorted l1) (sortDesc_sorted l2)

theorem strLt_iff_lt (a b : String) : strLt a b = true ↔ a < b := by
  simp [strLt, String.lt_iff_toList_lt]

theorem compareTeams_iff_ranksBefore (a b : Team) :
    compareTeams a b = true ↔ RanksBefore a b := by
  unfold compareTeams RanksBefore
  rw [normalizeTimes_eq, normalizeTimes_eq]
  by_cases hs : a.solvedCount = b.solvedCount
  · by_cases hp : a.penaltyTime = b.penaltyTime
    · simp only [hs, hp, ne_eq, not_true_eq_false, if_false, gt_iff_lt, lt_self_iff_false,
        true_and, false_or, and_false]
      cases hd : firstDiff (sortDesc a.solveTimes) (sortDesc b.solveTimes) with
      | none =>
        have hn := (firstDiff_eq_none_iff _ _).1 hd
        simp only [strLt_iff_lt]
        constructor
        · intro h; exact Or.inr ⟨hn, h⟩
        · rintro (⟨i, x, y, hx, hy, hxy, -⟩ | ⟨-, h⟩)
          · exact absurd (hn i x y hx hy) (ne_of_lt hxy)
          · exact h
      | some r =>
        obtain ⟨i, x, y, hx, hy, hxy, hr, hj⟩ := (firstDiff_eq_some_iff _ _ r).1 hd
        simp only
        constructor
        · intro h
          subst h
          exact Or.inl ⟨i, x, y, hx, hy, by simpa using hr.symm, hj⟩
        · rintro (⟨i2, x2, y2, hx2, hy2, hxy2, hj2⟩ | ⟨hall, -⟩)
          · rcases Nat.lt_trichotomy i i2 with hlt | heq | hgt
            · have := hj2 i hlt
              rw [hx, hy] at this
              exact absurd (Option.some.inj this) hxy
            · subst heq
              rw [hx] at hx2; rw [hy] at hy2
              cases hx2; cases hy2
              rw [hr]; simpa using hxy2
            · have := hj i2 hgt
              rw [hx2, hy2] at this
              exact absurd (Option.some.inj this) (ne_of_lt hxy2)
          · exact absurd (hall i x y hx hy) hxy
    · simp only [hs, hp, ne_eq, not_true_eq_false, not_false_eq_true, if_false, if_true,
        decide_eq_true_eq, gt_iff_lt, lt_self_iff_false, true_and, false_and, or_false,
        false_or]
  · simp only [hs, ne_eq, not_false_eq_true, if_true, decide_eq_true_eq, gt_iff_lt, false_and,
      or_false]



/-- The verdict of the comparator depends on a team only through its name,
`solvedCount`, `penaltyTime` and the descending sort of its solve times. -/
theorem compareTeams_congr {a b a2 b2 : Team}
    (han : a2.name = a.name) (has : a2.solvedCount = a.solvedCount)
    (hap : a2.penaltyTime = a.penaltyTime) (hat : sortDesc a2.solveTimes = sortDesc a.solveTimes)
    (hbn : b2.name = b.name) (hbs : b2.solvedCount = b.solvedCount)
    (hbp : b2.penaltyTime = b.penaltyTime) (hbt : sortDesc b2.solveTimes = sortDesc b.solveTimes) :
    compareTeams a2 b2 = compareTeams a b := by
  unfold compareTeams
  simp only [normalizeTimes_eq, han, has, hap, hat, hbn, hbs, hbp, hbt]

/-- C12: `compareTeams a b` holds exactly when the ranking rule `RanksBefore`
puts `a` before `b`: more problems solved; or as many and less penalty; or
both equal and, at the first position where the descending solve-time lists
differ within the shorter one, `a` has the smaller value; or no such position
and `a` has the lexicographically smaller name. The list `sortDesc l` used by
the rule is `l` rearranged in non-increasing order, and the verdict is the
same for any rearrangement of the two solve-time lists. -/
theorem compareTeams_refines_rule (a b : Team) :
    (compareTeams a b = true ↔ RanksBefore a b) ∧
    ((sortDesc a.solveTimes).Perm a.solveTimes ∧
      (sortDesc a.solveTimes).Pairwise (fun x y => y ≤ x)) ∧
    (∀ l1 l2 : List Int, l1.Perm a.solveTimes → l2.Perm b.solveTimes →
      compareTeams { a with solveTimes := l1 } { b with solveTimes := l2 } = compareTeams a b) ∧
    (∀ a2 b2 : Team,
      a2.name = a.name → a2.solvedCount = a.solvedCount → a2.penaltyTime = a.penaltyTime →
      sortDesc a2.solveTimes = sortDesc a.solveTimes →
      b2.name = b.name → b2.solvedCount = b.solvedCount → b2.penaltyTime = b.penaltyTime →
      sortDesc b2.solveTimes = sortDesc b.solveTimes →
      compareTeams a2 b2 = compareTeams a b) := by
  refine ⟨compareTeams_iff_ranksBefore a b, ⟨sortDesc_perm _, sortDesc_sorted _⟩, ?_, ?_⟩
  · intro l1 l2 h1 h2
    exact compareTeams_congr rfl rfl rfl (sortDesc_eq_of_perm h1) rfl rfl rfl
      (sortDesc_eq_of_perm h2)
  · intro a2 b2 h1 h2 h3 h4 h5 h6 h7 h8
    exact compareTeams_congr h1 h2 h3 h4 h5 h6 h7 h8

/-- C12 (witness): `rankR` and `rankP` have one problem and penalty 30 each;
the solve times 10 and 30 differ at the first position, so `rankR` ranks
before `rankP` by the rule, and `compareTeams` agrees. -/
theorem compareTeams_refines_rule_witness :
    RanksBefore rankR rankP ∧ compareTeams rankR rankP = true :=
  have h : compareTeams rankR rankP = true := by decide
  ⟨(compareTeams_refines_rule rankR rankP).1.1 h, h⟩

/-! ## Termination of the reveal loop -/

theorem sumP_cons (f : ProblemStatus → Int) (e : String × ProblemStatus)
    (m : List (String × ProblemStatus)) : sumP f (e :: m) = f e.2 + sumP f m := by
  simp [sumP]

theorem sumP_setP (f : ProblemStatus → Int) (h0 : f {} = 0)
    (m : List (String × ProblemStatus)) (k : String) (v : ProblemStatus) :
    sumP f (setP m k v) = sumP f m - f (getP m k) + f v := by
  induction m with
  | nil => simp [setP, getP, sumP, h0]
  | cons e m ih =>
    obtain ⟨k', v'⟩ := e
    by_cases hk : k' = k
    · subst hk
      simp only [setP, getP, if_true, sumP_cons]
      ring
    · simp only [setP, getP, hk, if_false, sumP_cons, ih]
      ring

theorem sumP_nonneg (f : ProblemStatus → Int) (hf : ∀ ps, 0 ≤ f ps)
    (m : List (String × ProblemStatus)) : 0 ≤ sumP f m := by
  induction m with
  | nil => simp [sumP]
  | cons e m ih =>
    rw [sumP_cons]
    have := hf e.2
    omega

theorem resolve_problems (t : Team) (p : String) :
    ∃ v : ProblemStatus, (resolve t p).problems = setP t.problems p v ∧
      v.frozenSubmissions = 0 ∧ v.frozenSubs = [] := by
  unfold resolve
  simp only
  split
  · simp only [setP_setP, getP_setP_same]
    exact ⟨_, rfl, rfl, rfl⟩
  · simp only [setP_setP, getP_setP_same]
    exact ⟨_, rfl, rfl, rfl⟩

theorem sum_map_set_int (f : Team → Int) (l : List Team) (i : Nat) (a b : Team)
    (h : l[i]? = some a) : ((l.set i b).map f).sum = (l.map f).sum - f a + f b := by
  induction l generalizing i with
  | nil => simp at h
  | cons x l ih =>
    cases i with
    | zero =>
      simp only [List.getElem?_cons_zero, Option.some.injEq] at h
      subst h
      simp only [List.set_cons_zero, List.map_cons, List.sum_cons]
      ring
    | succ i =>
      have := ih i (by simpa using h)
      simp only [List.set_cons_succ, List.map_cons, List.sum_cons, this]
      ring

theorem pendingEntriesOf_nonneg (t : Team) : 0 ≤ pendingEntriesOf t :=
  sumP_nonneg _ (fun ps => by split <;> omega) _

theorem pendingEntries_nonneg (s : State) : 0 ≤ pendingEntries s := by
  unfold pendingEntries
  apply List.sum_nonneg
  intro x hx
  obtain ⟨t, -, rfl⟩ := List.mem_map.1 hx
  exact pendingEntriesOf_nonneg t

/-- One reveal iteration removes the target's pending count from the total
and one pair from the pairs with a positive pending count. -/
theorem pending_step (s : State) (i : Nat) (p : String) (t : Team)
    (ht : s.teamList[i]? = some t) (hpos : (t.status p).frozenSubmissions > 0) :
    totalPending { s with teamList := stdSort compareTeams (s.teamList.set i (resolve t p)) }
        = totalPending s - (t.status p).frozenSubmissions ∧
    pendingEntries { s with teamList := stdSort compareTeams (s.teamList.set i (resolve t p)) }
        = pendingEntries s - 1 := by
  obtain ⟨v, hv, hv0, -⟩ := resolve_problems t p
  have hperm := stdSort_perm compareTeams (s.teamList.set i (resolve t p))
  constructor
  · unfold totalPending
    simp only
    rw [(hperm.map _).sum_eq, sum_map_set_int _ _ _ _ _ ht, hv, sumP_setP _ rfl, hv0]
    unfold Team.status
    ring
  · unfold pendingEntries
    rw [(hperm.map _).sum_eq, sum_map_set_int _ _ _ _ _ ht]
    unfold pendingEntriesOf
    rw [hv, sumP_setP _ (by simp)]
    have : (getP t.problems p).frozenSubmissions > 0 := hpos
    simp only [this, hv0, if_true]
    simp

theorem scrollIterations_bound (n : Nat) (s : State) (h : pendingEntries s < n) :
    ∃ k : Nat, (k : Int) ≤ pendingEntries s ∧ scrollIterations n s = some k := by
  induction n generalizing s with
  | zero =>
    have := pendingEntries_nonneg s
    omega
  | succ n ih =>
    unfold scrollIterations
    cases hft : findTarget s with
    | none => exact ⟨0, by simpa using pendingEntries_nonneg s, rfl⟩
    | some tgt =>
      obtain ⟨i, p⟩ := tgt
      obtain ⟨t, ht, hp, hpos⟩ := findTarget_some hft
      obtain ⟨out, e⟩ := scrollStep_state s i p t ht
      have hstep := (pending_step s i p t ht hpos).2
      obtain ⟨k, hk, hit⟩ := ih { s with
        teamList := stdSort compareTeams (s.teamList.set i (resolve t p)) } (by omega)
      simp only [e, hit]
      exact ⟨k + 1, by push_cast; omega, rfl⟩

theorem scrollIterations_mono (n : Nat) (s : State) (k : Nat)
    (h : scrollIterations n s = some k) (m : Nat) (hm : n ≤ m) :
    scrollIterations m s = some k := by
  induction n generalizing s k m with
  | zero => simp [scrollIterations] at h
  | succ n ih =>
    cases m with
    | zero => omega
    | succ m =>
      unfold scrollIterations at h ⊢
      cases hft : findTarget s with
      | none => rw [hft] at h; exact h
      | some tgt =>
        obtain ⟨i, p⟩ := tgt
        rw [hft] at h
        simp only at h ⊢
        cases hst : scrollStep s i p with
        | none => rw [hst] at h; cases h
        | some r1 =>
          obtain ⟨s1, out1⟩ := r1
          rw [hst] at h
          simp only at h ⊢
          cases hl : scrollIterations n s1 with
          | none => rw [hl] at h; cases h
          | some k1 =>
            rw [hl] at h
            rw [ih s1 k1 hl m (by omega)]
            exact h

/-- A loop that makes `k` iterations returns with fuel `k + 1`. -/
theorem scrollLoop_of_iterations (n : Nat) (s : State) (k : Nat)
    (h : scrollIterations n s = some k) : ∃ r, scrollLoop (k + 1) s = some r := by
  induction n generalizing s k with
  | zero => simp [scrollIterations] at h
  | succ n ih =>
    unfold scrollIterations at h
    cases hft : findTarget s with
    | none =>
      rw [hft] at h
      simp only [Option.some.injEq] at h
      subst h
      exact ⟨(s, []), by simp [scrollLoop, hft]⟩
    | some tgt =>
      obtain ⟨i, p⟩ := tgt
      rw [hft] at h
      simp only at h
      cases hst : scrollStep s i p with
      | none => rw [hst] at h; cases h
      | some r1 =>
        obtain ⟨s1, out1⟩ := r1
        rw [hst] at h
        simp only at h
        cases hl : scrollIterations n s1 with
        | none => rw [hl] at h; cases h
        | some k1 =>
          rw [hl] at h
          simp only [Option.some.injEq] at h
          subst h
          obtain ⟨r, hr⟩ := ih s1 k1 hl
          refine ⟨(r.1, out1 ++ r.2), ?_⟩
          rw [scrollLoop, hft]
          simp only [hst, hr]



theorem getP_of_mem {m : List (String × ProblemStatus)} (hnd : (m.map Prod.fst).Nodup)
    {k : String} {v : ProblemStatus} (h : (k, v) ∈ m) : getP m k = v := by
  induction m with
  | nil => cases h
  | cons e m ih =>
    obtain ⟨k', v'⟩ := e
    simp only [List.map_cons, List.nodup_cons] at hnd
    rcases List.mem_cons.1 h with heq | hmem
    · cases heq
      simp [getP]
    · have hne : ¬ k' = k := by
        intro hk
        subst hk
        exact hnd.1 (List.mem_map.2 ⟨(k', v), hmem, rfl⟩)
      simp only [getP, hne, if_false]
      exact ih hnd.2 hmem

theorem sumP_congr {f g : ProblemStatus → Int} {m : List (String × ProblemStatus)}
    (h : ∀ e ∈ m, f e.2 = g e.2) : sumP f m = sumP g m := by
  unfold sumP
  congr 1
  exact List.map_congr_left h

theorem pending_eq_queued {s : State} (hi : Inv s) :
    totalPending s = totalQueued s ∧ pendingEntries s = queuedEntries s := by
  have key : ∀ t ∈ s.teamList, ∀ e ∈ t.problems,
      e.2.frozenSubmissions = (e.2.frozenSubs.length : Int) := by
    intro t ht e he
    have h1 := (hi.teams t ht).count e.1
    unfold Team.status at h1
    rw [getP_of_mem (hi.teams t ht).keys (show (e.1, e.2) ∈ t.problems from he)] at h1
    exact h1
  constructor
  · unfold totalPending totalQueued
    congr 1
    apply List.map_congr_left
    intro t ht
    exact sumP_congr (key t ht)
  · unfold pendingEntries queuedEntries pendingEntriesOf
    congr 1
    apply List.map_congr_left
    intro t ht
    apply sumP_congr
    intro e he
    rw [key t ht e he]
    by_cases hq : e.2.frozenSubs = []
    · simp [hq]
    · have : 0 < e.2.frozenSubs.length := List.length_pos.2 hq
      simp [hq, this]

theorem pendingEntries_sorted (s : State) :
    pendingEntries { s with teamList := stdSort compareTeams s.teamList } = pendingEntries s := by
  unfold pendingEntries
  exact ((stdSort_perm compareTeams s.teamList).map _).sum_eq

/-- A loop that makes `k` iterations is counted with fuel `k + 1`. -/
theorem scrollIterations_exact (n : Nat) (s : State) (k : Nat)
    (h : scrollIterations n s = some k) : scrollIterations (k + 1) s = some k := by
  induction n generalizing s k with
  | zero => simp [scrollIterations] at h
  | succ n ih =>
    unfold scrollIterations at h
    cases hft : findTarget s with
    | none =>
      rw [hft] at h
      simp only [Option.some.injEq] at h
      subst h
      simp [scrollIterations, hft]
    | some tgt =>
      obtain ⟨i, p⟩ := tgt
      rw [hft] at h
      simp only at h
      cases hst : scrollStep s i p with
      | none => rw [hst] at h; cases h
      | some r1 =>
        obtain ⟨s1, out1⟩ := r1
        rw [hst] at h
        simp only at h
        cases hl : scrollIterations n s1 with
        | none => rw [hl] at h; cases h
        | some k1 =>
          rw [hl] at h
          simp only [Option.some.injEq] at h
          subst h
          have := ih s1 k1 hl
          rw [scrollIterations, hft]
          simp only [hst, this]

/-- C13: every iteration of the reveal loop lowers the total of the pending
counts by the (positive) pending count of its target and the number of
(team, problem) pairs with a positive pending count by one; so the loop
started in any state `s` exits after a number `k` of iterations that is at
most the number of such pairs, the same for every fuel above `k`, and
`scroll` returns. In a reachable state the pending counts are the lengths of
the stored queues. -/
theorem reveal_loop_terminates (s : State) :
    (∀ (i : Nat) (p : String), findTarget s = some (i, p) →
      ∃ (t : Team) (s1 : State) (out : List String),
        s.teamList[i]? = some t ∧ scrollStep s i p = some (s1, out) ∧
        totalPending s1 = totalPending s - (t.status p).frozenSubmissions ∧
        totalPending s1 < totalPending s ∧
        pendingEntries s1 = pendingEntries s - 1) ∧
    (∃ (k : Nat) (r : State × List String), (k : Int) ≤ pendingEntries s ∧
      ∀ fuel : Nat, k < fuel → scrollIterations fuel s = some k ∧ scrollLoop fuel s = some r) ∧
    (∃ (k : Nat) (r : State × List String), (k : Int) ≤ pendingEntries s ∧
      scrollIterations (k + 1) { s with teamList := stdSort compareTeams s.teamList } = some k ∧
      ∀ fuel : Nat, k < fuel → scroll fuel s = some r) ∧
    (Reachable s → totalPending s = totalQueued s ∧ pendingEntries s = queuedEntries s) := by
  have loop : ∀ s : State, ∃ (k : Nat) (r : State × List String),
      (k : Int) ≤ pendingEntries s ∧
      ∀ fuel : Nat, k < fuel → scrollIterations fuel s = some k ∧ scrollLoop fuel s = some r := by
    intro s
    have hnn := pendingEntries_nonneg s
    obtain ⟨k, hk, hit⟩ := scrollIterations_bound ((pendingEntries s).toNat + 1) s (by omega)
    obtain ⟨r, hr⟩ := scrollLoop_of_iterations _ s k hit
    refine ⟨k, r, hk, ?_⟩
    intro fuel hfuel
    have h1 : scrollIterations (k + 1) s = some k := scrollIterations_exact _ s k hit
    exact ⟨scrollIterations_mono _ s k h1 fuel (by omega), scrollLoop_mono _ s r hr fuel (by omega)⟩
  refine ⟨?_, loop s, ?_, ?_⟩
  · intro i p hft
    obtain ⟨t, ht, -, hpos⟩ := findTarget_some hft
    obtain ⟨out, e⟩ := scrollStep_state s i p t ht
    obtain ⟨h1, h2⟩ := pending_step s i p t ht hpos
    exact ⟨t, _, out, ht, e, h1, by rw [h1]; omega, h2⟩
  · obtain ⟨k, r, hk, hall⟩ := loop { s with teamList := stdSort compareTeams s.teamList }
    rw [pendingEntries_sorted] at hk
    by_cases hf : s.frozen = true
    · obtain ⟨s1, out1⟩ := r
      refine ⟨k, ({ s1 with frozen := false },
        ["[Info]Scroll scoreboard."] ++
          printScoreboard { s with teamList := stdSort compareTeams s.teamList } ++ out1 ++
          printScoreboard s1), hk, (hall (k + 1) (Nat.lt_succ_self _)).1, ?_⟩
      intro fuel hfuel
      rw [scroll_of_frozen fuel s hf, (hall fuel hfuel).2]
    · refine ⟨k, (s, ["[Error]Scroll failed: scoreboard has not been frozen."]), hk,
        (hall (k + 1) (Nat.lt_succ_self _)).1, ?_⟩
      intro fuel _
      exact scroll_of_not_frozen fuel s (by simpa using hf)
  · intro hr
    exact pending_eq_queued (inv_reachable hr)



/-- C13 (witness): in the reachable state `exPending` one pair is pending with
two submissions; the loop makes one iteration, after which nothing is
pending. -/
theorem reveal_loop_terminates_witness :
    Reachable exPending ∧ findTarget exPending = some (1, "B") ∧
    pendingEntries exPending = 1 ∧ totalPending exPending = 2 ∧
    totalQueued exPending = 2 ∧ scrollIterations 2 exPending = some 1 ∧
    ∃ (t : Team) (s1 : State) (out : List String),
      exPending.teamList[1]? = some t ∧ scrollStep exPending 1 "B" = some (s1, out) ∧
      totalPending s1 < totalPending exPending ∧
      pendingEntries s1 = pendingEntries exPending - 1 := by
  have hft : findTarget exPending = some (1, "B") := by decide
  have h := reveal_loop_terminates exPending
  obtain ⟨t, s1, out, h1, h2, -, h4, h5⟩ := h.1 1 "B" hft
  have hq := (h.2.2.2 reachable_exPending).1
  have hp : totalPending exPending = 2 := by decide
  refine ⟨reachable_exPending, hft, by decide, hp, ?_, by decide, t, s1, out, h1, h2, h4, h5⟩
  rw [← hq, hp]

/-! ## Solve times and solved problems -/

theorem solvedEntries_setP_unsolved (m : List (String × ProblemStatus)) (k : String)
    (v : ProblemStatus) (h1 : (getP m k).solved = false) (h2 : v.solved = false) :
    solvedEntries (setP m k v) = solvedEntries m := by
  induction m with
  | nil => simp [setP, solvedEntries, h2]
  | cons e m ih =>
    obtain ⟨k', v'⟩ := e
    by_cases hk : k' = k
    · subst hk
      have hv : v'.solved = false := by simpa [getP] using h1
      simp [setP, solvedEntries, List.filter, h2, hv]
    · have h1' : (getP m k).solved = false := by simpa [getP, hk] using h1
      have := ih h1'
      unfold solvedEntries at this ⊢
      simp only [setP, hk, if_false, List.filter, this]

theorem solvedEntries_setP_solved (m : List (String × ProblemStatus)) (k : String)
    (v : ProblemStatus) (h1 : (getP m k).solved = false) (h2 : v.solved = true) :
    (solvedEntries (setP m k v)).Perm ((k, v) :: solvedEntries m) := by
  induction m with
  | nil => simp [setP, solvedEntries, h2]
  | cons e m ih =>
    obtain ⟨k', v'⟩ := e
    by_cases hk : k' = k
    · subst hk
      have hv : v'.solved = false := by simpa [getP] using h1
      simp [setP, solvedEntries, List.filter, h2, hv]
    · have h1' : (getP m k).solved = false := by simpa [getP, hk] using h1
      have := ih h1'
      unfold solvedEntries at this ⊢
      simp only [setP, hk, if_false, List.filter]
      by_cases hv : v'.solved = true
      · simp only [hv]
        exact (this.cons _).trans (List.Perm.swap _ _ _)
      · simp only [hv]
        exact this

theorem solvedEntries_freezeProblems (m : List (String × ProblemStatus)) :
    (solvedEntries (freezeProblems m)).length = (solvedEntries m).length ∧
      solvedTimes (freezeProblems m) = solvedTimes m := by
  induction m with
  | nil => exact ⟨rfl, rfl⟩
  | cons e m ih =>
    have hc : freezeProblems (e :: m) = (e.1, freezeStatus e.2) :: freezeProblems m := rfl
    rw [hc]
    unfold solvedTimes solvedEntries at ih ⊢
    by_cases hs : e.2.solved = true
    · simp [List.filter, hs, freezeStatus_solved _ hs, ih.1, ih.2]
    · have hu : e.2.solved = false := by simpa using hs
      simp [List.filter, hu, freezeStatus_unsolved _ hu, ih.1, ih.2]

/-- Writing an unsolved status over an unsolved problem keeps the solved
problems as they are. -/
theorem teamSolved_update_unsolved {t t1 : Team} (h : TeamSolved t) (p : String)
    (v : ProblemStatus) (hprob : t1.problems = setP t.problems p v)
    (hu : (t.status p).solved = false) (hv : v.solved = false)
    (hsc : t1.solvedCount = t.solvedCount) (hst : t1.solveTimes = t.solveTimes) :
    TeamSolved t1 := by
  have e := solvedEntries_setP_unsolved t.problems p v hu hv
  refine ⟨?_, ?_⟩
  · rw [hsc, hprob, e]; exact h.solvedCount_eq
  · unfold solvedTimes
    rw [hst, hprob, e]; exact h.times_perm

/-- Solving an unsolved problem at time `v.solveTime` adds one solved problem
and one solve time. -/
theorem teamSolved_update_solved {t t1 : Team} (h : TeamSolved t) (p : String)
    (v : ProblemStatus) (hprob : t1.problems = setP t.problems p v)
    (hu : (t.status p).solved = false) (hv : v.solved = true)
    (hsc : t1.solvedCount = t.solvedCount + 1)
    (hst : t1.solveTimes = t.solveTimes ++ [v.solveTime]) : TeamSolved t1 := by
  have e := solvedEntries_setP_solved t.problems p v hu hv
  refine ⟨?_, ?_⟩
  · rw [hsc, hprob, e.length_eq, h.solvedCount_eq]
    simp
  · unfold solvedTimes
    rw [hst, hprob]
    refine List.Perm.trans ?_ (e.map _).symm
    simp only [List.map_cons]
    exact (List.perm_append_singleton _ _).trans (h.times_perm.cons _)

theorem teamSolved_same {t t1 : Team} (h : TeamSolved t) (hprob : t1.problems = t.problems)
    (hsc : t1.solvedCount = t.solvedCount) (hst : t1.solveTimes = t.solveTimes) :
    TeamSolved t1 :=
  ⟨by rw [hsc, hprob]; exact h.solvedCount_eq, by rw [hst, hprob]; exact h.times_perm⟩

theorem teamSolved_addSubmission {t : Team} (h : TeamSolved t) (p st : String) (time : Int)
    (fr : Bool) : TeamSolved (t.addSubmission p st time fr) := by
  by_cases hs : (t.status p).solved = true
  · rw [addSubmission_solved t p st time fr hs]
    exact teamSolved_same h rfl rfl rfl
  · have hu : (t.status p).solved = false := by simpa using hs
    cases fr with
    | true =>
      rw [addSubmission_frozen t p st time hu]
      exact teamSolved_update_unsolved h p _ rfl hu hu rfl rfl
    | false =>
      by_cases hacc : st = "Accepted"
      · subst hacc
        rw [addSubmission_accepted t p time hu]
        exact teamSolved_update_solved h p _ rfl hu rfl rfl rfl
      · rw [addSubmission_rejected t p st time hu hacc]
        exact teamSolved_update_unsolved h p _ rfl hu hu rfl rfl

theorem teamSolved_resolve {t : Team} (h : TeamSolved t) (p : String)
    (hu : (t.status p).solved = false) : TeamSolved (resolve t p) := by
  have hu2 : (getP t.problems p).solved = false := hu
  have key : ∀ r : Int × Option Int, scanFrozen (t.status p).frozenSubs 0 = r →
      TeamSolved (resolve t p) := by
    intro r hr
    have hr2 : scanFrozen (getP t.problems p).frozenSubs 0 = r := hr
    obtain ⟨cnt, acc⟩ := r
    cases acc with
    | some time =>
      refine teamSolved_update_solved h p
        { t.status p with
          solved := true
          solveTime := time
          wrongAttempts := (t.status p).wrongBeforeFreeze + cnt
          frozenSubmissions := 0
          frozenSubs := [] } ?_ hu rfl ?_ ?_
      · unfold resolve Team.status
        simp [hu2, hr2, getP_setP_same, setP_setP]
      · unfold resolve
        simp [hu2, hr2]
      · unfold resolve
        simp [hu2, hr2]
    | none =>
      refine teamSolved_update_unsolved h p
        { t.status p with
          wrongAttempts := (t.status p).wrongBeforeFreeze + cnt
          frozenSubmissions := 0
          frozenSubs := [] } ?_ hu hu ?_ ?_
      · unfold resolve Team.status
        simp [hu2, hr2, getP_setP_same, setP_setP]
      · unfold resolve
        simp [hu2, hr2]
      · unfold resolve
        simp [hu2, hr2]
  exact key _ rfl

theorem teamSolved_freeze {t : Team} (h : TeamSolved t) :
    TeamSolved { t with problems := freezeProblems t.problems } := by
  refine ⟨?_, ?_⟩
  · simp only [(solvedEntries_freezeProblems t.problems).1]
    exact h.solvedCount_eq
  · simp only [(solvedEntries_freezeProblems t.problems).2]
    exact h.times_perm

/-- A pending target is unsolved under the team invariant. -/
theorem unsolved_of_pending {names : List String} {t : Team} (h : TeamInv names true t)
    (p : String) (hp : (t.status p).frozenSubmissions > 0) : (t.status p).solved = false := by
  by_contra hc
  have hs : (t.status p).solved = true := by simpa using hc
  have := h.count p
  rw [h.unsolved p hs] at this
  simp at this
  omega



theorem allSolved_scrollLoop (n : Nat) (s s2 : State) (out : List String)
    (h : scrollLoop n s = some (s2, out)) (hi : Inv s) (hf : s.frozen = true)
    (hs : ∀ t ∈ s.teamList, TeamSolved t) : ∀ t ∈ s2.teamList, TeamSolved t := by
  induction n generalizing s out with
  | zero => simp [scrollLoop] at h
  | succ n ih =>
    unfold scrollLoop at h
    cases hft : findTarget s with
    | none =>
      rw [hft] at h
      simp only [Option.some.injEq, Prod.mk.injEq] at h
      obtain ⟨rfl, -⟩ := h
      exact hs
    | some tgt =>
      obtain ⟨i, p⟩ := tgt
      rw [hft] at h
      simp only at h
      obtain ⟨t, ht, hp, hpos⟩ := findTarget_some hft
      obtain ⟨out1, e⟩ := scrollStep_state s i p t ht
      rw [e] at h
      simp only at h
      cases hl : scrollLoop n { s with
          teamList := stdSort compareTeams (s.teamList.set i (resolve t p)) } with
      | none => rw [hl] at h; cases h
      | some r2 =>
        obtain ⟨s3, out3⟩ := r2
        rw [hl] at h
        simp only [Option.some.injEq, Prod.mk.injEq] at h
        obtain ⟨rfl, -⟩ := h
        have htinv : TeamInv s.problemNames true t := by
          have := hi.teams t (List.getElem?_mem ht)
          rw [hf] at this
          exact this
        refine ih { s with teamList := stdSort compareTeams (s.teamList.set i (resolve t p)) }
          out3 hl (inv_reveal hi hf i p t ht hp hpos) hf ?_
        intro u hu
        have hu2 : u ∈ s.teamList.set i (resolve t p) :=
          (stdSort_perm compareTeams _).mem_iff.1 hu
        rcases List.mem_or_eq_of_mem_set hu2 with hu3 | rfl
        · exact hs u hu3
        · exact teamSolved_resolve (hs t (List.getElem?_mem ht)) p
            (unsolved_of_pending htinv p hpos)

theorem allSolved_exec {s s1 : State} {c : Cmd} (h : Exec s c s1) (hi : Inv s)
    (hs : ∀ t ∈ s.teamList, TeamSolved t) : ∀ t ∈ s1.teamList, TeamSolved t := by
  cases h
  case addTeam name =>
    unfold addTeam
    split
    · exact hs
    · split
      · exact hs
      · intro t ht
        rcases List.mem_append.1 ht with ht | ht
        · exact hs t ht
        · rw [List.mem_singleton.1 ht]
          exact ⟨rfl, List.Perm.refl _⟩
  case start duration problems =>
    unfold start
    split
    · exact hs
    · intro t ht
      exact hs t ((stdSort_perm _ s.teamList).mem_iff.1 ht)
  case submit problem teamName status time hst hp e =>
    unfold submit at e
    cases hf : findTeam s.teamList teamName with
    | none => rw [hf] at e; cases e
    | some t0 =>
      rw [hf] at e
      simp only [Option.some.injEq] at e
      subst e
      intro t ht
      rcases mem_updateTeam _ _ _ _ ht with ht | ⟨u, hu, rfl⟩
      · exact hs t ht
      · exact teamSolved_addSubmission (hs u hu) _ _ _ _
  case flush =>
    intro t ht
    exact hs t ((stdSort_perm compareTeams s.teamList).mem_iff.1 ht)
  case freeze =>
    unfold freeze
    split
    · exact hs
    · intro t ht
      obtain ⟨u, hu, rfl⟩ := List.mem_map.1 ht
      exact teamSolved_freeze (hs u hu)
  case scroll fuel out e =>
    by_cases hf : s.frozen = true
    · rw [scroll_of_frozen fuel s hf] at e
      cases hl : scrollLoop fuel { s with teamList := stdSort compareTeams s.teamList } with
      | none => rw [hl] at e; cases e
      | some r1 =>
        obtain ⟨s2, out2⟩ := r1
        rw [hl] at e
        simp only [Option.some.injEq, Prod.mk.injEq] at e
        obtain ⟨rfl, -⟩ := e
        have hi0 : Inv { s with teamList := stdSort compareTeams s.teamList } :=
          inv_of_perm hi (stdSort_perm compareTeams s.teamList) s.flushed
        exact allSolved_scrollLoop fuel _ s2 out2 hl hi0 hf
          (fun t ht => hs t ((stdSort_perm compareTeams s.teamList).mem_iff.1 ht))
    · rw [scroll_of_not_frozen fuel s (by simpa using hf)] at e
      simp only [Option.some.injEq, Prod.mk.injEq] at e
      obtain ⟨rfl, -⟩ := e
      exact hs

theorem allSolved_run {s s1 : State} {cs : List Cmd} (h : Run s cs s1) (hi : Inv s)
    (hs : ∀ t ∈ s.teamList, TeamSolved t) : ∀ t ∈ s1.teamList, TeamSolved t := by
  induction h with
  | nil => exact hs
  | cons he _ ih => exact ih (inv_exec he hi) (allSolved_exec he hi hs)

theorem allSolved_reachable {s : State} (h : Reachable s) :
    ∀ t ∈ s.teamList, TeamSolved t := by
  obtain ⟨cs, hr⟩ := h
  exact allSolved_run hr inv_init (fun t ht => by cases ht)

/-- C14: in every reachable state the solve-time list of each team is a
rearrangement of the solve times of the entries of its problem map that are
solved, its length is `solvedCount`, and `solvedCount` is the number of those
entries; the map has one entry per problem name. -/
theorem solveTimes_match_solved (s : State) (t : Team) (hr : Reachable s)
    (ht : t ∈ s.teamList) :
    t.solveTimes.Perm
      ((t.problems.filter (fun e => e.2.solved)).map (fun e => e.2.solveTime)) ∧
    (t.solveTimes.length : Int) = t.solvedCount ∧
    t.solvedCount = ((t.problems.filter (fun e => e.2.solved)).length : Int) ∧
    (t.problems.map Prod.fst).Nodup :=
  ⟨(allSolved_reachable hr t ht).times_perm, ((inv_reachable hr).teams t ht).times,
    (allSolved_reachable hr t ht).solvedCount_eq, ((inv_reachable hr).teams t ht).keys⟩

/-- C14 (witness): in the reachable state `exScrolled` team "beta" has one
solved problem, solved at minute 260, and its solve-time list is `[260]`. -/
theorem solveTimes_match_solved_witness :
    Reachable exScrolled ∧ exTeamBetaRevealed ∈ exScrolled.teamList ∧
    exTeamBetaRevealed.solveTimes = [260] ∧ exTeamBetaRevealed.solvedCount = 1 ∧
    exTeamBetaRevealed.solveTimes.Perm
      ((exTeamBetaRevealed.problems.filter (fun e => e.2.solved)).map
        (fun e => e.2.solveTime)) :=
  have hm : exTeamBetaRevealed ∈ exScrolled.teamList := by decide
  ⟨reachable_exScrolled, hm, by decide, by decide,
    (solveTimes_match_solved exScrolled exTeamBetaRevealed reachable_exScrolled hm).1⟩

/-! ## Sorting yields a ranked list -/

theorem pairwise_orderedInsert {α : Type} (r : α → α → Prop) [DecidableRel r] (a : α)
    (l : List α) (hl : l.Pairwise r) (htot : ∀ b ∈ l, ¬ r a b → r b a)
    (htr : ∀ b ∈ l, ∀ c ∈ l, r a b → r b c → r a c) :
    (l.orderedInsert r a).Pairwise r := by
  induction l with
  | nil => simp
  | cons b l ih =>
    rw [List.orderedInsert]
    have hbl := List.pairwise_cons.1 hl
    by_cases hab : r a b
    · rw [if_pos hab]
      refine List.pairwise_cons.2 ⟨?_, hl⟩
      intro c hc
      rcases List.mem_cons.1 hc with rfl | hc
      · exact hab
      · exact htr b (List.mem_cons_self _ _) c (List.mem_cons_of_mem _ hc) hab (hbl.1 c hc)
    · rw [if_neg hab]
      refine List.pairwise_cons.2 ⟨?_, ?_⟩
      · intro c hc
        rcases (List.mem_orderedInsert r).1 hc with rfl | hc
        · exact htot b (List.mem_cons_self _ _) hab
        · exact hbl.1 c hc
      · exact ih hbl.2 (fun c hc => htot c (List.mem_cons_of_mem _ hc))
          (fun c hc d hd => htr c (List.mem_cons_of_mem _ hc) d (List.mem_cons_of_mem _ hd))

theorem pairwise_insertionSort {α : Type} (r : α → α → Prop) [DecidableRel r] (l : List α)
    (htot : ∀ a ∈ l, ∀ b ∈ l, ¬ r a b → r b a)
    (htr : ∀ a ∈ l, ∀ b ∈ l, ∀ c ∈ l, r a b → r b c → r a c) :
    (l.insertionSort r).Pairwise r := by
  induction l with
  | nil => simp
  | cons a l ih =>
    rw [List.insertionSort]
    have hmem : ∀ x, x ∈ l.insertionSort r → x ∈ a :: l := fun x hx =>
      List.mem_cons_of_mem _ ((List.mem_insertionSort r).1 hx)
    apply pairwise_orderedInsert
    · exact ih (fun x hx y hy => htot x (List.mem_cons_of_mem _ hx) y (List.mem_cons_of_mem _ hy))
        (fun x hx y hy z hz => htr x (List.mem_cons_of_mem _ hx) y (List.mem_cons_of_mem _ hy)
          z (List.mem_cons_of_mem _ hz))
    · intro b hb
      exact htot a (List.mem_cons_self _ _) b (hmem b hb)
    · intro b hb c hc
      exact htr a (List.mem_cons_self _ _) b (hmem b hb) c (hmem c hc)

/-- Two teams of a list with pairwise distinct names are equal or have
different names. -/
theorem eq_or_name_ne {l : List Team} (hn : (l.map Team.name).Nodup) {a b : Team}
    (ha : a ∈ l) (hb : b ∈ l) : a = b ∨ a.name ≠ b.name := by
  by_cases h : a.name = b.name
  · exact Or.inl (List.inj_on_of_nodup_map hn ha hb h)
  · exact Or.inr h

theorem pairwise_name_ne {l : List Team} (hn : (l.map Team.name).Nodup) :
    l.Pairwise (fun a b => a.name ≠ b.name) := by
  rw [List.Nodup, List.pairwise_map] at hn
  exact hn

/-- Sorting consistent teams with distinct names ranks each team before all
the teams that follow it. -/
theorem stdSort_compareTeams_pairwise (l : List Team) (hc : ∀ t ∈ l, t.timesConsistent)
    (hn : (l.map Team.name).Nodup) :
    (stdSort compareTeams l).Pairwise (fun a b => compareTeams a b = true) := by
  have h1 : (stdSort compareTeams l).Pairwise (fun a b => compareTeams b a = false) := by
    unfold stdSort
    apply pairwise_insertionSort
    · intro a _ b _ hab
      have : compareTeams b a = true := by simpa using hab
      exact compareTeams_asymm this
    · intro a ha b hb c hcm hab hbc
      by_contra hca
      have hca' : compareTeams c a = true := by simpa using hca
      rcases eq_or_name_ne hn ha hb with rfl | hnab
      · rw [hca'] at hbc; cases hbc
      · rcases eq_or_name_ne hn hb hcm with rfl | hnbc
        · rw [hca'] at hab; cases hab
        · have h1 : compareTeams a b = true := by
            rcases compareTeams_total hnab with h | h
            · exact h
            · rw [h] at hab; cases hab
          have h2 : compareTeams b c = true := by
            rcases compareTeams_total hnbc with h | h
            · exact h
            · rw [h] at hbc; cases hbc
          have h3 := compareTeams_trans (hc a ha) (hc b hb) (hc c hcm) h1 h2
          rw [compareTeams_asymm h3] at hca'
          cases hca'
  have hn2 : ((stdSort compareTeams l).map Team.name).Nodup :=
    (((stdSort_perm compareTeams l).map Team.name).nodup_iff).2 hn
  refine (h1.and (pairwise_name_ne hn2)).imp ?_
  rintro a b ⟨hba, hne⟩
  rcases compareTeams_total hne with h | h
  · exact h
  · rw [h] at hba; cases hba

/-! ## Re-ranking after a reveal -/

theorem split_at_index {α : Type} (l : List α) (i : Nat) (t : α) (h : l[i]? = some t) :
    ∃ l1 l2, l = l1 ++ t :: l2 ∧ l1.length = i := by
  induction l generalizing i with
  | nil => simp at h
  | cons x l ih =>
    cases i with
    | zero =>
      simp only [List.getElem?_cons_zero, Option.some.injEq] at h
      subst h
      exact ⟨[], l, rfl, rfl⟩
    | succ i =>
      obtain ⟨l1, l2, e, hl⟩ := ih i (by simpa using h)
      exact ⟨x :: l1, l2, by rw [e]; rfl, by simp [hl]⟩

theorem set_at_split {α : Type} (l1 l2 : List α) (t u : α) :
    (l1 ++ t :: l2).set l1.length u = l1 ++ u :: l2 := by
  induction l1 with
  | nil => rfl
  | cons x l1 ih => simp [ih]

theorem eraseIdx_at_split {α : Type} (l1 l2 : List α) (t : α) :
    (l1 ++ t :: l2).eraseIdx l1.length = l1 ++ l2 := by
  induction l1 with
  | nil => rfl
  | cons x l1 ih => simp [ih]

theorem getElem?_at_split {α : Type} (l1 l2 : List α) (t : α) :
    (l1 ++ t :: l2)[l1.length]? = some t := by
  induction l1 with
  | nil => simp
  | cons x l1 ih => simpa using ih

/-- Re-ranking after the team `t` between `l1` and `l2` was replaced by a team
`t1` of the same name that ranks before every team `t` ranked before: `t1`
moves up inside `l1`, and nothing else moves. -/
theorem rerank_improved (l1 l2 : List Team) (t t1 : Team)
    (hp : (l1 ++ t :: l2).Pairwise (fun a b => compareTeams a b = true))
    (hc : ∀ x ∈ l1 ++ t :: l2, x.timesConsistent) (hc1 : t1.timesConsistent)
    (hn : ((l1 ++ t :: l2).map Team.name).Nodup) (hname : t1.name = t.name)
    (himp : ∀ y, compareTeams t y = true → compareTeams t1 y = true) :
    ∃ a b, l1 = a ++ b ∧ stdSort compareTeams (l1 ++ t1 :: l2) = a ++ t1 :: (b ++ l2) := by
  have hperm : (l1 ++ t1 :: l2).map Team.name = (l1 ++ t :: l2).map Team.name := by
    simp [hname]
  have hn1 : ((l1 ++ t1 :: l2).map Team.name).Nodup := by rw [hperm]; exact hn
  have hc1' : ∀ x ∈ l1 ++ t1 :: l2, x.timesConsistent := by
    intro x hx
    rcases List.mem_append.1 hx with hx | hx
    · exact hc x (List.mem_append_left _ hx)
    · rcases List.mem_cons.1 hx with rfl | hx
      · exact hc1
      · exact hc x (List.mem_append_right _ (List.mem_cons_of_mem _ hx))
  have hsorted := stdSort_compareTeams_pairwise (l1 ++ t1 :: l2) hc1' hn1
  have hp' := List.pairwise_append.1 hp
  have hp2 := List.pairwise_cons.1 hp'.2.1
  refine ⟨l1.takeWhile (fun x => compareTeams x t1), l1.dropWhile (fun x => compareTeams x t1),
    (List.takeWhile_append_dropWhile _ l1).symm, ?_⟩
  have hsplit := List.takeWhile_append_dropWhile (fun x => compareTeams x t1) l1
  have ha : ∀ x ∈ l1.takeWhile (fun x => compareTeams x t1), compareTeams x t1 = true :=
    fun x hx => @List.mem_takeWhile_imp _ (fun x => compareTeams x t1) l1 x hx
  have hsub_a : ∀ x ∈ l1.takeWhile (fun x => compareTeams x t1), x ∈ l1 :=
    fun x hx => (List.takeWhile_sublist _).subset hx
  have hsub_b : ∀ x ∈ l1.dropWhile (fun x => compareTeams x t1), x ∈ l1 :=
    fun x hx => (List.dropWhile_sublist _).subset hx
  have hl1p : (l1.takeWhile (fun x => compareTeams x t1) ++
      l1.dropWhile (fun x => compareTeams x t1)).Pairwise (fun a b => compareTeams a b = true) := by
    rw [hsplit]; exact hp'.1
  have hl1p' := List.pairwise_append.1 hl1p
  have hname_ne : ∀ x ∈ l1, x.name ≠ t1.name := by
    intro x hx
    rw [hname]
    have := pairwise_name_ne hn
    exact (List.pairwise_append.1 this).2.2 x hx t (List.mem_cons_self _ _)
  have hb : ∀ y ∈ l1.dropWhile (fun x => compareTeams x t1), compareTeams t1 y = true := by
    intro y hy
    cases hd : l1.dropWhile (fun x => compareTeams x t1) with
    | nil => rw [hd] at hy; cases hy
    | cons h rest =>
      have hh : ¬ compareTeams h t1 = true := by
        have := List.head_dropWhile_not (fun x => compareTeams x t1) l1
          (by rw [hd]; exact List.cons_ne_nil _ _)
        simpa [hd] using this
      have hhmem : h ∈ l1 := hsub_b h (by rw [hd]; exact List.mem_cons_self _ _)
      have ht1h : compareTeams t1 h = true := by
        rcases compareTeams_total (hname_ne h hhmem) with h1 | h1
        · exact absurd h1 hh
        · exact h1
      rw [hd] at hy
      rcases List.mem_cons.1 hy with rfl | hy
      · exact ht1h
      · have hdp : (h :: rest).Pairwise (fun a b => compareTeams a b = true) := by
          rw [← hd]; exact hl1p'.2.1
        have hhy := (List.pairwise_cons.1 hdp).1 y hy
        have hymem : y ∈ l1 := hsub_b y (by rw [hd]; exact List.mem_cons_of_mem _ hy)
        exact compareTeams_trans hc1 (hc h (List.mem_append_left _ hhmem))
          (hc y (List.mem_append_left _ hymem)) ht1h hhy
  have hcand : (l1.takeWhile (fun x => compareTeams x t1) ++
      t1 :: (l1.dropWhile (fun x => compareTeams x t1) ++ l2)).Pairwise
      (fun a b => compareTeams a b = true) := by
    refine List.pairwise_append.2 ⟨hl1p'.1, ?_, ?_⟩
    · refine List.pairwise_cons.2 ⟨?_, ?_⟩
      · intro y hy
        rcases List.mem_append.1 hy with hy | hy
        · exact hb y hy
        · exact himp y (hp2.1 y hy)
      · refine List.pairwise_append.2 ⟨hl1p'.2.1, hp2.2, ?_⟩
        intro x hx y hy
        exact hp'.2.2 x (hsub_b x hx) y (List.mem_cons_of_mem _ hy)
    · intro x hx y hy
      rcases List.mem_cons.1 hy with rfl | hy
      · exact ha x hx
      · rcases List.mem_append.1 hy with hy | hy
        · exact hl1p'.2.2 x hx y hy
        · exact hp'.2.2 x (hsub_a x hx) y (List.mem_cons_of_mem _ hy)
  have hpermc : (stdSort compareTeams (l1 ++ t1 :: l2)).Perm
      (l1.takeWhile (fun x => compareTeams x t1) ++
        t1 :: (l1.dropWhile (fun x => compareTeams x t1) ++ l2)) := by
    refine (stdSort_perm compareTeams _).trans ?_
    conv_lhs => rw [← hsplit]
    rw [List.append_assoc]
    exact List.Perm.append_left _ List.perm_middle
  exact pairwise_perm_unique compareTeams (fun a b h => compareTeams_asymm h) hpermc hsorted hcand

/-! ## Rank changes in a reveal -/

theorem compareTeams_solved_ge {a b : Team} (h : compareTeams a b = true) :
    b.solvedCount ≤ a.solvedCount := by
  unfold compareTeams at h
  by_cases hs : a.solvedCount = b.solvedCount
  · omega
  · simp only [ne_eq, hs, not_false_eq_true, if_true, decide_eq_true_eq] at h
    omega

theorem compareTeams_of_solved_gt {a b : Team} (h : b.solvedCount < a.solvedCount) :
    compareTeams a b = true := by
  unfold compareTeams
  have hs : ¬ a.solvedCount = b.solvedCount := by omega
  simp only [ne_eq, hs, not_false_eq_true, if_true, decide_eq_true_eq]
  omega

/-- The resolution of an unsolved problem either leaves the problem unsolved
and the aggregates of the team unchanged, or solves it and raises
`solvedCount` by one. -/
theorem resolve_cases (t : Team) (p : String) (hu : (t.status p).solved = false) :
    (((resolve t p).status p).solved = false ∧ (resolve t p).solvedCount = t.solvedCount ∧
      (resolve t p).penaltyTime = t.penaltyTime ∧ (resolve t p).solveTimes = t.solveTimes) ∨
    (((resolve t p).status p).solved = true ∧
      (resolve t p).solvedCount = t.solvedCount + 1) := by
  have hu2 : (getP t.problems p).solved = false := hu
  cases hr : scanFrozen (getP t.problems p).frozenSubs 0 with
  | mk cnt acc =>
    cases acc with
    | some time =>
      right
      unfold Team.status resolve
      simp [hu2, hr, getP_setP_same]
    | none =>
      left
      unfold Team.status resolve
      simp [hu2, hr, getP_setP_same]

theorem loopState_facts {s : State} (h : LoopState s) :
    Inv s ∧ s.frozen = true ∧ s.teamList.Pairwise (fun a b => compareTeams a b = true) := by
  induction h with
  | entry s hr hf =>
    have hi := inv_reachable hr
    refine ⟨inv_of_perm hi (stdSort_perm compareTeams s.teamList) s.flushed, hf, ?_⟩
    exact stdSort_compareTeams_pairwise s.teamList (fun t ht => (hi.teams t ht).times) hi.names
  | step s s1 i p out _ hft hstep ih =>
    obtain ⟨hi, hf, -⟩ := ih
    obtain ⟨t, ht, hp, hpos⟩ := findTarget_some hft
    obtain ⟨out1, e⟩ := scrollStep_state s i p t ht
    rw [e] at hstep
    simp only [Option.some.injEq, Prod.mk.injEq] at hstep
    obtain ⟨rfl, -⟩ := hstep
    have hi1 := inv_reveal hi hf i p t ht hp hpos
    refine ⟨hi1, hf, ?_⟩
    have hperm := stdSort_perm compareTeams (s.teamList.set i (resolve t p))
    apply stdSort_compareTeams_pairwise
    · intro u hu
      exact (hi1.teams u (hperm.mem_iff.2 hu)).times
    · rw [names_set_resolve _ _ _ _ ht]
      exact hi.names



/-- The re-sort after one reveal, on a ranked list of consistent teams with
distinct names whose target at index `i` is unsolved on `p`: the resolved
target lands at an index `j ≤ i`, the other teams keep their order, and when
the problem stays unsolved the list is the old one with the target updated in
place. -/
theorem rerank_after_resolve (l : List Team) (i : Nat) (p : String) (t : Team)
    (ht : l[i]? = some t) (hu : (t.status p).solved = false)
    (hp : l.Pairwise (fun a b => compareTeams a b = true))
    (hc : ∀ x ∈ l, x.timesConsistent) (hc1 : (resolve t p).timesConsistent)
    (hn : (l.map Team.name).Nodup) :
    ∃ j : Nat, j ≤ i ∧
      (stdSort compareTeams (l.set i (resolve t p)))[j]? = some (resolve t p) ∧
      (stdSort compareTeams (l.set i (resolve t p))).eraseIdx j = l.eraseIdx i ∧
      (((resolve t p).status p).solved = false →
        stdSort compareTeams (l.set i (resolve t p)) = l.set i (resolve t p) ∧ j = i) := by
  obtain ⟨l1, l2, rfl, rfl⟩ := split_at_index l i t ht
  rw [set_at_split, eraseIdx_at_split]
  have hp' := List.pairwise_append.1 hp
  have hp2 := List.pairwise_cons.1 hp'.2.1
  rcases resolve_cases t p hu with ⟨hs, h1, h2, h3⟩ | ⟨hs, h1⟩
  · have hcongr1 : ∀ y, compareTeams (resolve t p) y = compareTeams t y := fun y =>
      compareTeams_congr (resolve_name t p) h1 h2 (by rw [h3]) rfl rfl rfl rfl
    have hcongr2 : ∀ y, compareTeams y (resolve t p) = compareTeams y t := fun y =>
      compareTeams_congr rfl rfl rfl rfl (resolve_name t p) h1 h2 (by rw [h3])
    have hpw : (l1 ++ resolve t p :: l2).Pairwise (fun a b => compareTeams a b = true) := by
      refine List.pairwise_append.2 ⟨hp'.1, List.pairwise_cons.2 ⟨?_, hp2.2⟩, ?_⟩
      · intro y hy
        rw [hcongr1]
        exact hp2.1 y hy
      · intro x hx y hy
        rcases List.mem_cons.1 hy with rfl | hy
        · rw [hcongr2]
          exact hp'.2.2 x hx t (List.mem_cons_self _ _)
        · exact hp'.2.2 x hx y (List.mem_cons_of_mem _ hy)
    have he := stdSort_of_pairwise compareTeams (fun a b h => compareTeams_asymm h) hpw
    rw [he]
    exact ⟨l1.length, le_refl _, getElem?_at_split _ _ _, eraseIdx_at_split _ _ _,
      fun _ => ⟨rfl, rfl⟩⟩
  · have himp : ∀ y, compareTeams t y = true → compareTeams (resolve t p) y = true := by
      intro y hy
      apply compareTeams_of_solved_gt
      have := compareTeams_solved_ge hy
      omega
    obtain ⟨a, b, hab, he⟩ := rerank_improved l1 l2 t (resolve t p) hp hc hc1 hn
      (resolve_name t p) himp
    rw [he]
    refine ⟨a.length, by rw [hab]; simp, getElem?_at_split _ _ _, ?_, ?_⟩
    · rw [eraseIdx_at_split, hab, List.append_assoc]
    · intro hns
      rw [hs] at hns
      cases hns

/-- C20: a reveal iteration taken at the head of the reveal loop of a scroll
of a reachable state, where the teams have distinct names and the ranking is
sorted: the target found at index `i` is, after the re-sort, at an index
`j ≤ i`; removing the target from the ranking before and after leaves the same
list, so the other teams keep their relative order; and if the resolution did
not solve the target problem the ranking is the previous one with the target
updated in place, with the same order of names. -/
theorem scrollStep_rank_monotone (s : State) (i : Nat) (p : String) (hl : LoopState s)
    (hft : findTarget s = some (i, p)) :
    (s.teamList.map Team.name).Nodup ∧
    s.teamList.Pairwise (fun a b => compareTeams a b = true) ∧
    ∃ (t : Team) (s1 : State) (out : List String) (j : Nat),
      s.teamList[i]? = some t ∧ scrollStep s i p = some (s1, out) ∧
      findRank s.teamList t.name = i ∧ findRank s1.teamList t.name = j ∧ j ≤ i ∧
      s1.teamList[j]? = some (resolve t p) ∧
      s1.teamList.eraseIdx j = s.teamList.eraseIdx i ∧
      (((resolve t p).status p).solved = false →
        s1.teamList = s.teamList.set i (resolve t p) ∧
        s1.teamList.map Team.name = s.teamList.map Team.name ∧ j = i ∧ out = []) := by
  obtain ⟨hi, hf, hpw⟩ := loopState_facts hl
  obtain ⟨t, ht, hp, hpos⟩ := findTarget_some hft
  have htinv : TeamInv s.problemNames true t := by
    have := hi.teams t (List.getElem?_mem ht)
    rw [hf] at this
    exact this
  have hu := unsolved_of_pending htinv p hpos
  obtain ⟨j, hji, hj, her, hsame⟩ := rerank_after_resolve s.teamList i p t ht hu hpw
    (fun x hx => (hi.teams x hx).times) (teamInv_resolve htinv p hpos).times hi.names
  have hold := findRank_nodup s.teamList i t ht hi.names
  have hn2 : ((stdSort compareTeams (s.teamList.set i (resolve t p))).map Team.name).Nodup := by
    rw [((stdSort_perm compareTeams _).map Team.name).nodup_iff, names_set_resolve _ _ _ _ ht]
    exact hi.names
  have hnew := findRank_nodup _ j (resolve t p) hj hn2
  rw [resolve_name] at hnew
  have hcases := scrollStep_eq s i p t ht
  refine ⟨hi.names, hpw, t, ?_⟩
  by_cases hlt : findRank (stdSort compareTeams (s.teamList.set i (resolve t p))) t.name <
      findRank s.teamList t.name
  · obtain ⟨below, -, e⟩ := hcases.1 hlt
    refine ⟨_, _, j, ht, e, hold, hnew, hji, hj, her, ?_⟩
    intro hns
    obtain ⟨-, hji2⟩ := hsame hns
    rw [hnew, hold, hji2] at hlt
    exact absurd hlt (lt_irrefl _)
  · refine ⟨_, [], j, ht, hcases.2 hlt, hold, hnew, hji, hj, her, ?_⟩
    intro hns
    obtain ⟨he, hji2⟩ := hsame hns
    refine ⟨he, ?_, hji2, rfl⟩
    show (stdSort compareTeams (s.teamList.set i (resolve t p))).map Team.name = _
    rw [he, names_set_resolve _ _ _ _ ht]

/-- C20 (witness): at the head of the reveal loop of the scroll of
`exPending` the target is "beta" at index 1; after the step it is at an index
`j ≤ 1` and the rest of the ranking is unchanged. -/
theorem scrollStep_rank_monotone_witness :
    LoopState { exPending with teamList := stdSort compareTeams exPending.teamList } ∧
    findTarget { exPending with teamList := stdSort compareTeams exPending.teamList }
      = some (1, "B") ∧
    ∃ (t : Team) (s1 : State) (out : List String) (j : Nat),
      scrollStep { exPending with teamList := stdSort compareTeams exPending.teamList } 1 "B"
        = some (s1, out) ∧
      j ≤ 1 ∧ s1.teamList[j]? = some (resolve t "B") ∧
      s1.teamList.eraseIdx j =
        (stdSort compareTeams exPending.teamList).eraseIdx 1 := by
  have hl : LoopState { exPending with teamList := stdSort compareTeams exPending.teamList } :=
    LoopState.entry exPending reachable_exPending (by decide)
  have hft : findTarget { exPending with teamList := stdSort compareTeams exPending.teamList }
      = some (1, "B") := by decide
  obtain ⟨-, -, t, s1, out, j, -, h2, -, -, h5, h6, h7, -⟩ :=
    scrollStep_rank_monotone _ 1 "B" hl hft
  exact ⟨hl, hft, t, s1, out, j, h2, h5, h6, h7⟩

/-! ## Final standings with and without freeze -/

theorem scanFrozen_append_single (q : List Submission) (sub : Submission) (c : Int) :
    scanFrozen (q ++ [sub]) c =
      match (scanFrozen q c).2 with
      | some time => ((scanFrozen q c).1, some time)
      | none =>
        if sub.status = "Accepted" then ((scanFrozen q c).1, some sub.time)
        else ((scanFrozen q c).1 + 1, none) := by
  induction q generalizing c with
  | nil =>
    by_cases h : sub.status = "Accepted" <;> simp [scanFrozen, h]
  | cons x q ih =>
    by_cases hx : x.status = "Accepted"
    · simp [scanFrozen, hx]
    · simp only [List.cons_append, scanFrozen, hx, if_false]
      exact ih (c + 1)

theorem scanFrozen_nil_snd_none (q : List Submission) (c : Int)
    (h : (scanFrozen q c).2 = none) : (scanFrozen q c).1 = c + q.length := by
  induction q generalizing c with
  | nil => simp [scanFrozen]
  | cons x q ih =>
    by_cases hx : x.status = "Accepted"
    · simp [scanFrozen, hx] at h
    · simp only [scanFrozen, hx, if_false] at h ⊢
      rw [ih (c + 1) h]
      simp only [List.length_cons]
      push_cast
      ring

theorem gainTimes_setP (m : List (String × ProblemStatus)) (k : String) (v : ProblemStatus) :
    (gainTimes (setP m k v) ++ gainTimesOf (getP m k)).Perm (gainTimes m ++ gainTimesOf v) := by
  induction m with
  | nil =>
    simp [setP, getP, gainTimes, gainTimesOf, pendingAccept, scanFrozen]
  | cons e m ih =>
    obtain ⟨k', v'⟩ := e
    by_cases hk : k' = k
    · subst hk
      simp only [setP, getP, if_true, gainTimes]
      apply Multiset.coe_eq_coe.mp
      simp only [← Multiset.coe_add]
      abel
    · simp only [setP, getP, hk, if_false, gainTimes, List.append_assoc]
      exact List.Perm.append_left _ ih

theorem gain_default : gainCount {} = 0 ∧ gainPenalty {} = 0 ∧ gainTimesOf {} = [] := by
  simp [gainCount, gainPenalty, gainTimesOf, pendingAccept, scanFrozen]

theorem simT_update {u f u1 f1 : Team} (h : SimT u f) (p : String) (v : ProblemStatus)
    (dA dB eA eB : Int) (dT eT : List Int)
    (hun : u1.name = u.name) (hfn : f1.name = f.name)
    (hup : core (u1.status p) = settleCore v)
    (hune : ∀ q, q ≠ p → u1.status q = u.status q)
    (husc : u1.solvedCount = u.solvedCount + dA)
    (hupen : u1.penaltyTime = u.penaltyTime + dB)
    (hut : u1.solveTimes.Perm (u.solveTimes ++ dT))
    (hfp : f1.problems = setP f.problems p v)
    (hfsc : f1.solvedCount = f.solvedCount + eA)
    (hfpen : f1.penaltyTime = f.penaltyTime + eB)
    (hft : f1.solveTimes.Perm (f.solveTimes ++ eT))
    (hA : dA + gainCount (f.status p) = eA + gainCount v)
    (hB : dB + gainPenalty (f.status p) = eB + gainPenalty v)
    (hT : (dT ++ gainTimesOf (f.status p)).Perm (eT ++ gainTimesOf v)) :
    SimT u1 f1 := by
  refine ⟨by rw [hun, hfn, h.name], ?_, ?_, ?_, ?_⟩
  · rw [husc, hfsc, hfp, sumP_setP gainCount gain_default.1, h.solved]
    unfold Team.status at hA
    linarith
  · rw [hupen, hfpen, hfp, sumP_setP gainPenalty gain_default.2.1, h.penalty]
    unfold Team.status at hB
    linarith
  · rw [hfp]
    have h1 := gainTimes_setP f.problems p v
    have h2 := h.times
    unfold Team.status at hT
    have e1 := Multiset.coe_eq_coe.mpr h1
    have e2 := Multiset.coe_eq_coe.mpr h2
    have e3 := Multiset.coe_eq_coe.mpr hT
    have e4 := Multiset.coe_eq_coe.mpr hut
    have e5 := Multiset.coe_eq_coe.mpr hft
    apply Multiset.coe_eq_coe.mp
    simp only [← Multiset.coe_add] at e1 e2 e3 e4 e5 ⊢
    rw [e4, e5, e2]
    apply add_right_cancel (b := ((gainTimesOf (getP f.problems p) : List Int) : Multiset Int))
    calc ((f.solveTimes : Multiset Int) + ↑(gainTimes f.problems) + ↑dT) + ↑(gainTimesOf (getP f.problems p))
        = ↑f.solveTimes + ↑(gainTimes f.problems) + (↑dT + ↑(gainTimesOf (getP f.problems p))) := by abel
      _ = ↑f.solveTimes + ↑(gainTimes f.problems) + (↑eT + ↑(gainTimesOf v)) := by rw [e3]
      _ = ↑f.solveTimes + ↑eT + (↑(gainTimes f.problems) + ↑(gainTimesOf v)) := by abel
      _ = ↑f.solveTimes + ↑eT + (↑(gainTimes (setP f.problems p v)) + ↑(gainTimesOf (getP f.problems p))) := by rw [e1]
      _ = _ := by abel
  · intro q
    by_cases hq : q = p
    · subst hq
      rw [hup]
      unfold Team.status
      rw [hfp, getP_setP_same]
    · rw [hune q hq, h.status q]
      unfold Team.status
      rw [hfp, getP_setP_ne _ _ hq]

theorem simT_same {u f u1 f1 : Team} (h : SimT u f)
    (hun : u1.name = u.name) (hfn : f1.name = f.name)
    (hup : u1.problems = u.problems) (husc : u1.solvedCount = u.solvedCount)
    (hupen : u1.penaltyTime = u.penaltyTime) (hut : u1.solveTimes = u.solveTimes)
    (hfp : f1.problems = f.problems) (hfsc : f1.solvedCount = f.solvedCount)
    (hfpen : f1.penaltyTime = f.penaltyTime) (hft : f1.solveTimes = f.solveTimes) :
    SimT u1 f1 := by
  refine ⟨by rw [hun, hfn, h.name], ?_, ?_, ?_, ?_⟩
  · rw [husc, hfsc, hfp]; exact h.solved
  · rw [hupen, hfpen, hfp]; exact h.penalty
  · rw [hut, hft, hfp]; exact h.times
  · intro q
    have := h.status q
    unfold Team.status at this ⊢
    rw [hup, hfp]; exact this

theorem settleCore_of_empty (ps : ProblemStatus) (h : ps.frozenSubs = []) :
    settleCore ps = core ps ∧ gainCount ps = 0 ∧ gainPenalty ps = 0 ∧ gainTimesOf ps = [] := by
  simp [settleCore, gainCount, gainPenalty, gainTimesOf, pendingAccept, h, scanFrozen]

theorem simT_submit {names : List String} {u f : Team} (h : SimT u f)
    (hi : TeamInv names true f) (hk : Snapshot f) (p st : String) (time : Int) :
    SimT (u.addSubmission p st time false) (f.addSubmission p st time true) ∧
      Snapshot (f.addSubmission p st time true) := by
  have hcore := h.status p
  by_cases hfs : (f.status p).solved = true
  · -- solved on both sides
    have hq := hi.unsolved p hfs
    rw [(settleCore_of_empty _ hq).1] at hcore
    have hus : (u.status p).solved = true := by
      have := congrArg Prod.fst hcore
      simp only [core] at this
      rw [this, hfs]
    rw [addSubmission_solved u p st time false hus, addSubmission_solved f p st time true hfs]
    exact ⟨simT_same h rfl rfl rfl rfl rfl rfl rfl rfl rfl rfl, hk⟩
  · have hfs : (f.status p).solved = false := by simpa using hfs
    have hwbf := hk p hfs
    rw [addSubmission_frozen f p st time hfs]
    have hsnap : Snapshot
        { f with
          submissions := f.submissions ++ [⟨p, st, time, true⟩]
          problems := setP f.problems p
            { f.status p with
              frozenSubmissions := (f.status p).frozenSubmissions + 1
              frozenSubs := (f.status p).frozenSubs ++ [⟨p, st, time, true⟩] } } := by
      intro q hq
      by_cases hqp : q = p
      · subst hqp
        unfold Team.status
        simp only [getP_setP_same]
        exact hwbf
      · unfold Team.status at hq ⊢
        simp only [getP_setP_ne _ _ hqp] at hq ⊢
        exact hk q hq
    refine ⟨?_, hsnap⟩
    have happ := scanFrozen_append_single (f.status p).frozenSubs ⟨p, st, time, true⟩ 0
    cases hsc : (scanFrozen (f.status p).frozenSubs 0).2 with
    | some t0 =>
      -- an acceptance is already waiting
      rw [hsc] at happ
      simp only at happ
      have hus : (u.status p).solved = true := by
        have := congrArg Prod.fst hcore
        simp only [core, settleCore, pendingAccept, hsc] at this
        exact this
      rw [addSubmission_solved u p st time false hus]
      refine simT_update h p _ 0 0 0 0 [] [] rfl rfl ?_ (fun q _ => rfl) (by simp) (by simp)
        (by simp) rfl (by simp) (by simp) (by simp) ?_ ?_ ?_
      · show core (u.status p) = _
        rw [hcore]
        simp [settleCore, pendingAccept, hsc, happ]
      · simp [gainCount, pendingAccept, hsc, happ]
      · simp [gainPenalty, pendingAccept, hsc, happ]
      · simp [gainTimesOf, pendingAccept, hsc, happ]
    | none =>
      rw [hsc] at happ
      simp only at happ
      have hlen := scanFrozen_nil_snd_none _ 0 hsc
      have hsettle : settleCore (f.status p) =
          (false, (f.status p).wrongBeforeFreeze + (scanFrozen (f.status p).frozenSubs 0).1,
            (f.status p).solveTime) := by
        simp only [settleCore, pendingAccept, hsc]
        by_cases hq : (f.status p).frozenSubs = []
        · simp [hq, core, hfs, hwbf, scanFrozen]
        · simp [hq, hfs]
      rw [hsettle] at hcore
      have hus : (u.status p).solved = false := by
        have := congrArg Prod.fst hcore
        simpa [core] using this
      have huwa : (u.status p).wrongAttempts =
          (f.status p).wrongBeforeFreeze + (scanFrozen (f.status p).frozenSubs 0).1 := by
        have := congrArg (fun x => x.2.1) hcore
        simpa [core] using this
      have hust : (u.status p).solveTime = (f.status p).solveTime := by
        have := congrArg (fun x => x.2.2) hcore
        simpa [core] using this
      by_cases hacc : st = "Accepted"
      · subst hacc
        simp only [if_true] at happ
        rw [addSubmission_accepted u p time hus]
        refine simT_update h p _ 1 (20 * (u.status p).wrongAttempts + time) 0 0 [time] []
          rfl rfl ?_ ?_ rfl rfl (List.Perm.refl _) rfl (by simp) (by simp) (by simp) ?_ ?_ ?_
        · unfold Team.status at happ huwa ⊢
          simp only [getP_setP_same]
          simp [core, settleCore, pendingAccept, happ, huwa]
        · intro q hq
          unfold Team.status
          simp only [getP_setP_ne _ _ hq]
        · simp [gainCount, pendingAccept, hsc, happ]
        · simp [gainPenalty, pendingAccept, hsc, happ, huwa]
        · simp [gainTimesOf, pendingAccept, hsc, happ]
      · simp only [hacc, if_false] at happ
        rw [addSubmission_rejected u p st time hus hacc]
        refine simT_update h p _ 0 0 0 0 [] []
          rfl rfl ?_ ?_ (by simp) (by simp) (by simp) rfl (by simp) (by simp) (by simp) ?_ ?_ ?_
        · unfold Team.status at happ huwa hust hfs ⊢
          simp only [getP_setP_same]
          simp [core, settleCore, pendingAccept, happ, hfs, huwa, hust, hus]
          unfold Team.status at hus
          exact ⟨hus, by ring⟩
        · intro q hq
          unfold Team.status
          simp only [getP_setP_ne _ _ hq]
        · simp [gainCount, pendingAccept, hsc, happ]
        · simp [gainPenalty, pendingAccept, hsc, happ]
        · simp [gainTimesOf, pendingAccept, hsc, happ]

theorem simT_resolve {names : List String} {u f : Team} (h : SimT u f)
    (hi : TeamInv names true f) (p : String) (hp : (f.status p).frozenSubmissions > 0) :
    SimT u (resolve f p) := by
  have hne : (f.status p).frozenSubs ≠ [] := by
    intro e
    have := hi.count p
    rw [e] at this
    simp at this
    omega
  have hfs : (f.status p).solved = false := by
    by_contra hc
    exact hne (hi.unsolved p (by simpa using hc))
  cases hsc : (scanFrozen (f.status p).frozenSubs 0).2 with
  | some t0 =>
    have hr : resolve f p =
        { f with
          problems := setP f.problems p
            { f.status p with
              solved := true
              solveTime := t0
              wrongAttempts := (f.status p).wrongBeforeFreeze +
                (scanFrozen (f.status p).frozenSubs 0).1
              frozenSubmissions := 0
              frozenSubs := [] }
          solvedCount := f.solvedCount + 1
          penaltyTime := f.penaltyTime + (20 * ((f.status p).wrongBeforeFreeze +
            (scanFrozen (f.status p).frozenSubs 0).1) + t0)
          solveTimes := f.solveTimes ++ [t0] } := by
      unfold Team.status at hfs hsc ⊢
      unfold resolve
      simp [hfs, hsc, getP_setP_same, setP_setP]
    rw [hr]
    refine simT_update h p _ 0 0 1 (20 * ((f.status p).wrongBeforeFreeze +
        (scanFrozen (f.status p).frozenSubs 0).1) + t0) [] [t0]
      rfl rfl ?_ (fun q _ => rfl) (by simp) (by simp) (by simp) rfl rfl rfl (List.Perm.refl _)
      ?_ ?_ ?_
    · rw [h.status p]
      simp [settleCore, pendingAccept, hsc, scanFrozen, core]
    · simp [gainCount, pendingAccept, hsc, scanFrozen]
    · simp [gainPenalty, pendingAccept, hsc, scanFrozen]
    · simp [gainTimesOf, pendingAccept, hsc, scanFrozen]
  | none =>
    have hr : resolve f p =
        { f with
          problems := setP f.problems p
            { f.status p with
              wrongAttempts := (f.status p).wrongBeforeFreeze +
                (scanFrozen (f.status p).frozenSubs 0).1
              frozenSubmissions := 0
              frozenSubs := [] } } := by
      unfold Team.status at hfs hsc ⊢
      unfold resolve
      simp [hfs, hsc, getP_setP_same, setP_setP]
    rw [hr]
    refine simT_update h p _ 0 0 0 0 [] []
      rfl rfl ?_ (fun q _ => rfl) (by simp) (by simp) (by simp) rfl (by simp) (by simp)
      (by simp) ?_ ?_ ?_
    · rw [h.status p]
      simp [settleCore, pendingAccept, hsc, scanFrozen, core, hne]
    · simp [gainCount, pendingAccept, hsc, scanFrozen]
    · simp [gainPenalty, pendingAccept, hsc, scanFrozen]
    · simp [gainTimesOf, pendingAccept, hsc, scanFrozen]

theorem sumP_eq_zero (g : ProblemStatus → Int) (m : List (String × ProblemStatus))
    (h : ∀ e ∈ m, g e.2 = 0) : sumP g m = 0 := by
  induction m with
  | nil => rfl
  | cons e m ih =>
    rw [sumP_cons, h e (List.mem_cons_self _ _), ih (fun x hx => h x (List.mem_cons_of_mem _ hx))]
    rfl

theorem gainTimes_eq_nil (m : List (String × ProblemStatus))
    (h : ∀ e ∈ m, gainTimesOf e.2 = []) : gainTimes m = [] := by
  induction m with
  | nil => rfl
  | cons e m ih =>
    simp only [gainTimes, h e (List.mem_cons_self _ _),
      ih (fun x hx => h x (List.mem_cons_of_mem _ hx)), List.append_nil]

theorem entries_no_queue {t : Team} (hk : (t.problems.map Prod.fst).Nodup)
    (hq : ∀ p, (t.status p).frozenSubs = []) : ∀ e ∈ t.problems, e.2.frozenSubs = [] := by
  intro e he
  have := hq e.1
  unfold Team.status at this
  rw [getP_of_mem hk he] at this
  exact this

theorem simT_freeze {names : List String} {t : Team} (hi : TeamInv names false t) :
    SimT t { t with problems := freezeProblems t.problems } ∧
      Snapshot { t with problems := freezeProblems t.problems } := by
  have hq : ∀ p, (freezeStatus (t.status p)).frozenSubs = [] := by
    intro p
    have := hi.thawed rfl p
    unfold freezeStatus
    split <;> simpa using this
  have hent : ∀ e ∈ freezeProblems t.problems, e.2.frozenSubs = [] := by
    intro e he
    unfold freezeProblems at he
    obtain ⟨x, hx, rfl⟩ := List.mem_map.mp he
    have := entries_no_queue hi.keys (hi.thawed rfl) x hx
    simp only [freezeStatus]
    split <;> simpa using this
  refine ⟨⟨rfl, ?_, ?_, ?_, ?_⟩, ?_⟩
  · rw [sumP_eq_zero _ _ (fun e he => (settleCore_of_empty _ (hent e he)).2.1)]
    simp
  · rw [sumP_eq_zero _ _ (fun e he => (settleCore_of_empty _ (hent e he)).2.2.1)]
    simp
  · rw [gainTimes_eq_nil _ (fun e he => (settleCore_of_empty _ (hent e he)).2.2.2)]
    simp
  · intro p
    have e1 := (settleCore_of_empty _ (hq p)).1
    unfold Team.status at e1 ⊢
    simp only [getP_freezeProblems]
    rw [e1]
    unfold freezeStatus core
    split <;> rfl
  · intro p hp
    unfold Team.status at hp ⊢
    simp only [getP_freezeProblems] at hp ⊢
    unfold freezeStatus at hp ⊢
    by_cases hs : (getP t.problems p).solved = true
    · simp [hs] at hp
    · simp [hs]

theorem simT_settled {u f : Team} (h : SimT u f) (hk : (f.problems.map Prod.fst).Nodup)
    (hq : ∀ p, (f.status p).frozenSubs = []) : SameStanding u f := by
  have hent := entries_no_queue hk hq
  refine ⟨h.name, ?_, ?_, ?_, ?_⟩
  · rw [h.solved, sumP_eq_zero _ _ (fun e he => (settleCore_of_empty _ (hent e he)).2.1)]
    simp
  · rw [h.penalty, sumP_eq_zero _ _ (fun e he => (settleCore_of_empty _ (hent e he)).2.2.1)]
    simp
  · have := h.times
    rw [gainTimes_eq_nil _ (fun e he => (settleCore_of_empty _ (hent e he)).2.2.2)] at this
    simpa using this
  · intro p
    have := h.status p
    rw [(settleCore_of_empty _ (hq p)).1] at this
    simp only [core, Prod.mk.injEq] at this
    exact this

theorem sameStanding_compare {a b c d : Team} (h1 : SameStanding a b) (h2 : SameStanding c d) :
    compareTeams a c = compareTeams b d :=
  compareTeams_congr h1.name h1.solved h1.penalty (sortDesc_eq_of_perm h1.times)
    h2.name h2.solved h2.penalty (sortDesc_eq_of_perm h2.times)

theorem forall2_updateTeam {R : Team → Team → Prop} {U F : List Team} (n : String)
    (g1 g2 : Team → Team) (h : List.Forall₂ R U F)
    (hname : ∀ u f, R u f → u.name = f.name)
    (hg : ∀ u f, R u f → R (g1 u) (g2 f)) :
    List.Forall₂ R (updateTeam U n g1) (updateTeam F n g2) := by
  induction h with
  | nil => exact List.Forall₂.nil
  | @cons a b l1 l2 hab hrest ih =>
    unfold updateTeam
    by_cases ha : a.name = n
    · have hb : b.name = n := by rw [← hname a b hab]; exact ha
      simp only [ha, hb, if_true]
      exact List.Forall₂.cons (hg a b hab) hrest
    · have hb : ¬ b.name = n := by rw [← hname a b hab]; exact ha
      simp only [ha, hb, if_false]
      exact List.Forall₂.cons hab ih

theorem forall2_names {R : Team → Team → Prop} {U F : List Team} (h : List.Forall₂ R U F)
    (hname : ∀ u f, R u f → u.name = f.name) : U.map Team.name = F.map Team.name := by
  induction h with
  | nil => rfl
  | cons hab _ ih => simp [hname _ _ hab, ih]

theorem submitAll_sim (reqs : List SubmitReq) (U F : State)
    (hU : Inv U) (hF : Inv F) (hUf : U.frozen = false) (hFf : F.frozen = true)
    (hUs : U.started = true) (hFs : F.started = true)
    (hn : U.problemNames = F.problemNames)
    (hR : List.Forall₂ (fun u f => SimT u f ∧ Snapshot f) U.teamList F.teamList)
    (hval : ∀ r ∈ reqs, r.problem ∈ U.problemNames ∧
      (findTeam U.teamList r.teamName).isSome = true) :
    ∃ U1 F1, submitAll U reqs = some U1 ∧ submitAll F reqs = some F1 ∧
      Inv U1 ∧ Inv F1 ∧ U1.frozen = false ∧ F1.frozen = true ∧
      U1.problemNames = U.problemNames ∧ F1.problemNames = F.problemNames ∧
      List.Forall₂ SimT U1.teamList F1.teamList := by
  induction reqs generalizing U F with
  | nil =>
    exact ⟨U, F, rfl, rfl, hU, hF, hUf, hFf, rfl, rfl, hR.imp (fun _ _ h => h.1)⟩
  | cons r reqs ih =>
    obtain ⟨hp, hfu⟩ := hval r (List.mem_cons_self _ _)
    have hnames : U.teamList.map Team.name = F.teamList.map Team.name :=
      forall2_names hR (fun u f h => h.1.name)
    have hff : (findTeam F.teamList r.teamName).isSome = true := by
      rw [findTeam_isSome_iff] at hfu ⊢
      rw [← hnames]; exact hfu
    obtain ⟨tu, htu⟩ := Option.isSome_iff_exists.mp hfu
    obtain ⟨tf, htf⟩ := Option.isSome_iff_exists.mp hff
    have eU := submit_eq_some U r.problem r.teamName r.status r.time htu
    have eF := submit_eq_some F r.problem r.teamName r.status r.time htf
    have hU1 := inv_submit hU _ _ _ _ hUs hp eU
    have hF1 := inv_submit hF _ _ _ _ hFs (hn ▸ hp) eF
    have hR1 : List.Forall₂ (fun u f => SimT u f ∧ Snapshot f)
        (updateTeam U.teamList r.teamName
          (fun t => t.addSubmission r.problem r.status r.time U.frozen))
        (updateTeam F.teamList r.teamName
          (fun t => t.addSubmission r.problem r.status r.time F.frozen)) := by
      have hR2 : List.Forall₂ (fun u f => (SimT u f ∧ Snapshot f) ∧
          TeamInv F.problemNames true f) U.teamList F.teamList := by
        rw [List.forall₂_iff_get] at hR ⊢
        refine ⟨hR.1, fun i h1 h2 => ⟨hR.2 i h1 h2, ?_⟩⟩
        have := hF.teams _ (List.get_mem F.teamList i h2)
        rw [hFf] at this
        exact this
      have := forall2_updateTeam r.teamName
        (fun t => t.addSubmission r.problem r.status r.time false)
        (fun t => t.addSubmission r.problem r.status r.time true) hR2
        (fun u f h => h.1.1.name)
        (fun u f h => ⟨simT_submit h.1.1 h.2 h.1.2 _ _ _,
          teamInv_addSubmission h.2 _ _ _ (hn ▸ hp)⟩)
      rw [hUf, hFf]
      exact this.imp (fun _ _ h => h.1)
    have hval1 : ∀ r1 ∈ reqs, r1.problem ∈ U.problemNames ∧
        (findTeam (updateTeam U.teamList r.teamName
          (fun t => t.addSubmission r.problem r.status r.time U.frozen)) r1.teamName).isSome
          = true := by
      intro r1 hr1
      obtain ⟨h1, h2⟩ := hval r1 (List.mem_cons_of_mem _ hr1)
      refine ⟨h1, ?_⟩
      rw [findTeam_isSome_iff] at h2 ⊢
      rw [names_updateTeam _ _ _ (fun t => addSubmission_name t _ _ _ _)]
      exact h2
    obtain ⟨U1, F1, e1, e2, h1, h2, h3, h4, h5, h6, h7⟩ :=
      ih _ _ hU1 hF1 hUf hFf hUs hFs hn hR1 hval1
    refine ⟨U1, F1, ?_, ?_, h1, h2, h3, h4, h5, h6, h7⟩
    · simp only [submitAll, eU]; exact e1
    · simp only [submitAll, eF]; exact e2

theorem scrollLoop_invariant (P : State → Prop)
    (hstep : ∀ (s : State) (i : Nat) (p : String) (t : Team), Inv s → s.frozen = true → P s →
      s.teamList[i]? = some t → p ∈ s.problemNames → (t.status p).frozenSubmissions > 0 →
      P { s with teamList := stdSort compareTeams (s.teamList.set i (resolve t p)) })
    (n : Nat) (s s2 : State) (out : List String)
    (h : scrollLoop n s = some (s2, out)) (hi : Inv s) (hf : s.frozen = true) (hP : P s) :
    P s2 := by
  induction n generalizing s out with
  | zero => simp [scrollLoop] at h
  | succ n ih =>
    unfold scrollLoop at h
    cases hft : findTarget s with
    | none =>
      rw [hft] at h
      simp only [Option.some.injEq, Prod.mk.injEq] at h
      obtain ⟨rfl, -⟩ := h
      exact hP
    | some tgt =>
      obtain ⟨i, p⟩ := tgt
      rw [hft] at h
      simp only at h
      obtain ⟨t, ht, hp, hpos⟩ := findTarget_some hft
      obtain ⟨out1, e⟩ := scrollStep_state s i p t ht
      rw [e] at h
      simp only at h
      cases hl : scrollLoop n { s with
          teamList := stdSort compareTeams (s.teamList.set i (resolve t p)) } with
      | none => rw [hl] at h; cases h
      | some r2 =>
        obtain ⟨s3, out3⟩ := r2
        rw [hl] at h
        simp only [Option.some.injEq, Prod.mk.injEq] at h
        obtain ⟨rfl, -⟩ := h
        exact ih { s with teamList := stdSort compareTeams (s.teamList.set i (resolve t p)) }
          out3 hl (inv_reveal hi hf i p t ht hp hpos) hf (hstep s i p t hi hf hP ht hp hpos)

theorem matched_of_forall2 {R : Team → Team → Prop} {A B : List Team}
    (h : List.Forall₂ R A B) : Matched R A B := by
  induction h with
  | nil => exact ⟨fun b hb => (by cases hb), fun a ha => (by cases ha)⟩
  | @cons a b l1 l2 hab hrest ih =>
    refine ⟨fun y hy => ?_, fun x hx => ?_⟩
    · rcases List.mem_cons.1 hy with rfl | hy
      · exact ⟨a, List.mem_cons_self _ _, hab⟩
      · obtain ⟨x, hx, hr⟩ := ih.1 y hy
        exact ⟨x, List.mem_cons_of_mem _ hx, hr⟩
    · rcases List.mem_cons.1 hx with rfl | hx
      · exact ⟨b, List.mem_cons_self _ _, hab⟩
      · obtain ⟨y, hy, hr⟩ := ih.2 x hx
        exact ⟨y, List.mem_cons_of_mem _ hy, hr⟩

theorem matched_perm {R : Team → Team → Prop} {A B A1 B1 : List Team} (h : Matched R A B)
    (hA : A1.Perm A) (hB : B1.Perm B) : Matched R A1 B1 := by
  refine ⟨fun b hb => ?_, fun a ha => ?_⟩
  · obtain ⟨a, ha, hr⟩ := h.1 b (hB.subset hb)
    exact ⟨a, hA.symm.subset ha, hr⟩
  · obtain ⟨b, hb, hr⟩ := h.2 a (hA.subset ha)
    exact ⟨b, hB.symm.subset hb, hr⟩

theorem matched_reveal {U F : List Team} {names : List String} (h : Matched SimT U F)
    (hi : ∀ t ∈ F, TeamInv names true t) (i : Nat) (p : String) (t : Team)
    (ht : F[i]? = some t) (hp : (t.status p).frozenSubmissions > 0) :
    Matched SimT U (F.set i (resolve t p)) := by
  obtain ⟨l1, l2, rfl, rfl⟩ := split_at_index F i t ht
  have htm : t ∈ l1 ++ t :: l2 := by simp
  have hti := hi t htm
  rw [set_at_split]
  refine ⟨fun b hb => ?_, fun a ha => ?_⟩
  · rcases List.mem_append.1 hb with hb | hb
    · exact h.1 b (List.mem_append_left _ hb)
    · rcases List.mem_cons.1 hb with rfl | hb
      · obtain ⟨a, ha, hr⟩ := h.1 t htm
        exact ⟨a, ha, simT_resolve hr hti p hp⟩
      · exact h.1 b (List.mem_append_right _ (List.mem_cons_of_mem _ hb))
  · obtain ⟨b, hb, hr⟩ := h.2 a ha
    rcases List.mem_append.1 hb with hb | hb
    · exact ⟨b, List.mem_append_left _ hb, hr⟩
    · rcases List.mem_cons.1 hb with rfl | hb
      · exact ⟨resolve b p, by simp, simT_resolve hr hti p hp⟩
      · exact ⟨b, List.mem_append_right _ (List.mem_cons_of_mem _ hb), hr⟩

theorem forall2_of_matched_sorted {R : Team → Team → Prop}
    (hname : ∀ a b, R a b → a.name = b.name)
    (hcmp : ∀ a b c d, R a b → R c d → compareTeams a c = compareTeams b d) :
    ∀ (A B : List Team), A.Pairwise (fun a b => compareTeams a b = true) →
      B.Pairwise (fun a b => compareTeams a b = true) →
      (A.map Team.name).Nodup → (B.map Team.name).Nodup → Matched R A B →
      List.Forall₂ R A B := by
  intro A
  induction A with
  | nil =>
    intro B _ _ _ _ h
    cases B with
    | nil => exact List.Forall₂.nil
    | cons b B1 =>
      obtain ⟨a, ha, -⟩ := h.1 b (List.mem_cons_self _ _)
      cases ha
  | cons a A1 ih =>
    intro B hA hB hnA hnB h
    cases B with
    | nil =>
      obtain ⟨b, hb, -⟩ := h.2 a (List.mem_cons_self _ _)
      cases hb
    | cons b B1 =>
      have hA1 := List.pairwise_cons.1 hA
      have hB1 := List.pairwise_cons.1 hB
      rw [List.map_cons, List.nodup_cons] at hnA hnB
      have hab : R a b := by
        obtain ⟨b0, hb0, hr0⟩ := h.2 a (List.mem_cons_self _ _)
        rcases List.mem_cons.1 hb0 with rfl | hb0
        · exact hr0
        · obtain ⟨a0, ha0, hr1⟩ := h.1 b (List.mem_cons_self _ _)
          rcases List.mem_cons.1 ha0 with rfl | ha0
          · exact hr1
          · exfalso
            have c1 := hA1.1 a0 ha0
            have c2 := hB1.1 b0 hb0
            rw [hcmp a b0 a0 b hr0 hr1] at c1
            rw [compareTeams_asymm c2] at c1
            cases c1
      refine List.Forall₂.cons hab (ih B1 hA1.2 hB1.2 hnA.2 hnB.2 ⟨fun y hy => ?_, fun x hx => ?_⟩)
      · obtain ⟨x, hx, hr⟩ := h.1 y (List.mem_cons_of_mem _ hy)
        rcases List.mem_cons.1 hx with rfl | hx
        · exfalso
          apply hnB.1
          rw [← hname _ _ hab, hname _ _ hr]
          exact List.mem_map_of_mem _ hy
        · exact ⟨x, hx, hr⟩
      · obtain ⟨y, hy, hr⟩ := h.2 x (List.mem_cons_of_mem _ hx)
        rcases List.mem_cons.1 hy with rfl | hy
        · exfalso
          apply hnA.1
          rw [hname _ _ hab, ← hname _ _ hr]
          exact List.mem_map_of_mem _ hx
        · exact ⟨y, hy, hr⟩

theorem matched_imp {R S : Team → Team → Prop} {A B : List Team} (h : Matched R A B)
    (hi : ∀ a ∈ A, ∀ b ∈ B, R a b → S a b) : Matched S A B := by
  refine ⟨fun b hb => ?_, fun a ha => ?_⟩
  · obtain ⟨a, ha, hr⟩ := h.1 b hb
    exact ⟨a, ha, hi a ha b hb hr⟩
  · obtain ⟨b, hb, hr⟩ := h.2 a ha
    exact ⟨b, hb, hi a ha b hb hr⟩

theorem freeze_of_not_frozen (s : State) (hnf : s.frozen = false) :
    (freeze s).1 = { s with
      frozen := true
      teamList := s.teamList.map (fun t => { t with problems := freezeProblems t.problems }) } := by
  unfold freeze
  rw [if_neg (by simp [hnf])]

theorem sim_freeze {s : State} (hi : Inv s) (hnf : s.frozen = false) :
    List.Forall₂ (fun u f => SimT u f ∧ Snapshot f) s.teamList (freeze s).1.teamList := by
  rw [freeze_of_not_frozen s hnf]
  simp only
  rw [List.forall₂_map_right_iff, List.forall₂_same]
  intro t ht
  have := hi.teams t ht
  rw [hnf] at this
  exact simT_freeze this

theorem scrollLoop_matched (U : List Team) (n : Nat) (s s2 : State) (out : List String)
    (h : scrollLoop n { s with teamList := stdSort compareTeams s.teamList } = some (s2, out))
    (hi : Inv s) (hf : s.frozen = true) (hM : Matched SimT U s.teamList) :
    s2.teamList.Pairwise (fun a b => compareTeams a b = true) ∧ Matched SimT U s2.teamList := by
  have hi0 : Inv { s with teamList := stdSort compareTeams s.teamList } :=
    inv_of_perm hi (stdSort_perm compareTeams s.teamList) s.flushed
  refine scrollLoop_invariant
    (fun st => st.teamList.Pairwise (fun a b => compareTeams a b = true) ∧
      Matched SimT U st.teamList) ?_ n _ s2 out h hi0 hf ?_
  · intro st i p t hist hfst hP ht hp hpos
    have hi1 := inv_reveal hist hfst i p t ht hp hpos
    have hperm := stdSort_perm compareTeams (st.teamList.set i (resolve t p))
    refine ⟨?_, ?_⟩
    · apply stdSort_compareTeams_pairwise
      · intro u hu
        exact (hi1.teams u (hperm.mem_iff.2 hu)).times
      · rw [names_set_resolve _ _ _ _ ht]
        exact hist.names
    · have hti : ∀ x ∈ st.teamList, TeamInv st.problemNames true x := by
        intro x hx
        have := hist.teams x hx
        rw [hfst] at this
        exact this
      exact matched_perm (matched_reveal hP.2 hti i p t ht hpos) (List.Perm.refl _) hperm
  · exact ⟨stdSort_compareTeams_pairwise s.teamList (fun t ht => (hi.teams t ht).times) hi.names,
      matched_perm hM (List.Perm.refl _) (stdSort_perm compareTeams s.teamList)⟩

/-- C19: freezing does not change the final standings. From a reachable,
started, not frozen state `s`, and for a sequence `sigma` of submissions by
registered teams to contest problems, the run without freeze (`sigma`, then
`flush`) and the run with freeze (`freeze`, then `sigma`, then `scroll`) both
complete, the scroll returning the same result for every fuel above the number
of pending pairs. The two final rankings list the same team names in the same
order, and the teams at the same position, which are the teams of the same
name, have the same standing: for every problem the same solved flag, wrong
attempts and solve time, and the same `solvedCount`, `penaltyTime` and
solve times up to order. -/
theorem freeze_keeps_final_standings (s : State) (sigma : List SubmitReq) (hr : Reachable s)
    (hst : s.started = true) (hnf : s.frozen = false)
    (hval : ∀ r ∈ sigma, r.problem ∈ s.problemNames ∧
      (findTeam s.teamList r.teamName).isSome = true) :
    ∃ (u f f1 : State) (out : List String),
      submitAll s sigma = some u ∧ submitAll (freeze s).1 sigma = some f ∧ f.frozen = true ∧
      (∀ fuel, pendingPairs f < fuel → scroll fuel f = some (f1, out)) ∧
      (flush u).1.teamList.map Team.name = f1.teamList.map Team.name ∧
      List.Forall₂ SameStanding (flush u).1.teamList f1.teamList ∧
      (∀ a ∈ (flush u).1.teamList, ∀ b ∈ f1.teamList, a.name = b.name → SameStanding a b) := by
  have hi := inv_reachable hr
  have hiF := inv_freeze hi
  have hF0 := freeze_of_not_frozen s hnf
  have hFf : (freeze s).1.frozen = true := by rw [hF0]
  have hFs : (freeze s).1.started = true := by rw [hF0]; exact hst
  have hFn : s.problemNames = (freeze s).1.problemNames := by rw [hF0]
  obtain ⟨u, f, e1, e2, hiu, hif, huf, hff, -, -, hR⟩ :=
    submitAll_sim sigma s (freeze s).1 hi hiF hnf hFf hst hFs hFn (sim_freeze hi hnf) hval
  obtain ⟨r, hr0⟩ := scroll_total f (pendingPairs f + 1) (Nat.lt_succ_self _)
  obtain ⟨f1, out⟩ := r
  obtain ⟨hi1, -, hq⟩ := scroll_frozen_result _ f f1 out hr0 hif hff
  have hloop := hr0
  rw [scroll_of_frozen _ f hff] at hloop
  cases hl : scrollLoop (pendingPairs f + 1)
      { f with teamList := stdSort compareTeams f.teamList } with
  | none => rw [hl] at hloop; cases hloop
  | some r2 =>
    obtain ⟨s2, out2⟩ := r2
    rw [hl] at hloop
    simp only [Option.some.injEq, Prod.mk.injEq] at hloop
    obtain ⟨e3, -⟩ := hloop
    obtain ⟨hpw, hM⟩ := scrollLoop_matched u.teamList _ f s2 out2 hl hif hff
      (matched_of_forall2 hR)
    have hlist : f1.teamList = s2.teamList := by rw [← e3]
    rw [← hlist] at hpw hM
    have hM2 : Matched SameStanding (stdSort compareTeams u.teamList) f1.teamList := by
      refine matched_perm (matched_imp hM (fun a _ b hb hab => ?_))
        (stdSort_perm compareTeams u.teamList) (List.Perm.refl _)
      exact simT_settled hab (hi1.teams b hb).keys (fun p => (hq b hb p).2)
    have hF2 : List.Forall₂ SameStanding (stdSort compareTeams u.teamList) f1.teamList :=
      forall2_of_matched_sorted (fun a b h => h.name)
        (fun a b c d h1 h2 => sameStanding_compare h1 h2) _ _
        (stdSort_compareTeams_pairwise u.teamList (fun t ht => (hiu.teams t ht).times) hiu.names)
        hpw (inv_flush hiu).names hi1.names hM2
    refine ⟨u, f, f1, out, e1, e2, hff, ?_, ?_, hF2, ?_⟩
    · intro fuel hfuel
      exact scroll_mono _ f _ hr0 fuel hfuel
    · exact forall2_names hF2 (fun a b h => h.name)
    · intro a ha b hb hab
      obtain ⟨b1, hb1, hs⟩ := (matched_of_forall2 hF2).2 a ha
      have : b1 = b :=
        List.inj_on_of_nodup_map hi1.names hb1 hb (by rw [← hs.name, hab])
      rw [← this]
      exact hs

/-- C19 on an example: from `exTwoRejected`, team "beta" has a rejection and
then an acceptance on problem "B", and team "alpha" has its problem "A"
accepted. -/
theorem freeze_keeps_final_standings_witness :
    exTwoRejected.started = true ∧ exTwoRejected.frozen = false ∧
    ∃ (u f f1 : State) (out : List String),
      submitAll exTwoRejected
        [⟨"B", "beta", "Wrong_Answer", 250⟩, ⟨"B", "beta", "Accepted", 260⟩,
          ⟨"A", "alpha", "Accepted", 270⟩] = some u ∧
      submitAll (freeze exTwoRejected).1
        [⟨"B", "beta", "Wrong_Answer", 250⟩, ⟨"B", "beta", "Accepted", 260⟩,
          ⟨"A", "alpha", "Accepted", 270⟩] = some f ∧ f.frozen = true ∧
      (∀ fuel, pendingPairs f < fuel → scroll fuel f = some (f1, out)) ∧
      (flush u).1.teamList.map Team.name = f1.teamList.map Team.name ∧
      List.Forall₂ SameStanding (flush u).1.teamList f1.teamList ∧
      (∀ a ∈ (flush u).1.teamList, ∀ b ∈ f1.teamList, a.name = b.name → SameStanding a b) :=
  ⟨by decide, by decide,
    freeze_keeps_final_standings exTwoRejected _ reachable_exTwoRejected (by decide) (by decide)
      (by decide)⟩

end ICPC
